import Mathlib

/-!
Shallow embedding of the naologic-scheduler reflow engine.

Timestamps are modelled as natural numbers counting minutes since a fixed
Monday 00:00 UTC (every ISO-8601 UTC timestamp at minute granularity can be
written this way; 2026-02-09T00:00Z, the Monday used by the repository's
scenarios, is taken as minute 0 in the concrete inputs below).  Luxon's
`weekday % 7` (Monday = 1, ..., Sunday = 7 before the modulus) therefore
becomes `(day + 1) % 7` for `day` the number of whole days since the epoch,
which matches the dataset convention 0 = Sunday.

Sources embedded: src/reflow/types.ts, src/reflow/constraint-checker.ts,
src/reflow/sequence-preserver.ts, src/reflow/reflow.service.ts,
src/utils/date-utils.ts.  Unread bookkeeping fields (manufacturing order ids,
setup times, sequence ranks, adjacency lists, original gaps) are dropped; the
human-readable message strings are replaced by a structured message type
carrying the same data.  The unbounded `while` loops of the reflow service
take an explicit fuel argument; `none` models divergence of the source loop.
-/

namespace Scheduler

/-- Day number (since the epoch Monday) of a timestamp in minutes. -/
def dayIndex (t : Nat) : Nat := t / 1440

/-- Hour-of-day of a timestamp in minutes (luxon `.hour` in UTC). -/
def hourOf (t : Nat) : Nat := t % 1440 / 60

/-- Dataset day-of-week (0 = Sunday): luxon `weekday % 7` with epoch Monday. -/
def weekday0 (t : Nat) : Nat := (t / 1440 + 1) % 7

/-- Luxon `current.plus({days: 1}).set({hour: 0, minute: 0, ...})`. -/
def nextMidnight (t : Nat) : Nat := (t / 1440 + 1) * 1440

/-- Luxon `current.set({hour: h, minute: 0, second: 0, millisecond: 0})`. -/
def setHour (t : Nat) (h : Nat) : Nat := t / 1440 * 1440 + h * 60

/-- A recurring shift of a work center (types.ts). -/
structure Shift where
  dayOfWeek : Nat
  startHour : Nat
  endHour : Nat
deriving DecidableEq

/-- A one-off maintenance window of a work center (types.ts). -/
structure MaintenanceWindow where
  startDate : Nat
  endDate : Nat
  reason : Option String
deriving DecidableEq

/-- The payload of a work order (types.ts `WorkOrder.data`). -/
structure WorkOrderData where
  workOrderNumber : String
  workCenterId : String
  startDate : Nat
  endDate : Nat
  durationMinutes : Int
  isMaintenance : Bool
  dependsOnWorkOrderIds : List String
deriving DecidableEq

/-- A work order document (types.ts `WorkOrder`). -/
structure WorkOrder where
  docId : String
  data : WorkOrderData
deriving DecidableEq

/-- The payload of a work center (types.ts `WorkCenter.data`). -/
structure WorkCenterData where
  name : String
  shifts : List Shift
  maintenanceWindows : List MaintenanceWindow
deriving DecidableEq

/-- A work center document (types.ts `WorkCenter`). -/
structure WorkCenter where
  docId : String
  data : WorkCenterData
deriving DecidableEq

/-- The violation taxonomy of constraint-checker.ts. -/
inductive ViolationType where
  | OVERLAP
  | OUTSIDE_SHIFT
  | MAINTENANCE_COLLISION
  | DEPENDENCY_ERROR
  | FIXED_ORDER_MOVED
deriving DecidableEq

/-- Structured stand-in for the human-readable violation message strings,
carrying the data interpolated into each template. -/
inductive VMessage where
  | maintWindowOverlap (reason : Option String)
  | fixedOrderMoved (oldStart newStart : Nat)
  | centerBusy (wcId otherId : String) (busyUntil : Nat)
  | totalMismatch (needed : Int) (actual : Nat)
  | invalidStartAt (t : Nat)
  | invalidEndAt (t : Nat)
  | depBeforeParent (parentId : String)
  | fatalFixedOverlap (otherId wcId : String)
  | circularPath (path : List String)
deriving DecidableEq

/-- A schedule violation (constraint-checker.ts `Violation`). -/
structure Violation where
  orderId : String
  type : ViolationType
  message : VMessage
  isFatal : Bool
deriving DecidableEq

/-- Stable insertion of `x` after all list elements with key ≤ its own:
together with `sortByKey` this reproduces JavaScript's stable `Array.sort`
under a numeric-key comparator. -/
def insertByKey (key : α → Nat) (x : α) : List α → List α
  | [] => [x]
  | y :: ys => if key y ≤ key x then y :: insertByKey key x ys else x :: y :: ys

/-- Stable sort by a numeric key (JavaScript `Array.sort` with
`(a, b) => key(a) - key(b)`). -/
def sortByKey (key : α → Nat) (l : List α) : List α :=
  l.foldl (fun acc x => insertByKey key x acc) []

/-- Append a value to the group of key `k`, creating the group at the end on
first occurrence (JavaScript object insertion order for string keys). -/
def groupUpd (k : String) (x : α) : List (String × List α) → List (String × List α)
  | [] => [(k, [x])]
  | (k', xs) :: rest =>
    if k' = k then (k', xs ++ [x]) :: rest else (k', xs) :: groupUpd k x rest

/-- constraint-checker.ts `groupBy`, as an association list in first-occurrence
key order (the iteration order of `Object.entries` for the non-numeric ids
used by the scheduler). -/
def groupBy (key : α → String) (l : List α) : List (String × List α) :=
  l.foldl (fun acc x => groupUpd (key x) x acc) []

/-- Last match in a list (a JavaScript `Map` built from a list keeps the last
binding for a duplicated key). -/
def findLast? (p : α → Bool) (l : List α) : Option α :=
  l.foldl (fun acc x => if p x then some x else acc) none

/-- Luxon `Interval.fromDateTimes(a1, a2).overlaps(Interval.fromDateTimes(b1, b2))`:
true overlap of half-open intervals, false when either interval is invalid. -/
def overlapsB (a1 a2 b1 b2 : Nat) : Bool :=
  decide (a1 ≤ a2 ∧ b1 ≤ b2 ∧ b1 < a2 ∧ a1 < b2)

namespace DateUtils

/-- date-utils.ts `isTimeInShift`: half-open, mode-dependent membership of a
time in some shift of its weekday. -/
def isTimeInShift (time : Nat) (shifts : List Shift) (isEnd : Bool) : Bool :=
  shifts.any fun s =>
    if s.dayOfWeek ≠ weekday0 time then false
    else
      let shiftStart := setHour time s.startHour
      let shiftEnd := setHour time s.endHour
      if isEnd then decide (shiftStart < time ∧ time ≤ shiftEnd)
      else decide (shiftStart ≤ time ∧ time < shiftEnd)

/-- date-utils.ts `calculateWorkingMinutes`: net on-shift minutes between two
timestamps, with maintenance-window intersections subtracted per shift slice
and each slice clamped at zero.  With minute-integral inputs the final
`Math.round` is the identity. -/
def calculateWorkingMinutes (startT endT : Nat) (center : WorkCenter) : Nat :=
  if endT ≤ startT then 0
  else
    let firstDay := dayIndex startT
    let lastDay := dayIndex endT
    ((List.range (lastDay - firstDay + 1)).map (firstDay + ·)).foldl
      (fun (acc : Nat) d =>
        let dayShifts := center.data.shifts.filter fun s =>
          decide (s.dayOfWeek = weekday0 (d * 1440))
        acc + dayShifts.foldl (fun (acc2 : Nat) s =>
          let ws := max startT (d * 1440 + s.startHour * 60)
          let we := min endT (d * 1440 + s.endHour * 60)
          if ws < we then
            let slice : Int :=
              center.data.maintenanceWindows.foldl
                (fun (m : Int) w =>
                  m - ((min we w.endDate - max ws w.startDate : Nat) : Int))
                ((we - ws : Nat) : Int)
            acc2 + slice.toNat
          else acc2) 0) 0

end DateUtils

namespace ConstraintChecker

/-- constraint-checker.ts `checkOrderCollidesWithMaintenanceWindow`: one
non-fatal MAINTENANCE_COLLISION per production order overlapping some window
of its (resolvable) center, first window only. -/
def checkOrderCollidesWithMaintenanceWindow (orders : List WorkOrder)
    (centers : List WorkCenter) : List Violation :=
  orders.flatMap fun order =>
    if order.data.isMaintenance then []
    else
      match centers.find? (fun c => c.docId == order.data.workCenterId) with
      | none => []
      | some center =>
        if center.data.maintenanceWindows.isEmpty then []
        else
          match center.data.maintenanceWindows.find? (fun mw =>
              overlapsB order.data.startDate order.data.endDate
                mw.startDate mw.endDate) with
          | some mw =>
            [{ orderId := order.docId, type := .MAINTENANCE_COLLISION,
               message := .maintWindowOverlap mw.reason, isFatal := false }]
          | none => []

/-- constraint-checker.ts `checkFixedOrders`: a maintenance order whose start
differs from its original start yields FIXED_ORDER_MOVED. -/
def checkFixedOrders (current original : List WorkOrder) : List Violation :=
  current.filterMap fun order =>
    if order.data.isMaintenance then
      match original.find? (fun o => o.docId == order.docId) with
      | some orig =>
        if orig.data.startDate ≠ order.data.startDate then
          some { orderId := order.docId, type := .FIXED_ORDER_MOVED,
                 message := .fixedOrderMoved orig.data.startDate order.data.startDate,
                 isFatal := false }
        else none
      | none => none
    else none

/-- constraint-checker.ts `checkOverlaps`: per work center, sort by start and
flag each adjacent pair with `next.start < current.end` on the later order. -/
def checkOverlaps (orders : List WorkOrder) : List Violation :=
  (groupBy (fun o => o.data.workCenterId) orders).flatMap fun g =>
    let sorted := sortByKey (fun o => o.data.startDate) g.2
    (sorted.zip sorted.tail).filterMap fun p =>
      if p.2.data.startDate < p.1.data.endDate then
        some { orderId := p.2.docId, type := .OVERLAP,
               message := .centerBusy g.1 p.1.docId p.1.data.endDate,
               isFatal := false }
      else none

/-- constraint-checker.ts `checkFixedOrderOverlaps`: among maintenance orders
of one center, any adjacent overlap after sorting is fatal. -/
def checkFixedOrderOverlaps (orders : List WorkOrder) : List Violation :=
  (groupBy (fun o => o.data.workCenterId)
      (orders.filter (·.data.isMaintenance))).flatMap fun g =>
    let sorted := sortByKey (fun o => o.data.startDate) g.2
    (sorted.zip sorted.tail).filterMap fun p =>
      if p.2.data.startDate < p.1.data.endDate then
        some { orderId := p.2.docId, type := .MAINTENANCE_COLLISION,
               message := .fatalFixedOverlap p.1.docId g.1, isFatal := true }
      else none

/-- constraint-checker.ts `checkShifts`: per production order on a resolvable
center, up to three OUTSIDE_SHIFT violations — working-minute mismatch beyond
±1, start hour outside every same-day shift, end hour outside every same-day
shift (both boundary checks compare the `.hour` field only). -/
def checkShiftsOrder (centers : List WorkCenter) (order : WorkOrder) :
    List Violation :=
  if order.data.isMaintenance then []
  else
    match centers.find? (fun c => c.docId == order.data.workCenterId) with
    | none => []
    | some center =>
      let start := order.data.startDate
      let endT := order.data.endDate
      let actualMins :=
        DateUtils.calculateWorkingMinutes start endT center
      let mismatch :=
        if ((actualMins : Int) - order.data.durationMinutes).natAbs > 1 then
          [{ orderId := order.docId, type := .OUTSIDE_SHIFT,
             message := .totalMismatch order.data.durationMinutes actualMins,
             isFatal := false }]
        else []
      let isStartInShift := center.data.shifts.any fun s =>
        decide (s.dayOfWeek = weekday0 start ∧ s.startHour ≤ hourOf start ∧
          hourOf start < s.endHour)
      let badStart :=
        if isStartInShift then []
        else
          [{ orderId := order.docId, type := .OUTSIDE_SHIFT,
             message := .invalidStartAt start, isFatal := false }]
      let isEndInShift := center.data.shifts.any fun s =>
        decide (s.dayOfWeek = weekday0 endT ∧ s.startHour < hourOf endT ∧
          hourOf endT ≤ s.endHour)
      let badEnd :=
        if isEndInShift then []
        else
          [{ orderId := order.docId, type := .OUTSIDE_SHIFT,
             message := .invalidEndAt endT, isFatal := false }]
      mismatch ++ badStart ++ badEnd

/-- constraint-checker.ts `checkShifts`: the per-order check over all
orders. -/
def checkShifts (orders : List WorkOrder) (centers : List WorkCenter) :
    List Violation :=
  orders.flatMap (checkShiftsOrder centers)

/-- constraint-checker.ts `checkDependencies`: a child starting before a
resolvable parent's end yields DEPENDENCY_ERROR (last duplicate id wins, as
in a JavaScript `Map`). -/
def checkDependencies (orders : List WorkOrder) : List Violation :=
  orders.flatMap fun order =>
    order.data.dependsOnWorkOrderIds.filterMap fun parentId =>
      match findLast? (fun o => o.docId == parentId) orders with
      | some parent =>
        if order.data.startDate < parent.data.endDate then
          some { orderId := order.docId, type := .DEPENDENCY_ERROR,
                 message := .depBeforeParent parentId, isFatal := false }
        else none
      | none => none

/-- State of the cycle-detection DFS: the `visited` set, the mutable
recursion stack (shared across roots; early returns leave it uncleaned, as in
the source) and the accumulated violations. -/
structure CycState where
  visited : List String
  recStack : List String
  violations : List Violation

/-- constraint-checker.ts `hasCycle`: DFS on one node.  The inner fold is the
source's `for (const depId of ...)` loop; once a cycle is found the remaining
children are skipped, modelling its early `return true` (which also skips the
recursion-stack cleanup).  The fuel bounds the recursion depth; the bound
chosen in `checkCircularDependencies` exceeds the number of distinct ids
reachable, so it is never exhausted. -/
def hasCycle (orders : List WorkOrder) : Nat → String → List String →
    CycState → CycState × Bool
  | 0, _, _, st => (st, false)
  | fuel + 1, orderId, path, st =>
    if orderId ∈ st.recStack then
      ({ st with violations := st.violations ++
          [{ orderId := orderId, type := .DEPENDENCY_ERROR,
             message := .circularPath (path ++ [orderId]), isFatal := true }] },
       true)
    else if orderId ∈ st.visited then (st, false)
    else
      let st' := { st with visited := st.visited ++ [orderId],
                           recStack := st.recStack ++ [orderId] }
      match findLast? (fun o => o.docId == orderId) orders with
      | some order =>
        let r := order.data.dependsOnWorkOrderIds.foldl
          (fun (acc : CycState × Bool) depId =>
            if acc.2 then acc
            else hasCycle orders fuel depId (path ++ [orderId]) acc.1)
          (st', false)
        if r.2 then (r.1, true)
        else ({ r.1 with recStack := r.1.recStack.erase orderId }, false)
      | none => ({ st' with recStack := st'.recStack.erase orderId }, false)

/-- constraint-checker.ts `checkCircularDependencies`: run the DFS from every
not-yet-visited order; each back edge emits one fatal DEPENDENCY_ERROR. -/
def checkCircularDependencies (orders : List WorkOrder) : List Violation :=
  let fuel := orders.length +
    (orders.flatMap (·.data.dependsOnWorkOrderIds)).length + 2
  (orders.foldl
    (fun (st : CycState) order =>
      if order.docId ∈ st.visited then st
      else (hasCycle orders fuel order.docId [] st).1)
    { visited := [], recStack := [], violations := [] }).violations

/-- constraint-checker.ts `verify`: all passes concatenated in source order. -/
def verify (orders : List WorkOrder) (centers : List WorkCenter)
    (originalOrders : Option (List WorkOrder)) : List Violation :=
  checkOrderCollidesWithMaintenanceWindow orders centers ++
  (match originalOrders with
   | some orig => checkFixedOrders orders orig
   | none => []) ++
  checkOverlaps orders ++
  checkShifts orders centers ++
  checkDependencies orders ++
  checkFixedOrderOverlaps orders ++
  checkCircularDependencies orders

end ConstraintChecker

namespace SequencePreserver

/-- sequence-preserver.ts: `[...new Set(l)]`, first-occurrence order. -/
def dedupFirst (l : List String) : List String :=
  l.foldl (fun acc x => if x ∈ acc then acc else acc ++ [x]) []

/-- sequence-preserver.ts: the `relatives` of an order — anyone it depends on
or anyone depending on it, in list order. -/
def relativesOf (orders : List WorkOrder) (o : WorkOrder) : List WorkOrder :=
  orders.filter fun other =>
    decide (other.docId ∈ o.data.dependsOnWorkOrderIds) ||
    decide (o.docId ∈ other.data.dependsOnWorkOrderIds)

/-- The pop phase of the component DFS of sequence-preserver.ts: discard
already-visited stack entries (which the source's loop skips with `continue`)
until an unvisited order id is popped; an id absent from `orders` is also
skipped (unreachable: the stack only ever holds order ids).  `stackR` is the
source's stack reversed, so its `pop` takes the head here. -/
def crawlPop (orders : List WorkOrder) (visited : List String) :
    List String → Option (WorkOrder × List String)
  | [] => none
  | id :: rest =>
    if id ∈ visited then crawlPop orders visited rest
    else
      match orders.find? (fun o => o.docId == id) with
      | none => crawlPop orders visited rest
      | some o => some (o, rest)

/-- sequence-preserver.ts: the stack-based DFS inside `findDependencyGroups`
collecting one connected component.  Each round pops one unvisited order,
marks it, records it, and pushes its relatives.  Every round removes one
order from the unvisited set, so the fuel `orders.length + 1` supplied by
`crawl` is never exhausted. -/
def crawlGo (orders : List WorkOrder) : Nat → List String → List String →
    List String → List String × List String
  | 0, visited, _, acc => (visited, acc)
  | fuel + 1, visited, stackR, acc =>
    match crawlPop orders visited stackR with
    | none => (visited, acc)
    | some (o, rest) =>
      crawlGo orders fuel (o.docId :: visited)
        (((relativesOf orders o).map (·.docId)).reverse ++ rest)
        (acc ++ [o.docId])

def crawl (orders : List WorkOrder) (visited : List String)
    (stackR : List String) (acc : List String) : List String × List String :=
  crawlGo orders (orders.length + 1) visited stackR acc

/-- A dependency cluster (sequence-preserver.ts `DependencyGroup`; the unused
adjacency list and anchor are dropped). -/
structure DependencyGroup where
  orderIds : List String
  topologicalOrdering : List String
deriving DecidableEq

/-- sequence-preserver.ts `findDependencyGroups`: crawl connected components
of the undirected dependency graph, keeping only components with at least one
actual dependency link. -/
def findDependencyGroupsGo (orders : List WorkOrder) :
    List WorkOrder → List String → List DependencyGroup → List DependencyGroup
  | [], _, groups => groups
  | order :: rest, visited, groups =>
    if order.docId ∈ visited then findDependencyGroupsGo orders rest visited groups
    else
      let r := crawl orders visited [order.docId] []
      let hasActualDeps := r.2.any fun id =>
        match orders.find? (fun o => o.docId == id) with
        | some o =>
          decide (o.data.dependsOnWorkOrderIds ≠ []) ||
          orders.any (fun other => decide (id ∈ other.data.dependsOnWorkOrderIds))
        | none => false
      if hasActualDeps then
        findDependencyGroupsGo orders rest r.1
          (groups ++ [{ orderIds := r.2, topologicalOrdering := [] }])
      else findDependencyGroupsGo orders rest r.1 groups

def findDependencyGroups (orders : List WorkOrder) : List DependencyGroup :=
  findDependencyGroupsGo orders orders [] []

/-- sequence-preserver.ts `topologicalSort`: an id is ready when none of the
ids still remaining in its group is among its parents.  A missing order for a
group id (unreachable) counts as ready. -/
def isReady (centerOrders : List WorkOrder) (remaining : List String)
    (id : String) : Bool :=
  match centerOrders.find? (fun o => o.docId == id) with
  | some order =>
    ! remaining.any fun otherId =>
        decide (otherId ∈ order.data.dependsOnWorkOrderIds)
  | none => true

/-- sequence-preserver.ts `topologicalSort` loop: repeatedly move the first
ready id from `remaining` to the result; break when none is ready (cycle
safety).  The fuel equals the initial length, which suffices since each step
removes one element. -/
def topoSortGo (centerOrders : List WorkOrder) :
    Nat → List String → List String → List String
  | 0, _, acc => acc
  | fuel + 1, remaining, acc =>
    if remaining.isEmpty then acc
    else
      match remaining.find? (isReady centerOrders remaining) with
      | none => acc
      | some id =>
        topoSortGo centerOrders fuel (remaining.erase id) (acc ++ [id])

def topologicalSort (g : DependencyGroup) (centerOrders : List WorkOrder) :
    DependencyGroup :=
  { g with topologicalOrdering :=
      topoSortGo centerOrders g.orderIds.length g.orderIds [] }

/-- sequence-preserver.ts `findOriginalSequenceOrder`: stable sort by start
date with the original index as tie-break (the unused rank and gap fields are
dropped, leaving the sorted order list). -/
def findOriginalSequenceOrder (orders : List WorkOrder) : List WorkOrder :=
  (sortByKey (fun p => p.2.data.startDate * (orders.length + 1) + p.1)
    orders.enum).map (·.2)

/-- sequence-preserver.ts: the final interleaving walk of `prepare` — emit a
whole topologically ordered group at the position of its first member in the
chronological walk, and independent orders singly. -/
def interleaveGo (centerOrders : List WorkOrder)
    (groups : List DependencyGroup) :
    List WorkOrder → List String → List WorkOrder → List WorkOrder
  | [], _, acc => acc
  | seqItem :: rest, processed, acc =>
    if seqItem.docId ∈ processed then
      interleaveGo centerOrders groups rest processed acc
    else
      match groups.find? (fun g => decide (seqItem.docId ∈ g.orderIds)) with
      | some g =>
        interleaveGo centerOrders groups rest
          (processed ++ g.topologicalOrdering)
          (acc ++ g.topologicalOrdering.filterMap fun id =>
            centerOrders.find? (fun o => o.docId == id))
      | none =>
        interleaveGo centerOrders groups rest
          (processed ++ [seqItem.docId]) (acc ++ [seqItem])

/-- sequence-preserver.ts `prepare`: per work center (first-occurrence order),
drop maintenance orders, cluster and topologically sort the dependency
groups, and interleave them with the independent orders in original
chronological order.  The unused ranks are dropped, so each center maps to
its processing list of orders. -/
def prepare (orders : List WorkOrder) : List (String × List WorkOrder) :=
  (dedupFirst (orders.map (·.data.workCenterId))).map fun wcId =>
    let centerOrders := orders.filter fun o =>
      o.data.workCenterId == wcId && !o.data.isMaintenance
    let dependencyGroups :=
      (findDependencyGroups centerOrders).map (topologicalSort · centerOrders)
    let originalSequence := findOriginalSequenceOrder centerOrders
    (wcId, interleaveGo centerOrders dependencyGroups originalSequence [] [])

end SequencePreserver

/-- One entry of the `changes` log: the source pushes the string
`"Order <number> moved to <new start>"`; the two interpolated data are kept. -/
structure Change where
  workOrderNumber : String
  newStartDate : Nat
deriving DecidableEq

/-- One entry of the `explanation` log, one constructor per template string
pushed by reflow.service.ts. -/
inductive Explanation where
  | originalViolation (t : ViolationType)
  | cascading
  | collisionWithPrev (prevNumber : String)
deriving DecidableEq

/-- reflow.service.ts `ReflowedSchedule`. -/
structure ReflowedSchedule where
  updatedWorkOrders : List WorkOrder
  changes : List Change
  explanation : List Explanation
deriving DecidableEq

namespace ReflowService

/-- reflow.service.ts `findNextAvailableStart` loop body, one fuel unit per
`while` iteration; `maintenanceOrders` is the precomputed filter of
`allOrders` to this center's maintenance orders.  The source loop has no
iteration cap; `none` models its divergence. -/
def findNextAvailableStartGo (center : WorkCenter)
    (maintenanceOrders : List WorkOrder) : Nat → Nat → Option Nat
  | 0, _ => none
  | fuel + 1, current =>
    match center.data.shifts.find? (fun s => s.dayOfWeek == weekday0 current) with
    | none => findNextAvailableStartGo center maintenanceOrders fuel
        (nextMidnight current)
    | some shift =>
      let shiftStart := setHour current shift.startHour
      let shiftEnd := setHour current shift.endHour
      if shiftStart ≤ current ∧ shiftEnd ≤ current then
        findNextAvailableStartGo center maintenanceOrders fuel
          (nextMidnight current)
      else
        -- `current < shiftStart` snaps to the shift start and falls through
        -- to the blocker checks within the same iteration.
        let cur2 := max current shiftStart
        match maintenanceOrders.find? (fun m =>
            decide (m.data.startDate ≤ cur2 ∧ cur2 < m.data.endDate)) with
        | some m => findNextAvailableStartGo center maintenanceOrders fuel
            m.data.endDate
        | none =>
          match center.data.maintenanceWindows.find? (fun w =>
              decide (w.startDate ≤ cur2 ∧ cur2 < w.endDate)) with
          | some w => findNextAvailableStartGo center maintenanceOrders fuel
              w.endDate
          | none => some cur2

/-- reflow.service.ts `findNextAvailableStart`. -/
def findNextAvailableStart (fuel : Nat) (proposedStart : Nat)
    (center : WorkCenter) (allOrders : List WorkOrder) : Option Nat :=
  findNextAvailableStartGo center
    (allOrders.filter fun o =>
      o.data.isMaintenance && o.data.workCenterId == center.docId)
    fuel proposedStart

/-- reflow.service.ts `findEndDate`: the end-of-iteration jump to the next
day's midnight, snapped to that day's shift start when it has a shift. -/
def nextDayStart (center : WorkCenter) (t : Nat) : Nat :=
  let m := nextMidnight t
  match center.data.shifts.find? (fun s => s.dayOfWeek == weekday0 m) with
  | some s => setHour m s.startHour
  | none => m

/-- One iteration of the reflow.service.ts `findEndDate` loop: either a final
end time (`Sum.inl`) or the remaining minutes and cursor for the next
iteration (`Sum.inr`).  The source's `nextDeadline` is the earliest obstacle
start in `[current, shiftEnd)` if any, else the shift end; the two cases are
written out separately here.  When work stops at an obstacle start the cursor
jumps to the obstacle end, otherwise to the next day's shift start. -/
def findEndDateStep (center : WorkCenter) (obstacles : List (Nat × Nat))
    (remaining : Int) (current : Nat) : Nat ⊕ (Int × Nat) :=
  match center.data.shifts.find?
      (fun s => s.dayOfWeek == weekday0 current) with
  | none => Sum.inr (remaining, nextDayStart center current)
  | some shift =>
    match (sortByKey Prod.fst (obstacles.filter fun obs =>
        decide (current ≤ obs.1 ∧
          obs.1 < setHour current shift.endHour))).head? with
    | none =>
      -- no obstacle in this shift: the deadline is the shift end
      if 0 < (setHour current shift.endHour : Int) - (current : Int) ∧
          remaining ≤ (setHour current shift.endHour : Int) - (current : Int) then
        Sum.inl (current + remaining.toNat)
      else if 0 < (setHour current shift.endHour : Int) - (current : Int) then
        -- consume up to the shift end, then jump to the next day
        Sum.inr (remaining - ((setHour current shift.endHour : Int) -
          (current : Int)), nextDayStart center (setHour current shift.endHour))
      else Sum.inr (remaining, nextDayStart center current)
    | some obs =>
      -- the deadline is the earliest obstacle start
      if 0 < (obs.1 : Int) - (current : Int) ∧
          remaining ≤ (obs.1 : Int) - (current : Int) then
        Sum.inl (current + remaining.toNat)
      else if 0 < (obs.1 : Int) - (current : Int) then
        -- consume up to the obstacle start, which the cursor then reaches,
        -- so the following equality test succeeds and jumps over the obstacle
        Sum.inr (remaining - ((obs.1 : Int) - (current : Int)), obs.2)
      else if current = obs.1 then Sum.inr (remaining, obs.2)
      else Sum.inr (remaining, nextDayStart center current)

/-- reflow.service.ts `findEndDate` loop, one fuel unit per `while`
iteration; `obstacles` are the (start, end) pairs of the center's maintenance
windows followed by its maintenance orders. -/
def findEndDateGo (center : WorkCenter) (obstacles : List (Nat × Nat)) :
    Nat → Int → Nat → Option Nat
  | 0, remaining, current => if remaining ≤ 0 then some current else none
  | fuel + 1, remaining, current =>
    if remaining ≤ 0 then some current
    else
      match findEndDateStep center obstacles remaining current with
      | Sum.inl e => some e
      | Sum.inr rc => findEndDateGo center obstacles fuel rc.1 rc.2

/-- The unified obstacle list of reflow.service.ts `findEndDate`: the
center's maintenance windows followed by its maintenance orders. -/
def obstaclesOf (center : WorkCenter) (allOrders : List WorkOrder) :
    List (Nat × Nat) :=
  center.data.maintenanceWindows.map (fun w => (w.startDate, w.endDate)) ++
    (allOrders.filter fun o =>
      o.data.isMaintenance && o.data.workCenterId == center.docId).map
      (fun o => (o.data.startDate, o.data.endDate))

/-- reflow.service.ts `findEndDate`. -/
def findEndDate (fuel : Nat) (start : Nat) (duration : Int)
    (center : WorkCenter) (allOrders : List WorkOrder) : Option Nat :=
  findEndDateGo center (obstaclesOf center allOrders) fuel duration start

/-- reflow.service.ts `applyShift`: move the order to `start` and recompute
its end with `findEndDate`. -/
def applyShift (fuel : Nat) (order : WorkOrder) (start : Nat)
    (center : WorkCenter) (allOrders : List WorkOrder) : Option WorkOrder :=
  (findEndDate fuel start order.data.durationMinutes center allOrders).map
    fun e =>
      { order with data :=
          { order.data with startDate := start, endDate := e } }

/-- The loop state of `rescheduleByCenter`: the orders already placed by this
pass, the two logs, and the cascade flag. -/
structure CenterState where
  scheduled : List WorkOrder
  changes : List Change
  explanation : List Explanation
  hasCascade : Bool
deriving DecidableEq

/-- One iteration of the `rescheduleByCenter` loop of reflow.service.ts,
transcribing its cascade/ok branching.  The previous order is the last one
scheduled (the source indexes `correctlyScheduledOrders[i-1]`, which is the
last pushed element since each iteration pushes exactly one order). -/
def processOrder (fuel : Nat) (center : WorkCenter)
    (allOrders : List WorkOrder) (originalViolations : List Violation)
    (st : CenterState) (currOrder : WorkOrder) : Option CenterState :=
  let currStart := currOrder.data.startDate
  let origViolation := originalViolations.find?
    (fun v => v.orderId == currOrder.docId)
  let checkForOriginalViolations := match st.scheduled.getLast? with
    | some prev => decide (prev.data.endDate ≤ currStart)
    | none => true
  if st.hasCascade then
    if checkForOriginalViolations then
      match origViolation with
      | some v =>
        match findNextAvailableStart fuel currStart center allOrders with
        | none => none
        | some newStart =>
          match applyShift fuel currOrder newStart center allOrders with
          | none => none
          | some o' =>
            some { scheduled := st.scheduled ++ [o'],
                   changes := st.changes ++
                     [{ workOrderNumber := o'.data.workOrderNumber,
                        newStartDate := o'.data.startDate }],
                   explanation := st.explanation ++ [.originalViolation v.type],
                   hasCascade := true }
      | none =>
        -- The cascade ends here: this order fits in its original slot.
        some { st with scheduled := st.scheduled ++ [currOrder],
                       hasCascade := false }
    else
      match st.scheduled.getLast? with
      | none => none   -- unreachable: ¬ok forces a previous order
      | some prev =>
        match findNextAvailableStart fuel prev.data.endDate center allOrders with
        | none => none
        | some newStart =>
          match applyShift fuel currOrder newStart center allOrders with
          | none => none
          | some o' =>
            some { scheduled := st.scheduled ++ [o'],
                   changes := st.changes ++
                     [{ workOrderNumber := o'.data.workOrderNumber,
                        newStartDate := o'.data.startDate }],
                   explanation := st.explanation ++ [.cascading],
                   hasCascade := true }
  else
    if checkForOriginalViolations then
      match origViolation with
      | some v =>
        match findNextAvailableStart fuel currStart center allOrders with
        | none => none
        | some newStart =>
          match applyShift fuel currOrder newStart center allOrders with
          | none => none
          | some o' =>
            some { scheduled := st.scheduled ++ [o'],
                   changes := st.changes ++
                     [{ workOrderNumber := o'.data.workOrderNumber,
                        newStartDate := o'.data.startDate }],
                   explanation := st.explanation ++ [.originalViolation v.type],
                   hasCascade := true }
      | none => some { st with scheduled := st.scheduled ++ [currOrder] }
    else
      match st.scheduled.getLast? with
      | none => none   -- unreachable: the source's null arm of this ternary
      | some prev =>
        match findNextAvailableStart fuel prev.data.endDate center allOrders with
        | none => none
        | some newStart =>
          match applyShift fuel currOrder newStart center allOrders with
          | none => none
          | some o' =>
            let reason : Explanation := match origViolation with
              | some v => .originalViolation v.type
              | none => .collisionWithPrev prev.data.workOrderNumber
            some { scheduled := st.scheduled ++ [o'],
                   changes := st.changes ++
                     [{ workOrderNumber := o'.data.workOrderNumber,
                        newStartDate := o'.data.startDate }],
                   explanation := st.explanation ++ [reason],
                   hasCascade := true }

/-- The `for` loop of `rescheduleByCenter` over the processing order. -/
def processOrders (fuel : Nat) (center : WorkCenter)
    (allOrders : List WorkOrder) (originalViolations : List Violation) :
    List WorkOrder → CenterState → Option CenterState
  | [], st => some st
  | o :: rest, st =>
    match processOrder fuel center allOrders originalViolations st o with
    | some st' => processOrders fuel center allOrders originalViolations rest st'
    | none => none

/-- reflow.service.ts `rescheduleByCenter`: process this center's prepared
sequence, returning the updated orders and the log entries appended by this
pass. -/
def rescheduleByCenter (fuel : Nat) (orders : List WorkOrder)
    (center : WorkCenter) (allOrders : List WorkOrder)
    (originalViolations : List Violation) :
    Option (List WorkOrder × List Change × List Explanation) :=
  let processing :=
    ((SequencePreserver.prepare orders).lookup center.docId).getD []
  (processOrders fuel center allOrders originalViolations processing
    { scheduled := [], changes := [], explanation := [], hasCascade := false
    }).map fun st => (st.scheduled, st.changes, st.explanation)

/-- reflow.service.ts `reschedule` write-back: replace the first entry bearing
the updated order's id (a JavaScript `findIndex` miss writes to index -1,
leaving the array elements unchanged). -/
def replaceFirstById (cur : List WorkOrder) (u : WorkOrder) : List WorkOrder :=
  match cur.findIdx? (fun o => o.docId == u.docId) with
  | some i => cur.set i u
  | none => cur

/-- The `for (const center of centers)` loop of `reschedule`, threading the
evolving order list and the two shared logs. -/
def rescheduleGo (fuel : Nat) (originalViolations : List Violation) :
    List WorkCenter → List WorkOrder × List Change × List Explanation →
    Option (List WorkOrder × List Change × List Explanation)
  | [], st => some st
  | center :: rest, (cur, chs, exps) =>
    let centerOrders := cur.filter fun o =>
      o.data.workCenterId == center.docId
    match rescheduleByCenter fuel centerOrders center cur originalViolations with
    | none => none
    | some (updated, ch, ex) =>
      rescheduleGo fuel originalViolations rest
        (updated.foldl replaceFirstById cur, chs ++ ch, exps ++ ex)

/-- reflow.service.ts `reschedule` (the deep copy of a functional value is the
value itself). -/
def reschedule (fuel : Nat) (orders : List WorkOrder)
    (centers : List WorkCenter) (originalViolations : List Violation) :
    Option ReflowedSchedule :=
  (rescheduleGo fuel originalViolations centers (orders, [], [])).map
    fun r => { updatedWorkOrders := r.1, changes := r.2.1, explanation := r.2.2 }

/-- reflow.service.ts `reflow`: return valid input unchanged, refuse fatal
input with the NOT FIXABLE error, otherwise repair.  `OUT OF FUEL` marks
divergence of the source's unbounded cursor loops. -/
def reflow (fuel : Nat) (orders : List WorkOrder) (centers : List WorkCenter) :
    Except String ReflowedSchedule :=
  let violations := ConstraintChecker.verify orders centers none
  if violations.isEmpty then
    .ok { updatedWorkOrders := orders, changes := [], explanation := [] }
  else if violations.any (·.isFatal) then .error "NOT FIXABLE"
  else
    match reschedule fuel orders centers violations with
    | some r => .ok r
    | none => .error "OUT OF FUEL"

end ReflowService

/-- Everything of a work order except its two dates; the reflow pipeline
moves orders but preserves this projection. -/
def stripDates (o : WorkOrder) :
    String × String × String × Int × Bool × List String :=
  (o.docId, o.data.workOrderNumber, o.data.workCenterId,
   o.data.durationMinutes, o.data.isMaintenance, o.data.dependsOnWorkOrderIds)

/-! Concrete scenarios.  Minute 0 is 2026-02-09T00:00Z, a Monday, so
08:00 = 480, 09:00 = 540, 10:00 = 600, 11:00 = 660, 12:00 = 720,
17:00 = 1020.  All centers carry the repository's default shift table
Mon/Tue 08–17. -/

/-- Work-order builder for the concrete scenarios. -/
def mkWO (id num wc : String) (s e : Nat) (d : Int) (m : Bool)
    (deps : List String) : WorkOrder :=
  { docId := id,
    data := { workOrderNumber := num, workCenterId := wc, startDate := s,
              endDate := e, durationMinutes := d, isMaintenance := m,
              dependsOnWorkOrderIds := deps } }

/-- Work-center builder with the default Mon/Tue 08–17 shifts. -/
def mkWC (id : String) (mws : List MaintenanceWindow) : WorkCenter :=
  { docId := id,
    data := { name := id, shifts := [⟨1, 8, 17⟩, ⟨2, 8, 17⟩],
              maintenanceWindows := mws } }

/-- Maintenance-sandwich center: window 2026-02-09T08:00–09:00. -/
def sandwichCenter : WorkCenter := mkWC "wc-1" [⟨480, 540, some "Static Cleaning"⟩]

/-- Fixed maintenance work order 09:00–10:00. -/
def sandwichMaint : WorkOrder := mkWO "M" "MAINT-TASK" "wc-1" 540 600 60 true []

/-- Production order, 60 minutes, requested 08:00–09:00. -/
def sandwichProd : WorkOrder := mkWO "P" "THE-JUMPER" "wc-1" 480 540 60 false []

/-- The production order as placed by the engine: 10:00–11:00. -/
def sandwichProdMoved : WorkOrder := mkWO "P" "THE-JUMPER" "wc-1" 600 660 60 false []

/-- A plain center: default shifts, no maintenance windows. -/
def plainCenter : WorkCenter := mkWC "wc-1" []

/-- A second plain center. -/
def plainCenterTwo : WorkCenter := mkWC "wc-2" []

/-- C1 failing input: a valid production order 10:00–12:00 ... -/
def overlapProd : WorkOrder := mkWO "P" "WO-P" "wc-1" 600 720 120 false []

/-- ... and a maintenance order 11:00–12:00 overlapping it; the OVERLAP pass
flags the (immovable) maintenance order, so the engine repairs nothing. -/
def overlapMaint : WorkOrder := mkWO "M" "WO-M" "wc-1" 660 720 60 true []

/-- A single already-valid production order (Mon 08:00–09:00, 60 min). -/
def validOrder : WorkOrder := mkWO "V" "WO-V" "wc-1" 480 540 60 false []

/-- Circular scenario: A depends on B ... -/
def circularA : WorkOrder := mkWO "A" "WO-A" "wc-1" 480 600 120 false ["B"]

/-- ... and B depends on A. -/
def circularB : WorkOrder := mkWO "B" "WO-B" "wc-1" 480 600 120 false ["A"]

/-- Cross-center parent on wc-2 ending 12:00. -/
def crossParent : WorkOrder := mkWO "B" "WO-B" "wc-2" 480 720 240 false []

/-- Cross-center child on wc-1 starting 08:00, depending on `crossParent`. -/
def crossChild : WorkOrder := mkWO "A" "WO-A" "wc-1" 480 540 60 false ["B"]

/-- Same-center chain: independent parent 08:00–10:00 ... -/
def chainParent : WorkOrder := mkWO "A" "WO-A" "wc-1" 480 600 120 false []

/-- ... and a child with the same requested slot, depending on it. -/
def chainChild : WorkOrder := mkWO "B" "WO-B" "wc-1" 480 600 120 false ["A"]

/-- Production order ending mid-hour at 08:30 (inside the 08–17 shift). -/
def halfHourEndOrder : WorkOrder := mkWO "E" "WO-E" "wc-1" 480 510 30 false []

/-- A center with an empty shift table. -/
def shiftlessCenter : WorkCenter :=
  { docId := "wc-0",
    data := { name := "Empty", shifts := [], maintenanceWindows := [] } }

/-- Marks the two shift-boundary violation messages of `checkShifts`. -/
def shiftBoundaryMsg : VMessage → Bool
  | .invalidStartAt _ => true
  | .invalidEndAt _ => true
  | _ => false

/-- Count of maintenance orders whose end still lies ahead of `t`. -/
def cloM (mos : List WorkOrder) (t : Nat) : Nat :=
  mos.countP fun m => decide (t < m.data.endDate)

/-- Count of maintenance windows whose end still lies ahead of `t`. -/
def cloW (ws : List MaintenanceWindow) (t : Nat) : Nat :=
  ws.countP fun w => decide (t < w.endDate)

/-- Count of obstacle pairs whose end still lies ahead of `t`. -/
def cloO (obstacles : List (Nat × Nat)) (t : Nat) : Nat :=
  obstacles.countP fun b => decide (t < b.2)

/-- Day-distance to the good weekday: zero exactly when `t` sits on the good
weekday before the end of its shift. -/
def goodD (good eh t : Nat) : Nat :=
  if weekday0 t = good ∧ t < setHour t eh then 0
  else 1 + (good + 6 - weekday0 t) % 7

/-- Termination measure of `findNextAvailableStart`. -/
def fnasMeasure (mos : List WorkOrder) (ws : List MaintenanceWindow)
    (good eh t : Nat) : Nat :=
  9 * (cloM mos t + cloW ws t) + goodD good eh t

/-- Termination measure of `findEndDate`. -/
def fendMeasure (obstacles : List (Nat × Nat)) (good eh : Nat) (rem : Int)
    (t : Nat) : Nat :=
  rem.toNat * (9 * obstacles.length + 8) + 9 * cloO obstacles t +
    goodD good eh t

/-- Acyclicity witness: a rank function under which every dependency edge
within the list is strictly increasing. -/
def Ranked (orders : List WorkOrder) (rank : String → Nat) : Prop :=
  ∀ o ∈ orders, ∀ pd ∈ o.data.dependsOnWorkOrderIds, ∀ p ∈ orders,
    p.docId = pd → rank pd < rank o.docId

/-- The chain child after reflow: pushed to its parent's end. -/
def chainChildMoved : WorkOrder :=
  mkWO "B" "WO-B" "wc-1" 600 720 120 false ["A"]

/-- The full reflow result of the chain scenario. -/
def chainReflowed : ReflowedSchedule :=
  { updatedWorkOrders := [chainParent, chainChildMoved],
    changes := [{ workOrderNumber := "WO-B", newStartDate := 600 }],
    explanation := [.originalViolation .OVERLAP] }

/-! Supporting lemmas. -/

theorem mem_of_head? {α} {l : List α} {a : α} (h : l.head? = some a) : a ∈ l := by
  cases l with
  | nil => exact Option.noConfusion h
  | cons x xs => injection h with h; exact h ▸ List.mem_cons_self x xs

theorem mem_insertByKey {α} (key : α → Nat) (x a : α) (l : List α) :
    a ∈ insertByKey key x l ↔ a = x ∨ a ∈ l := by
  induction l with
  | nil => simp [insertByKey]
  | cons y ys ih =>
    simp only [insertByKey]
    split <;> simp [ih] <;> tauto

theorem mem_sortByKey {α} (key : α → Nat) (l : List α) (a : α) :
    a ∈ sortByKey key l ↔ a ∈ l := by
  have hgen : ∀ (l acc : List α),
      a ∈ l.foldl (fun acc x => insertByKey key x acc) acc ↔ a ∈ acc ∨ a ∈ l := by
    intro l
    induction l with
    | nil => intro acc; simp
    | cons x xs ih =>
      intro acc
      simp only [List.foldl_cons, ih, mem_insertByKey, List.mem_cons]
      tauto
  unfold sortByKey
  rw [hgen]
  simp

theorem lt_nextMidnight (t : Nat) : t < nextMidnight t := by
  unfold nextMidnight
  have h1 := Nat.div_add_mod t 1440
  have h2 : t % 1440 < 1440 := Nat.mod_lt t (by norm_num)
  omega

theorem nextMidnight_le_setHour (t h : Nat) :
    nextMidnight t ≤ setHour (nextMidnight t) h := by
  unfold setHour nextMidnight
  have : (t / 1440 + 1) * 1440 / 1440 = t / 1440 + 1 :=
    Nat.mul_div_cancel _ (by norm_num)
  rw [this]
  omega

theorem lt_nextDayStart (center : WorkCenter) (t : Nat) :
    t < ReflowService.nextDayStart center t := by
  simp only [ReflowService.nextDayStart]
  split
  · exact lt_of_lt_of_le (lt_nextMidnight t) (nextMidnight_le_setHour t _)
  · exact lt_nextMidnight t

theorem findNextAvailableStartGo_mono (center : WorkCenter)
    (maint : List WorkOrder) :
    ∀ (fuel t r : Nat),
      ReflowService.findNextAvailableStartGo center maint fuel t = some r →
      t ≤ r := by
  intro fuel
  induction fuel with
  | zero => intro t r h; exact Option.noConfusion h
  | succ n ih =>
    intro t r h
    simp only [ReflowService.findNextAvailableStartGo] at h
    repeat' split at h
    all_goals (try exact Option.noConfusion h)
    all_goals first
      | (injection h with h; subst h; exact Nat.le_max_left _ _)
      | exact le_trans (le_of_lt (lt_nextMidnight t)) (ih _ r h)
      | (rename_i blocker hb
         have hp := List.find?_some hb
         simp only [decide_eq_true_eq] at hp
         exact le_trans (le_trans (Nat.le_max_left _ _) (le_of_lt hp.2)) (ih _ r h))

set_option maxRecDepth 4096 in
theorem findEndDateStep_inl {center : WorkCenter} {obstacles : List (Nat × Nat)}
    {rem : Int} {t e : Nat}
    (h : ReflowService.findEndDateStep center obstacles rem t = Sum.inl e) :
    e = t + rem.toNat := by
  unfold ReflowService.findEndDateStep at h
  repeat' split at h
  all_goals (try exact Sum.noConfusion h)
  all_goals (injection h with h; omega)

set_option maxRecDepth 4096 in
theorem findEndDateStep_inr {center : WorkCenter} {obstacles : List (Nat × Nat)}
    (hobs : ∀ p ∈ obstacles, p.1 ≤ p.2) {rem : Int} {t : Nat} {rc : Int × Nat}
    (h : ReflowService.findEndDateStep center obstacles rem t = Sum.inr rc) :
    t ≤ rc.2 := by
  unfold ReflowService.findEndDateStep at h
  repeat' split at h
  all_goals (try exact Sum.noConfusion h)
  all_goals (injection h with h; subst h; dsimp only)
  all_goals (try exact le_of_lt (lt_nextDayStart center t))
  case _ a shift heqs b heqo hno hpos =>
    have := lt_nextDayStart center (setHour t shift.endHour)
    omega
  all_goals first
    | (rename_i obs heqo h1 h2
       have hmem : obs ∈ obstacles := by
         have hm := mem_of_head? heqo
         rw [mem_sortByKey] at hm
         exact List.mem_of_mem_filter hm
       have := hobs obs hmem
       omega)
    | (rename_i obs heqo h0 h1 h2
       have hmem : obs ∈ obstacles := by
         have hm := mem_of_head? heqo
         rw [mem_sortByKey] at hm
         exact List.mem_of_mem_filter hm
       have := hobs obs hmem
       omega)

theorem findEndDateGo_mono (center : WorkCenter) (obstacles : List (Nat × Nat))
    (hobs : ∀ p ∈ obstacles, p.1 ≤ p.2) :
    ∀ (fuel : Nat) (rem : Int) (t r : Nat),
      ReflowService.findEndDateGo center obstacles fuel rem t = some r →
      t ≤ r := by
  intro fuel
  induction fuel with
  | zero =>
    intro rem t r h
    simp only [ReflowService.findEndDateGo] at h
    split at h
    · injection h with h; subst h; exact le_rfl
    · exact Option.noConfusion h
  | succ n ih =>
    intro rem t r h
    simp only [ReflowService.findEndDateGo] at h
    split at h
    · injection h with h; subst h; exact le_rfl
    · split at h
      case _ e heq =>
        injection h with h; subst h
        have := findEndDateStep_inl heq
        omega
      case _ rc heq =>
        exact le_trans (findEndDateStep_inr hobs heq) (ih _ _ r h)



theorem findNextAvailableStart_mono {fuel t r : Nat} {center : WorkCenter}
    {allOrders : List WorkOrder}
    (h : ReflowService.findNextAvailableStart fuel t center allOrders = some r) :
    t ≤ r :=
  findNextAvailableStartGo_mono center _ fuel t r h

theorem findEndDate_mono {fuel : Nat} {start : Nat} {dur : Int}
    {center : WorkCenter} {allOrders : List WorkOrder} {e : Nat}
    (hobs : ∀ p ∈ ReflowService.obstaclesOf center allOrders, p.1 ≤ p.2)
    (h : ReflowService.findEndDate fuel start dur center allOrders = some e) :
    start ≤ e :=
  findEndDateGo_mono center _ hobs fuel dur start e h

theorem applyShift_spec {fuel : Nat} {order : WorkOrder} {start : Nat}
    {center : WorkCenter} {allOrders : List WorkOrder} {o' : WorkOrder}
    (h : ReflowService.applyShift fuel order start center allOrders = some o') :
    ∃ e, ReflowService.findEndDate fuel start order.data.durationMinutes center
        allOrders = some e ∧
      o' = { order with data :=
        { order.data with startDate := start, endDate := e } } := by
  unfold ReflowService.applyShift at h
  cases hf : ReflowService.findEndDate fuel start order.data.durationMinutes
      center allOrders with
  | none => rw [hf] at h; exact Option.noConfusion h
  | some e => rw [hf] at h; injection h with h; exact ⟨e, rfl, h.symm⟩

theorem processOrder_spec {fuel : Nat} {center : WorkCenter}
    {allOrders : List WorkOrder} {origV : List Violation}
    {st st' : ReflowService.CenterState} {c : WorkOrder}
    (hobs : ∀ p ∈ ReflowService.obstaclesOf center allOrders, p.1 ≤ p.2)
    (h : ReflowService.processOrder fuel center allOrders origV st c = some st') :
    ∃ u, st'.scheduled = st.scheduled ++ [u] ∧
      stripDates u = stripDates c ∧
      (u = c ∨ u.data.startDate ≤ u.data.endDate) ∧
      ∀ prev, st.scheduled.getLast? = some prev →
        prev.data.endDate ≤ u.data.startDate := by
  unfold ReflowService.processOrder at h
  rcases hprev : st.scheduled.getLast? with _ | prev <;> simp only [hprev] at h
  -- no previous order: checkForOriginalViolations is true
  · repeat' split at h
    all_goals (try exact Option.noConfusion h)
    all_goals (injection h with h; subst h; dsimp only)
    -- shifted branches (cascade and not): u = o'
    all_goals (try
      (rename_i v hv newStart hfnas o' happ
       obtain ⟨e, hfe, rfl⟩ := applyShift_spec happ
       exact ⟨_, rfl, rfl,
         Or.inr (findEndDate_mono hobs hfe),
         fun prev hp => Option.noConfusion hp⟩))
    -- unshifted branches: u = c
    all_goals
      exact ⟨c, rfl, rfl, Or.inl rfl, fun prev hp => Option.noConfusion hp⟩
  -- with a previous order
  · repeat' split at h
    all_goals (try exact Option.noConfusion h)
    all_goals (injection h with h; subst h; dsimp only)
    all_goals first
      | -- shifted, with the collision-reason lookup hitting a violation
        (rename_i a ns hfnas b o2 happ ov v hfind
         obtain ⟨e, hfe, rfl⟩ := applyShift_spec happ
         refine ⟨_, rfl, rfl, Or.inr (findEndDate_mono hobs hfe), ?_⟩
         intro p hp
         injection hp with hp
         subst hp
         exact findNextAvailableStart_mono hfnas)
      | -- shifted, with the collision-reason lookup finding none
        (rename_i a ns hfnas b o2 happ ov hfind
         obtain ⟨e, hfe, rfl⟩ := applyShift_spec happ
         refine ⟨_, rfl, rfl, Or.inr (findEndDate_mono hobs hfe), ?_⟩
         intro p hp
         injection hp with hp
         subst hp
         exact findNextAvailableStart_mono hfnas)
      | -- shifted: u is the moved order
        (rename_i a ns hfnas b o2 happ
         obtain ⟨e, hfe, rfl⟩ := applyShift_spec happ
         refine ⟨_, rfl, rfl, Or.inr (findEndDate_mono hobs hfe), ?_⟩
         intro p hp
         injection hp with hp
         subst hp
         have hm := findNextAvailableStart_mono hfnas
         first
           | exact hm
           | exact le_trans (of_decide_eq_true (by assumption)) hm)
      | -- unshifted: u = c, which fits after the previous order
        (refine ⟨c, rfl, rfl, Or.inl rfl, ?_⟩
         intro p hp
         injection hp with hp
         subst hp
         exact of_decide_eq_true (by assumption))



theorem processOrder_log_parity {fuel : Nat} {center : WorkCenter}
    {allOrders : List WorkOrder} {origV : List Violation}
    {st st' : ReflowService.CenterState} {c : WorkOrder}
    (h : ReflowService.processOrder fuel center allOrders origV st c = some st')
    (hlen : st.changes.length = st.explanation.length) :
    st'.changes.length = st'.explanation.length := by
  unfold ReflowService.processOrder at h
  rcases hprev : st.scheduled.getLast? with _ | prev <;>
    simp only [hprev] at h <;>
    repeat' split at h
  all_goals (try exact Option.noConfusion h)
  all_goals (injection h with h; subst h; simp [hlen])

theorem processOrders_parity {fuel : Nat} {center : WorkCenter}
    {allOrders : List WorkOrder} {origV : List Violation} :
    ∀ (seq : List WorkOrder) (st st' : ReflowService.CenterState),
      ReflowService.processOrders fuel center allOrders origV seq st = some st' →
      st.changes.length = st.explanation.length →
      st'.changes.length = st'.explanation.length := by
  intro seq
  induction seq with
  | nil => intro st st' h hl; injection h with h; subst h; exact hl
  | cons c rest ih =>
    intro st st' h hl
    simp only [ReflowService.processOrders] at h
    cases hp : ReflowService.processOrder fuel center allOrders origV st c with
    | none => rw [hp] at h; exact Option.noConfusion h
    | some st1 =>
      rw [hp] at h
      exact ih st1 st' h (processOrder_log_parity hp hl)

theorem rescheduleByCenter_log_parity {fuel : Nat} {orders : List WorkOrder}
    {center : WorkCenter} {allOrders : List WorkOrder} {origV : List Violation}
    {r : List WorkOrder × List Change × List Explanation}
    (h : ReflowService.rescheduleByCenter fuel orders center allOrders origV =
      some r) :
    r.2.1.length = r.2.2.length := by
  unfold ReflowService.rescheduleByCenter at h
  simp only [] at h
  cases hp : ReflowService.processOrders fuel center allOrders origV
      (((SequencePreserver.prepare orders).lookup center.docId).getD [])
      { scheduled := [], changes := [], explanation := [],
        hasCascade := false } with
  | none => rw [hp] at h; exact Option.noConfusion h
  | some st =>
    rw [hp] at h
    injection h with h
    subst h
    exact processOrders_parity _ _ _ hp rfl

theorem rescheduleGo_log_parity {fuel : Nat} {origV : List Violation} :
    ∀ (centers : List WorkCenter)
      (acc res : List WorkOrder × List Change × List Explanation),
      ReflowService.rescheduleGo fuel origV centers acc = some res →
      acc.2.1.length = acc.2.2.length →
      res.2.1.length = res.2.2.length := by
  intro centers
  induction centers with
  | nil => intro acc res h hl; injection h with h; subst h; exact hl
  | cons center rest ih =>
    rintro ⟨cur, chs, exps⟩ res h hl
    simp only [ReflowService.rescheduleGo] at h
    cases hp : ReflowService.rescheduleByCenter fuel
        (cur.filter fun o => o.data.workCenterId == center.docId) center cur
        origV with
    | none => rw [hp] at h; exact Option.noConfusion h
    | some upd =>
      obtain ⟨updOrders, ch, ex⟩ := upd
      rw [hp] at h
      refine ih _ res h ?_
      have hpar := rescheduleByCenter_log_parity hp
      dsimp only at hpar hl ⊢
      simp only [List.length_append, hl, hpar]

theorem reschedule_log_parity {fuel : Nat} {orders : List WorkOrder}
    {centers : List WorkCenter} {origV : List Violation} {r : ReflowedSchedule}
    (h : ReflowService.reschedule fuel orders centers origV = some r) :
    r.changes.length = r.explanation.length := by
  unfold ReflowService.reschedule at h
  cases hp : ReflowService.rescheduleGo fuel origV centers (orders, [], []) with
  | none => rw [hp] at h; exact Option.noConfusion h
  | some res =>
    rw [hp] at h
    injection h with h
    subst h
    exact rescheduleGo_log_parity centers _ res hp rfl

theorem stripDates_fields {u c : WorkOrder} (h : stripDates u = stripDates c) :
    u.docId = c.docId ∧ u.data.workOrderNumber = c.data.workOrderNumber ∧
    u.data.workCenterId = c.data.workCenterId ∧
    u.data.durationMinutes = c.data.durationMinutes ∧
    u.data.isMaintenance = c.data.isMaintenance ∧
    u.data.dependsOnWorkOrderIds = c.data.dependsOnWorkOrderIds := by
  simp only [stripDates, Prod.mk.injEq] at h
  exact h

theorem processOrder_strip {fuel : Nat} {center : WorkCenter}
    {allOrders : List WorkOrder} {origV : List Violation}
    {st st' : ReflowService.CenterState} {c : WorkOrder}
    (h : ReflowService.processOrder fuel center allOrders origV st c = some st') :
    ∃ u, st'.scheduled = st.scheduled ++ [u] ∧ stripDates u = stripDates c := by
  unfold ReflowService.processOrder at h
  rcases hprev : st.scheduled.getLast? with _ | prev <;>
    simp only [hprev] at h <;>
    repeat' split at h
  all_goals (try exact Option.noConfusion h)
  all_goals (injection h with h; subst h; dsimp only)
  all_goals first
    | exact ⟨c, rfl, rfl⟩
    | (rename_i a ns hfnas b o2 happ ov v hfind
       obtain ⟨e, hfe, rfl⟩ := applyShift_spec happ
       exact ⟨_, rfl, rfl⟩)
    | (rename_i a ns hfnas b o2 happ ov hfind
       obtain ⟨e, hfe, rfl⟩ := applyShift_spec happ
       exact ⟨_, rfl, rfl⟩)
    | (rename_i a ns hfnas b o2 happ
       obtain ⟨e, hfe, rfl⟩ := applyShift_spec happ
       exact ⟨_, rfl, rfl⟩)

theorem forall₂_mem_right {α β : Type} {R : α → β → Prop} :
    ∀ {l1 : List α} {l2 : List β}, List.Forall₂ R l1 l2 →
      ∀ b ∈ l2, ∃ a ∈ l1, R a b := by
  intro l1 l2 h
  induction h with
  | nil => intro b hb; exact absurd hb (List.not_mem_nil b)
  | @cons a b l1' l2' hr hrest ih =>
    intro x hx
    rcases List.mem_cons.mp hx with hx | hx
    · exact ⟨a, List.mem_cons_self a l1', hx ▸ hr⟩
    · obtain ⟨a', ha', hra'⟩ := ih x hx
      exact ⟨a', List.mem_cons_of_mem a ha', hra'⟩

theorem processOrders_strip {fuel : Nat} {center : WorkCenter}
    {allOrders : List WorkOrder} {origV : List Violation} :
    ∀ (seq : List WorkOrder) (st st' : ReflowService.CenterState),
      ReflowService.processOrders fuel center allOrders origV seq st = some st' →
      ∃ out, st'.scheduled = st.scheduled ++ out ∧
        List.Forall₂ (fun c u => stripDates u = stripDates c) seq out := by
  intro seq
  induction seq with
  | nil =>
    intro st st' h
    injection h with h
    subst h
    exact ⟨[], by simp, List.Forall₂.nil⟩
  | cons c rest ih =>
    intro st st' h
    simp only [ReflowService.processOrders] at h
    cases hp : ReflowService.processOrder fuel center allOrders origV st c with
    | none => rw [hp] at h; exact Option.noConfusion h
    | some st1 =>
      rw [hp] at h
      obtain ⟨u, hsch, hstrip⟩ := processOrder_strip hp
      obtain ⟨out, hsch2, hfa⟩ := ih st1 st' h
      refine ⟨u :: out, ?_, List.Forall₂.cons hstrip hfa⟩
      rw [hsch2, hsch, List.append_assoc]
      rfl

theorem lookup_mem {β : Type} :
    ∀ {ps : List (String × β)} {k : String} {v : β},
      List.lookup k ps = some v → (k, v) ∈ ps := by
  intro ps
  induction ps with
  | nil => intro k v h; exact Option.noConfusion h
  | cons p rest ih =>
    obtain ⟨a, b⟩ := p
    intro k v h
    simp only [List.lookup] at h
    split at h
    · injection h with h
      rename_i hkx
      rw [beq_iff_eq] at hkx
      subst hkx
      rw [← h]
      exact List.mem_cons_self _ _
    · exact List.mem_cons_of_mem _ (ih h)

theorem mem_findOriginalSequenceOrder {orders : List WorkOrder} {x : WorkOrder}
    (h : x ∈ SequencePreserver.findOriginalSequenceOrder orders) :
    x ∈ orders := by
  unfold SequencePreserver.findOriginalSequenceOrder at h
  rw [List.mem_map] at h
  obtain ⟨p, hp, rfl⟩ := h
  rw [mem_sortByKey] at hp
  exact List.snd_mem_of_mem_enum hp

theorem interleaveGo_mem {centerOrders : List WorkOrder}
    {groups : List SequencePreserver.DependencyGroup} :
    ∀ (seq : List WorkOrder) (processed : List String) (acc : List WorkOrder)
      (x : WorkOrder),
      x ∈ SequencePreserver.interleaveGo centerOrders groups seq processed acc →
      x ∈ acc ∨ x ∈ centerOrders ∨ x ∈ seq := by
  intro seq
  induction seq with
  | nil =>
    intro processed acc x h
    simp only [SequencePreserver.interleaveGo] at h
    exact Or.inl h
  | cons s rest ih =>
    intro processed acc x h
    simp only [SequencePreserver.interleaveGo] at h
    split at h
    · rcases ih _ _ _ h with h | h | h
      · exact Or.inl h
      · exact Or.inr (Or.inl h)
      · exact Or.inr (Or.inr (List.mem_cons_of_mem s h))
    · split at h
      · rcases ih _ _ _ h with h | h | h
        · rcases List.mem_append.mp h with h | h
          · exact Or.inl h
          · obtain ⟨id, hid, hfind⟩ := List.mem_filterMap.mp h
            exact Or.inr (Or.inl (List.mem_of_find?_eq_some hfind))
        · exact Or.inr (Or.inl h)
        · exact Or.inr (Or.inr (List.mem_cons_of_mem s h))
      · rcases ih _ _ _ h with h | h | h
        · rcases List.mem_append.mp h with h | h
          · exact Or.inl h
          · rw [List.mem_singleton] at h
            exact Or.inr (Or.inr (h ▸ List.mem_cons_self s rest))
        · exact Or.inr (Or.inl h)
        · exact Or.inr (Or.inr (List.mem_cons_of_mem s h))

theorem prepare_mem {orders : List WorkOrder} {wcId : String}
    {seq : List WorkOrder}
    (h : List.lookup wcId (SequencePreserver.prepare orders) = some seq) :
    ∀ o ∈ seq, o ∈ orders ∧ o.data.workCenterId = wcId ∧
      o.data.isMaintenance = false := by
  unfold SequencePreserver.prepare at h
  have hmem := lookup_mem h
  rw [List.mem_map] at hmem
  obtain ⟨w, hw, heq⟩ := hmem
  rw [Prod.mk.injEq] at heq
  obtain ⟨rfl, hseq⟩ := heq
  subst hseq
  intro o ho
  have hcenter : o ∈ orders.filter fun o =>
      o.data.workCenterId == w && !o.data.isMaintenance := by
    rcases interleaveGo_mem _ _ _ o ho with h1 | h1 | h1
    · exact absurd h1 (List.not_mem_nil o)
    · exact h1
    · exact mem_findOriginalSequenceOrder h1
  have := List.mem_filter.mp hcenter
  refine ⟨this.1, ?_, ?_⟩
  · have h2 := this.2
    simp only [Bool.and_eq_true, beq_iff_eq, Bool.not_eq_true'] at h2
    exact h2.1
  · have h2 := this.2
    simp only [Bool.and_eq_true, beq_iff_eq, Bool.not_eq_true'] at h2
    exact h2.2

end Scheduler

namespace Scheduler

theorem mem_replaceFirstById {cur : List WorkOrder} {u x : WorkOrder}
    (h : x ∈ ReflowService.replaceFirstById cur u) : x ∈ cur ∨ x = u := by
  unfold ReflowService.replaceFirstById at h
  split at h
  · exact List.mem_or_eq_of_mem_set h
  · exact Or.inl h

theorem rescheduleByCenter_provenance {fuel : Nat} {orders : List WorkOrder}
    {center : WorkCenter} {allOrders : List WorkOrder} {origV : List Violation}
    {r : List WorkOrder × List Change × List Explanation}
    (h : ReflowService.rescheduleByCenter fuel orders center allOrders origV =
      some r) :
    ∀ u ∈ r.1, ∃ o, o ∈ orders ∧ o.data.isMaintenance = false ∧
      stripDates u = stripDates o := by
  unfold ReflowService.rescheduleByCenter at h
  simp only [] at h
  cases hl : List.lookup center.docId (SequencePreserver.prepare orders) with
  | none =>
    rw [hl] at h
    simp only [Option.getD] at h
    injection h with h
    subst h
    intro u hu
    exact absurd hu (List.not_mem_nil u)
  | some seq =>
    rw [hl] at h
    simp only [Option.getD] at h
    cases hp : ReflowService.processOrders fuel center allOrders origV seq
        { scheduled := [], changes := [], explanation := [],
          hasCascade := false } with
    | none => rw [hp] at h; exact Option.noConfusion h
    | some st =>
      rw [hp] at h
      injection h with h
      subst h
      obtain ⟨out, hout, hfa⟩ := processOrders_strip seq _ _ hp
      intro u hu
      dsimp only at hu
      rw [hout] at hu
      simp only [List.nil_append] at hu
      obtain ⟨c, hc, hstrip⟩ := forall₂_mem_right hfa u hu
      obtain ⟨hco, hcw, hcm⟩ := prepare_mem hl c hc
      exact ⟨c, hco, hcm, hstrip⟩

theorem foldl_replace_inv {wo : WorkOrder} :
    ∀ (updList : List WorkOrder) (cur : List WorkOrder),
      (∀ u ∈ updList, u.docId ≠ wo.docId) →
      (∀ x ∈ cur, x.docId = wo.docId → x = wo) →
      ∀ x ∈ updList.foldl ReflowService.replaceFirstById cur,
        x.docId = wo.docId → x = wo := by
  intro updList
  induction updList with
  | nil => intro cur _ hinv; exact hinv
  | cons u rest ih =>
    intro cur hne hinv
    simp only [List.foldl_cons]
    refine ih _ (fun v hv => hne v (List.mem_cons_of_mem u hv)) ?_
    intro x hx hxid
    rcases mem_replaceFirstById hx with hx | rfl
    · exact hinv x hx hxid
    · exact absurd hxid (hne x (List.mem_cons_self x rest))

theorem rescheduleGo_maint_inv {fuel : Nat} {origV : List Violation}
    {wo : WorkOrder} (hm : wo.data.isMaintenance = true) :
    ∀ (centers : List WorkCenter)
      (acc res : List WorkOrder × List Change × List Explanation),
      ReflowService.rescheduleGo fuel origV centers acc = some res →
      (∀ x ∈ acc.1, x.docId = wo.docId → x = wo) →
      ∀ x ∈ res.1, x.docId = wo.docId → x = wo := by
  intro centers
  induction centers with
  | nil =>
    intro acc res h hinv
    injection h with h
    subst h
    exact hinv
  | cons center rest ih =>
    rintro ⟨cur, chs, exps⟩ res h hinv
    simp only [ReflowService.rescheduleGo] at h
    cases hp : ReflowService.rescheduleByCenter fuel
        (cur.filter fun o => o.data.workCenterId == center.docId) center cur
        origV with
    | none => rw [hp] at h; exact Option.noConfusion h
    | some upd =>
      obtain ⟨updOrders, ch, ex⟩ := upd
      rw [hp] at h
      refine ih _ res h ?_
      dsimp only at hinv ⊢
      refine foldl_replace_inv updOrders cur ?_ hinv
      intro u hu
      obtain ⟨o, ho, honm, hstrip⟩ := rescheduleByCenter_provenance hp u hu
      have hocur : o ∈ cur := List.mem_of_mem_filter ho
      intro hid
      have hoid : u.docId = o.docId := (stripDates_fields hstrip).1
      have : o = wo := hinv o hocur (hoid ▸ hid)
      rw [this] at honm
      rw [honm] at hm
      exact Bool.noConfusion hm

theorem start_pred_eq_isTimeInShift (t : Nat) (shifts : List Shift) :
    (shifts.any fun s =>
      decide (s.dayOfWeek = weekday0 t ∧ s.startHour ≤ hourOf t ∧
        hourOf t < s.endHour)) =
    DateUtils.isTimeInShift t shifts false := by
  unfold DateUtils.isTimeInShift
  induction shifts with
  | nil => rfl
  | cons s rest ih =>
    simp only [List.any_cons, ih]
    congr 1
    by_cases hd : s.dayOfWeek = weekday0 t
    · rw [if_neg (by simp [hd]), if_neg Bool.false_ne_true]
      rw [decide_eq_decide]
      unfold hourOf setHour
      constructor
      · rintro ⟨-, h1, h2⟩
        omega
      · intro h
        refine ⟨hd, ?_, ?_⟩ <;> omega
    · rw [if_pos (by simp [hd])]
      exact decide_eq_false fun hcon => hd hcon.1

theorem end_pred_eq_isTimeInShift (t : Nat) (h60 : t % 60 = 0)
    (shifts : List Shift) :
    (shifts.any fun s =>
      decide (s.dayOfWeek = weekday0 t ∧ s.startHour < hourOf t ∧
        hourOf t ≤ s.endHour)) =
    DateUtils.isTimeInShift t shifts true := by
  unfold DateUtils.isTimeInShift
  induction shifts with
  | nil => rfl
  | cons s rest ih =>
    simp only [List.any_cons, ih]
    congr 1
    by_cases hd : s.dayOfWeek = weekday0 t
    · rw [if_neg (by simp [hd]), if_pos trivial]
      rw [decide_eq_decide]
      unfold hourOf setHour
      constructor
      · rintro ⟨-, h1, h2⟩
        omega
      · intro h
        refine ⟨hd, ?_, ?_⟩ <;> omega
    · rw [if_pos (by simp [hd])]
      exact decide_eq_false fun hcon => hd hcon.1

theorem maintWindow_pass_msgs {orders : List WorkOrder}
    {centers : List WorkCenter} :
    ∀ v ∈ ConstraintChecker.checkOrderCollidesWithMaintenanceWindow orders
      centers, shiftBoundaryMsg v.message = false := by
  intro v hv
  simp only [ConstraintChecker.checkOrderCollidesWithMaintenanceWindow,
    List.mem_flatMap] at hv
  obtain ⟨o, ho, hv⟩ := hv
  repeat' split at hv
  all_goals
    first
      | exact absurd hv (List.not_mem_nil v)
      | (rw [List.mem_singleton] at hv; subst hv; rfl)

theorem fixedOrders_pass_msgs {current original : List WorkOrder} :
    ∀ v ∈ ConstraintChecker.checkFixedOrders current original,
      shiftBoundaryMsg v.message = false := by
  intro v hv
  simp only [ConstraintChecker.checkFixedOrders, List.mem_filterMap] at hv
  obtain ⟨o, ho, hv⟩ := hv
  repeat' split at hv
  all_goals
    first
      | exact Option.noConfusion hv
      | (injection hv with hv; subst hv; rfl)

theorem overlaps_pass_msgs {orders : List WorkOrder} :
    ∀ v ∈ ConstraintChecker.checkOverlaps orders,
      shiftBoundaryMsg v.message = false := by
  intro v hv
  simp only [ConstraintChecker.checkOverlaps, List.mem_flatMap,
    List.mem_filterMap] at hv
  obtain ⟨g, hg, p, hp, hv⟩ := hv
  split at hv
  · injection hv with hv; subst hv; rfl
  · exact Option.noConfusion hv

theorem fixedOverlaps_pass_msgs {orders : List WorkOrder} :
    ∀ v ∈ ConstraintChecker.checkFixedOrderOverlaps orders,
      shiftBoundaryMsg v.message = false := by
  intro v hv
  simp only [ConstraintChecker.checkFixedOrderOverlaps, List.mem_flatMap,
    List.mem_filterMap] at hv
  obtain ⟨g, hg, p, hp, hv⟩ := hv
  split at hv
  · injection hv with hv; subst hv; rfl
  · exact Option.noConfusion hv

theorem dependencies_pass_msgs {orders : List WorkOrder} :
    ∀ v ∈ ConstraintChecker.checkDependencies orders,
      shiftBoundaryMsg v.message = false := by
  intro v hv
  simp only [ConstraintChecker.checkDependencies, List.mem_flatMap,
    List.mem_filterMap] at hv
  obtain ⟨o, ho, pid, hpid, hv⟩ := hv
  repeat' split at hv
  all_goals
    first
      | exact Option.noConfusion hv
      | (injection hv with hv; subst hv; rfl)

theorem hasCycle_pass_msgs {orders : List WorkOrder} :
    ∀ (fuel : Nat) (orderId : String) (path : List String) (st : ConstraintChecker.CycState),
      (∀ v ∈ st.violations, shiftBoundaryMsg v.message = false) →
      ∀ v ∈ (ConstraintChecker.hasCycle orders fuel orderId path st).1.violations,
        shiftBoundaryMsg v.message = false := by
  intro fuel
  induction fuel with
  | zero => intro orderId path st h; exact h
  | succ n ih =>
    intro orderId path st hst
    rw [ConstraintChecker.hasCycle]
    split
    · intro v hv
      dsimp only at hv
      rcases List.mem_append.mp hv with hv | hv
      · exact hst v hv
      · rw [List.mem_singleton] at hv; subst hv; rfl
    · split
      · exact hst
      · have hfold : ∀ (deps : List String) (acc : ConstraintChecker.CycState × Bool),
            (∀ v ∈ acc.1.violations, shiftBoundaryMsg v.message = false) →
            ∀ v ∈ (deps.foldl
              (fun (acc : ConstraintChecker.CycState × Bool) depId =>
                if acc.2 then acc
                else ConstraintChecker.hasCycle orders n depId
                  (path ++ [orderId]) acc.1) acc).1.violations,
              shiftBoundaryMsg v.message = false := by
          intro deps
          induction deps with
          | nil => intro acc h; exact h
          | cons d rest ihd =>
            intro acc h
            rw [List.foldl_cons]
            refine ihd _ ?_
            split
            · exact h
            · exact ih d (path ++ [orderId]) acc.1 h
        split
        · rename_i order heq
          intro v hv
          simp only [] at hv
          split at hv
          all_goals (dsimp only at hv; exact hfold _ _ hst v hv)
        · exact hst

theorem circular_pass_msgs {orders : List WorkOrder} :
    ∀ v ∈ ConstraintChecker.checkCircularDependencies orders,
      shiftBoundaryMsg v.message = false := by
  unfold ConstraintChecker.checkCircularDependencies
  simp only []
  generalize (orders.length +
    (orders.flatMap fun o => o.data.dependsOnWorkOrderIds).length + 2) = fuel
  have hfold : ∀ (l : List WorkOrder) (st : ConstraintChecker.CycState),
      (∀ v ∈ st.violations, shiftBoundaryMsg v.message = false) →
      ∀ v ∈ (l.foldl
        (fun (st : ConstraintChecker.CycState) order =>
          if order.docId ∈ st.visited then st
          else (ConstraintChecker.hasCycle orders fuel order.docId [] st).1)
        st).violations, shiftBoundaryMsg v.message = false := by
    intro l
    induction l with
    | nil => intro st h; exact h
    | cons o rest ihl =>
      intro st h
      rw [List.foldl_cons]
      refine ihl _ ?_
      split
      · exact h
      · exact hasCycle_pass_msgs fuel o.docId [] st h
  exact hfold orders _ (fun v hv => absurd hv (List.not_mem_nil v))

theorem checkShiftsOrder_orderId {centers : List WorkCenter} {o : WorkOrder} :
    ∀ v ∈ ConstraintChecker.checkShiftsOrder centers o, v.orderId = o.docId := by
  intro v hv
  unfold ConstraintChecker.checkShiftsOrder at hv
  repeat' split at hv
  all_goals
    first
      | exact absurd hv (List.not_mem_nil v)
      | skip
  simp only [] at hv
  repeat' split at hv
  all_goals
    repeat'
      first
        | exact absurd hv (List.not_mem_nil v)
        | (rw [List.mem_singleton] at hv; subst hv; rfl)
        | (rcases List.mem_append.mp hv with hv | hv)

theorem mem_checkShiftsOrder_start {centers : List WorkCenter}
    {order : WorkOrder} {center : WorkCenter}
    (hm : order.data.isMaintenance = false)
    (hc : centers.find? (fun c => c.docId == order.data.workCenterId) =
      some center) :
    (({ orderId := order.docId, type := .OUTSIDE_SHIFT,
        message := .invalidStartAt order.data.startDate, isFatal := false } :
        Violation) ∈ ConstraintChecker.checkShiftsOrder centers order) ↔
    DateUtils.isTimeInShift order.data.startDate center.data.shifts false =
      false := by
  rw [← start_pred_eq_isTimeInShift]
  unfold ConstraintChecker.checkShiftsOrder
  rw [hm, if_neg Bool.false_ne_true, hc]
  simp only []
  constructor
  · intro hv
    by_contra hS
    rw [Bool.not_eq_false] at hS
    rw [hS, if_pos rfl] at hv
    rcases List.mem_append.mp hv with hv | hv
    · rcases List.mem_append.mp hv with hv | hv
      · split at hv
        · rw [List.mem_singleton] at hv
          exact absurd (congrArg Violation.message hv).symm (by simp)
        · exact absurd hv (List.not_mem_nil _)
      · exact absurd hv (List.not_mem_nil _)
    · split at hv
      · exact absurd hv (List.not_mem_nil _)
      · rw [List.mem_singleton] at hv
        exact absurd (congrArg Violation.message hv).symm (by simp)
  · intro hS
    rw [hS, if_neg Bool.false_ne_true]
    exact List.mem_append.mpr (Or.inl (List.mem_append.mpr (Or.inr
      (List.mem_singleton.mpr rfl))))

theorem mem_checkShiftsOrder_end {centers : List WorkCenter}
    {order : WorkOrder} {center : WorkCenter}
    (hm : order.data.isMaintenance = false)
    (hc : centers.find? (fun c => c.docId == order.data.workCenterId) =
      some center) :
    (({ orderId := order.docId, type := .OUTSIDE_SHIFT,
        message := .invalidEndAt order.data.endDate, isFatal := false } :
        Violation) ∈ ConstraintChecker.checkShiftsOrder centers order) ↔
    (center.data.shifts.any fun s =>
      decide (s.dayOfWeek = weekday0 order.data.endDate ∧
        s.startHour < hourOf order.data.endDate ∧
        hourOf order.data.endDate ≤ s.endHour)) = false := by
  unfold ConstraintChecker.checkShiftsOrder
  rw [hm, if_neg Bool.false_ne_true, hc]
  simp only []
  constructor
  · intro hv
    by_contra hS
    rw [Bool.not_eq_false] at hS
    rw [hS, if_pos rfl] at hv
    rcases List.mem_append.mp hv with hv | hv
    · rcases List.mem_append.mp hv with hv | hv
      · split at hv
        · rw [List.mem_singleton] at hv
          exact absurd (congrArg Violation.message hv).symm (by simp)
        · exact absurd hv (List.not_mem_nil _)
      · split at hv
        · exact absurd hv (List.not_mem_nil _)
        · rw [List.mem_singleton] at hv
          exact absurd (congrArg Violation.message hv).symm (by simp)
    · exact absurd hv (List.not_mem_nil _)
  · intro hS
    rw [hS, if_neg Bool.false_ne_true]
    exact List.mem_append.mpr (Or.inr (List.mem_singleton.mpr rfl))

theorem mem_verify_shift_boundary {orders : List WorkOrder}
    {centers : List WorkCenter} {v : Violation}
    (hmsg : shiftBoundaryMsg v.message = true) :
    v ∈ ConstraintChecker.verify orders centers none ↔
    v ∈ ConstraintChecker.checkShifts orders centers := by
  unfold ConstraintChecker.verify
  dsimp only
  simp only [List.mem_append, List.not_mem_nil, false_or, or_false]
  constructor
  · intro h
    rcases h with ((((h | h) | h) | h) | h) | h
    · rw [maintWindow_pass_msgs v h] at hmsg; exact Bool.noConfusion hmsg
    · rw [overlaps_pass_msgs v h] at hmsg; exact Bool.noConfusion hmsg
    · exact h
    · rw [dependencies_pass_msgs v h] at hmsg; exact Bool.noConfusion hmsg
    · rw [fixedOverlaps_pass_msgs v h] at hmsg; exact Bool.noConfusion hmsg
    · rw [circular_pass_msgs v h] at hmsg; exact Bool.noConfusion hmsg
  · intro h
    exact Or.inl (Or.inl (Or.inl (Or.inr h)))

theorem countP_le_of_imp {α} {l : List α} {p q : α → Bool}
    (h : ∀ a ∈ l, p a = true → q a = true) : l.countP p ≤ l.countP q := by
  induction l with
  | nil => exact Nat.le_refl _
  | cons a l ih =>
    simp only [List.countP_cons]
    have ht := ih fun b hb => h b (List.mem_cons_of_mem a hb)
    by_cases hp : p a = true
    · have hq := h a (List.mem_cons_self a l) hp
      simp only [hp, hq, if_true]
      omega
    · simp only [hp, if_false]
      by_cases hqa : q a = true <;> simp [hqa] <;> omega

theorem countP_lt_of_mem {α} {l : List α} {p q : α → Bool}
    (h : ∀ a ∈ l, p a = true → q a = true) {b : α} (hb : b ∈ l)
    (hq : q b = true) (hp : p b = false) : l.countP p < l.countP q := by
  induction l with
  | nil => exact absurd hb (List.not_mem_nil b)
  | cons a l ih =>
    simp only [List.countP_cons]
    rcases List.mem_cons.mp hb with rfl | hb2
    · simp only [hp, hq, if_true, Bool.false_eq_true, if_false]
      have ht := countP_le_of_imp fun c hc => h c (List.mem_cons_of_mem b hc)
      omega
    · have ht := ih (fun c hc => h c (List.mem_cons_of_mem a hc)) hb2
      by_cases hpa : p a = true
      · have hqa := h a (List.mem_cons_self a l) hpa
        simp only [hpa, hqa, if_true]
        omega
      · simp only [hpa, if_false]
        by_cases hqa : q a = true <;> simp [hqa] <;> omega

theorem goodD_le (good eh t : Nat) : goodD good eh t ≤ 7 := by
  unfold goodD
  split <;> omega

theorem goodD_ne_of_wd {good eh t : Nat} (h : weekday0 t ≠ good) :
    goodD good eh t ≠ 0 := by
  unfold goodD
  split
  · rename_i hc
    exact absurd hc.1 h
  · omega

theorem goodD_nextMidnight {good eh t : Nat} (hg7 : good < 7) (heh : 0 < eh)
    (hnot : ¬(weekday0 t = good ∧ t < setHour t eh)) :
    goodD good eh (nextMidnight t) < goodD good eh t := by
  unfold goodD
  unfold weekday0 setHour at hnot
  unfold weekday0 nextMidnight setHour
  split <;> omega

theorem cloM_mono (mos : List WorkOrder) {t t' : Nat} (h : t ≤ t') :
    cloM mos t' ≤ cloM mos t :=
  countP_le_of_imp fun m _ hd => by
    rw [decide_eq_true_eq] at hd ⊢; omega

theorem cloW_mono (ws : List MaintenanceWindow) {t t' : Nat} (h : t ≤ t') :
    cloW ws t' ≤ cloW ws t :=
  countP_le_of_imp fun w _ hd => by
    rw [decide_eq_true_eq] at hd ⊢; omega

theorem cloO_mono (obstacles : List (Nat × Nat)) {t t' : Nat} (h : t ≤ t') :
    cloO obstacles t' ≤ cloO obstacles t :=
  countP_le_of_imp fun b _ hd => by
    rw [decide_eq_true_eq] at hd ⊢; omega

theorem cloO_le (obstacles : List (Nat × Nat)) (t : Nat) :
    cloO obstacles t ≤ obstacles.length :=
  List.countP_le_length _

theorem goodD_nextDayStart {center : WorkCenter} {good : Nat} {hs : Shift}
    (hg7 : good < 7)
    (hgood : center.data.shifts.find? (fun s => s.dayOfWeek == good) = some hs)
    (hlt : hs.startHour < hs.endHour)
    (hsane : ∀ s ∈ center.data.shifts, s.startHour < 24)
    {t : Nat} (hnot : goodD good hs.endHour t ≠ 0) :
    goodD good hs.endHour (ReflowService.nextDayStart center t) <
      goodD good hs.endHour t := by
  have hc : ¬(weekday0 t = good ∧ t < setHour t hs.endHour) := by
    intro hcond
    unfold goodD at hnot
    rw [if_pos hcond] at hnot
    exact hnot rfl
  simp only [ReflowService.nextDayStart]
  split
  · rename_i s' hf
    have hwd : s'.dayOfWeek = weekday0 (nextMidnight t) := by
      have := List.find?_some hf
      rwa [beq_iff_eq] at this
    have h24 : s'.startHour < 24 := hsane s' (List.mem_of_find?_eq_some hf)
    by_cases hg : weekday0 (nextMidnight t) = good
    · rw [hg] at hf
      rw [hf] at hgood
      injection hgood with hgood
      subst hgood
      have hz : goodD good s'.endHour
          (setHour (nextMidnight t) s'.startHour) = 0 := by
        unfold goodD
        rw [if_pos ?_]
        unfold weekday0 nextMidnight at hg
        unfold weekday0 nextMidnight setHour
        constructor <;> omega
      rw [hz]
      exact Nat.pos_of_ne_zero hnot
    · unfold goodD
      rw [if_neg hc]
      split
      · omega
      · unfold weekday0 nextMidnight at hg
        unfold weekday0 nextMidnight setHour
        omega
  · rename_i hf
    have hwne : weekday0 (nextMidnight t) ≠ good := by
      intro he
      rw [he] at hf
      rw [hf] at hgood
      exact Option.noConfusion hgood
    exact goodD_nextMidnight hg7 (by omega) hc

theorem findNextAvailableStartGo_terminates {center : WorkCenter}
    {mos : List WorkOrder} {good : Nat} {hs : Shift}
    (hg7 : good < 7)
    (hgood : center.data.shifts.find? (fun s => s.dayOfWeek == good) = some hs)
    (hlt : hs.startHour < hs.endHour) :
    ∀ (fuel t : Nat),
      fnasMeasure mos center.data.maintenanceWindows good hs.endHour t < fuel →
      ∃ r, ReflowService.findNextAvailableStartGo center mos fuel t = some r := by
  intro fuel
  induction fuel with
  | zero => intro t hM; exact absurd hM (Nat.not_lt_zero _)
  | succ n ih =>
    intro t hM
    cases hf : center.data.shifts.find? (fun s => s.dayOfWeek == weekday0 t) with
    | none =>
      simp only [ReflowService.findNextAvailableStartGo, hf]
      apply ih
      have hwne : weekday0 t ≠ good := by
        intro he
        rw [he] at hf
        rw [hf] at hgood
        exact Option.noConfusion hgood
      have hD := @goodD_nextMidnight good hs.endHour t hg7 (by omega)
        (fun hcond => hwne hcond.1)
      have h1 := cloM_mono mos (Nat.le_of_lt (lt_nextMidnight t))
      have h2 := cloW_mono center.data.maintenanceWindows
        (Nat.le_of_lt (lt_nextMidnight t))
      unfold fnasMeasure at hM ⊢
      omega
    | some shift =>
      simp only [ReflowService.findNextAvailableStartGo, hf]
      by_cases hcond : setHour t shift.startHour ≤ t ∧ setHour t shift.endHour ≤ t
      · rw [if_pos hcond]
        apply ih
        have hDne : ¬(weekday0 t = good ∧ t < setHour t hs.endHour) := by
          rintro ⟨hw, hlt2⟩
          rw [hw] at hf
          rw [hf] at hgood
          injection hgood with hgood
          subst hgood
          exact absurd hlt2 (Nat.not_lt.mpr hcond.2)
        have hD := @goodD_nextMidnight good hs.endHour t hg7 (by omega) hDne
        have h1 := cloM_mono mos (Nat.le_of_lt (lt_nextMidnight t))
        have h2 := cloW_mono center.data.maintenanceWindows
          (Nat.le_of_lt (lt_nextMidnight t))
        unfold fnasMeasure at hM ⊢
        omega
      · rw [if_neg hcond]
        cases hm : mos.find? (fun m =>
            decide (m.data.startDate ≤ max t (setHour t shift.startHour) ∧
              max t (setHour t shift.startHour) < m.data.endDate)) with
        | some m =>
          simp only [hm]
          apply ih
          have hmem : m ∈ mos := List.mem_of_find?_eq_some hm
          have hpred := List.find?_some hm
          rw [decide_eq_true_eq] at hpred
          have ht' : t < m.data.endDate :=
            Nat.lt_of_le_of_lt (Nat.le_max_left t _) hpred.2
          have hMdec : cloM mos m.data.endDate < cloM mos t := by
            refine countP_lt_of_mem (fun a _ hd => ?_) hmem ?_ ?_
            · rw [decide_eq_true_eq] at hd ⊢; omega
            · rw [decide_eq_true_eq]; exact ht'
            · simp
          have h2 := cloW_mono center.data.maintenanceWindows
            (Nat.le_of_lt ht')
          have hD7 := goodD_le good hs.endHour m.data.endDate
          unfold fnasMeasure at hM ⊢
          omega
        | none =>
          cases hw : center.data.maintenanceWindows.find? (fun w =>
              decide (w.startDate ≤ max t (setHour t shift.startHour) ∧
                max t (setHour t shift.startHour) < w.endDate)) with
          | some w =>
            simp only [hm, hw]
            apply ih
            have hmem : w ∈ center.data.maintenanceWindows :=
              List.mem_of_find?_eq_some hw
            have hpred := List.find?_some hw
            rw [decide_eq_true_eq] at hpred
            have ht' : t < w.endDate :=
              Nat.lt_of_le_of_lt (Nat.le_max_left t _) hpred.2
            have hWdec : cloW center.data.maintenanceWindows w.endDate <
                cloW center.data.maintenanceWindows t := by
              refine countP_lt_of_mem (fun a _ hd => ?_) hmem ?_ ?_
              · rw [decide_eq_true_eq] at hd ⊢; omega
              · rw [decide_eq_true_eq]; exact ht'
              · simp
            have h1 := cloM_mono mos (Nat.le_of_lt ht')
            have hD7 := goodD_le good hs.endHour w.endDate
            unfold fnasMeasure at hM ⊢
            omega
          | none =>
            simp only [hm, hw]
            exact ⟨_, rfl⟩

theorem findEndDateStep_inr_cases {center : WorkCenter}
    {obstacles : List (Nat × Nat)} {good : Nat} {hs : Shift}
    (hg7 : good < 7)
    (hgood : center.data.shifts.find? (fun s => s.dayOfWeek == good) = some hs)
    (hlt : hs.startHour < hs.endHour)
    (hsane : ∀ s ∈ center.data.shifts, s.startHour < 24)
    (hobs : ∀ b ∈ obstacles, b.1 < b.2)
    {rem : Int} {t : Nat} {rem' : Int} {t' : Nat}
    (hrem : ¬ rem ≤ 0)
    (hstep : ReflowService.findEndDateStep center obstacles rem t =
      Sum.inr (rem', t')) :
    (rem' = rem ∧
      9 * cloO obstacles t' + goodD good hs.endHour t' <
        9 * cloO obstacles t + goodD good hs.endHour t) ∨
    rem'.toNat < rem.toNat := by
  unfold ReflowService.findEndDateStep at hstep
  split at hstep
  · -- no shift resolves this weekday: jump to the next day's start
    rename_i hf
    injection hstep with hstep
    injection hstep with h1 h2
    subst h1
    subst h2
    have hwne : weekday0 t ≠ good := by
      intro he
      rw [he] at hf
      rw [hf] at hgood
      exact Option.noConfusion hgood
    have hD := goodD_nextDayStart hg7 hgood hlt hsane
      (goodD_ne_of_wd hwne)
    have hO := cloO_mono obstacles
      (Nat.le_of_lt (lt_nextDayStart center t))
    exact Or.inl ⟨rfl, by omega⟩
  · rename_i shift hf
    split at hstep
    · -- no obstacle inside the shift window
      rename_i hhead
      split at hstep
      · exact Sum.noConfusion hstep
      · split at hstep
        · -- consume up to the shift end
          rename_i hc1 hc2
          injection hstep with hstep
          injection hstep with h1 h2
          subst h1
          subst h2
          right
          omega
        · -- the shift end is already behind the cursor: day jump
          rename_i hc1 hc2
          injection hstep with hstep
          injection hstep with h1 h2
          subst h1
          subst h2
          have hDne : goodD good hs.endHour t ≠ 0 := by
            by_cases hw : weekday0 t = good
            · rw [hw] at hf
              rw [hf] at hgood
              injection hgood with hgood
              subst hgood
              unfold goodD
              rw [if_neg (by rintro ⟨-, hx⟩; omega)]
              omega
            · exact goodD_ne_of_wd hw
          have hD := goodD_nextDayStart hg7 hgood hlt hsane hDne
          have hO := cloO_mono obstacles
            (Nat.le_of_lt (lt_nextDayStart center t))
          exact Or.inl ⟨rfl, by omega⟩
    · -- the deadline is the earliest obstacle start
      rename_i obs hhead
      have hmem : obs ∈ obstacles ∧ t ≤ obs.1 := by
        have h1 := mem_of_head? hhead
        rw [mem_sortByKey] at h1
        have h2 := List.mem_filter.mp h1
        refine ⟨h2.1, ?_⟩
        have := of_decide_eq_true h2.2
        exact this.1
      split at hstep
      · exact Sum.noConfusion hstep
      · split at hstep
        · -- consume up to the obstacle start
          rename_i hc1 hc2
          injection hstep with hstep
          injection hstep with h1 h2
          subst h1
          subst h2
          right
          omega
        · split at hstep
          · -- the cursor sits exactly on the obstacle start: hop over it
            rename_i hc1 hc2 hceq
            injection hstep with hstep
            injection hstep with h1 h2
            subst h1
            subst h2
            have hlt2 : t < obs.2 := by
              have := hobs obs hmem.1
              omega
            have hOdec : cloO obstacles obs.2 < cloO obstacles t := by
              refine countP_lt_of_mem (fun a _ hd => ?_) hmem.1 ?_ ?_
              · rw [decide_eq_true_eq] at hd ⊢; omega
              · rw [decide_eq_true_eq]; exact hlt2
              · simp
            have hD7 := goodD_le good hs.endHour obs.2
            exact Or.inl ⟨rfl, by omega⟩
          · -- unreachable: the obstacle starts at or after the cursor
            rename_i hc1 hc2 hceq
            exfalso
            have := hmem.2
            omega

theorem findEndDateGo_terminates {center : WorkCenter}
    {obstacles : List (Nat × Nat)} {good : Nat} {hs : Shift}
    (hg7 : good < 7)
    (hgood : center.data.shifts.find? (fun s => s.dayOfWeek == good) = some hs)
    (hlt : hs.startHour < hs.endHour)
    (hsane : ∀ s ∈ center.data.shifts, s.startHour < 24)
    (hobs : ∀ b ∈ obstacles, b.1 < b.2) :
    ∀ (n m : Nat) (rem : Int) (t : Nat), rem.toNat ≤ n →
      9 * cloO obstacles t + goodD good hs.endHour t ≤ m →
      ∃ fuel e, ReflowService.findEndDateGo center obstacles fuel rem t =
        some e := by
  intro n
  induction n with
  | zero =>
    intro m rem t hn hm
    refine ⟨0, t, ?_⟩
    have hr0 : rem ≤ 0 := by omega
    simp [ReflowService.findEndDateGo, hr0]
  | succ n ihn =>
    intro m
    induction m using Nat.strong_induction_on with
    | _ m ihm =>
      intro rem t hn hm
      by_cases hr0 : rem ≤ 0
      · exact ⟨0, t, by simp [ReflowService.findEndDateGo, hr0]⟩
      · cases hstep : ReflowService.findEndDateStep center obstacles rem t with
        | inl e =>
          refine ⟨1, e, ?_⟩
          simp [ReflowService.findEndDateGo, hr0, hstep]
        | inr rc =>
          obtain ⟨rem', t'⟩ := rc
          rcases findEndDateStep_inr_cases hg7 hgood hlt hsane hobs hr0
              hstep with ⟨heq, hdec⟩ | hdec
          · subst heq
            obtain ⟨fuel, e, hgo⟩ := ihm
              (9 * cloO obstacles t' + goodD good hs.endHour t')
              (by omega) rem' t' hn (Nat.le_refl _)
            refine ⟨fuel + 1, e, ?_⟩
            simp [ReflowService.findEndDateGo, hr0, hstep, hgo]
          · obtain ⟨fuel, e, hgo⟩ := ihn (9 * obstacles.length + 7) rem' t'
              (by omega)
              (by
                have h1 := cloO_le obstacles t'
                have h2 := goodD_le good hs.endHour t'
                omega)
            refine ⟨fuel + 1, e, ?_⟩
            simp [ReflowService.findEndDateGo, hr0, hstep, hgo]

theorem forall₂_split {α β : Type} {R : α → β → Prop} :
    ∀ {l1 : List α} {a : α} {l2 : List α} {out : List β},
      List.Forall₂ R (l1 ++ a :: l2) out →
      ∃ o1 b o2, out = o1 ++ b :: o2 ∧ R a b ∧ List.Forall₂ R l1 o1 ∧
        List.Forall₂ R l2 o2 := by
  intro l1
  induction l1 with
  | nil =>
    intro a l2 out h
    cases h with
    | cons hab hrest => exact ⟨[], _, _, rfl, hab, List.Forall₂.nil, hrest⟩
  | cons x l1 ih =>
    intro a l2 out h
    cases h with
    | cons hxb hrest =>
      obtain ⟨o1, b, o2, rfl, hab, h1, h2⟩ := ih hrest
      exact ⟨_ :: o1, b, o2, rfl, hab, List.Forall₂.cons hxb h1, h2⟩

theorem exists_min_key {α : Type} (rank : α → Nat) :
    ∀ (l : List α), l ≠ [] → ∃ m ∈ l, ∀ x ∈ l, rank m ≤ rank x := by
  intro l
  induction l with
  | nil => intro h; exact absurd rfl h
  | cons a l ih =>
    intro _
    cases l with
    | nil =>
      exact ⟨a, List.mem_cons_self a [], fun x hx => by
        rw [List.mem_singleton.mp hx]⟩
    | cons b l2 =>
      obtain ⟨m, hm, hmin⟩ := ih (by simp)
      by_cases hc : rank a ≤ rank m
      · refine ⟨a, List.mem_cons_self a _, fun x hx => ?_⟩
        rcases List.mem_cons.mp hx with rfl | hx
        · exact Nat.le_refl _
        · exact Nat.le_trans hc (hmin x hx)
      · refine ⟨m, List.mem_cons_of_mem a hm, fun x hx => ?_⟩
        rcases List.mem_cons.mp hx with rfl | hx
        · omega
        · exact hmin x hx

theorem find?_docId_eq {orders : List WorkOrder} {id : String} {o : WorkOrder}
    (h : orders.find? (fun o => o.docId == id) = some o) :
    o ∈ orders ∧ o.docId = id := by
  refine ⟨List.mem_of_find?_eq_some h, ?_⟩
  have := List.find?_some h
  rwa [beq_iff_eq] at this

theorem find?_docId_of_mem {orders : List WorkOrder} {o : WorkOrder}
    (hnd : (orders.map (fun x => x.docId)).Nodup) (ho : o ∈ orders) :
    orders.find? (fun x => x.docId == o.docId) = some o := by
  cases hf : orders.find? (fun x => x.docId == o.docId) with
  | none =>
    have := List.find?_eq_none.mp hf o ho
    simp at this
  | some x =>
    obtain ⟨hx, hid⟩ := find?_docId_eq hf
    rw [List.inj_on_of_nodup_map hnd hx ho hid]

theorem isReady_false_of_dep {centerOrders : List WorkOrder}
    {remaining : List String} {c : WorkOrder} {pd : String}
    (hnd : (centerOrders.map (fun x => x.docId)).Nodup)
    (hc : c ∈ centerOrders) (hpd : pd ∈ c.data.dependsOnWorkOrderIds)
    (hpr : pd ∈ remaining) :
    SequencePreserver.isReady centerOrders remaining c.docId = false := by
  unfold SequencePreserver.isReady
  rw [find?_docId_of_mem hnd hc]
  simp only [Bool.not_eq_false', List.any_eq_true]
  exact ⟨pd, hpr, by simpa using hpd⟩

theorem ready_exists {CO : List WorkOrder} {remaining : List String}
    {rank : String → Nat} (hrk : Ranked CO rank) (hne : remaining ≠ [])
    (hsub : ∀ id ∈ remaining, ∃ o ∈ CO, o.docId = id) :
    ∃ id ∈ remaining, SequencePreserver.isReady CO remaining id = true := by
  obtain ⟨m, hm, hmin⟩ := exists_min_key rank remaining hne
  refine ⟨m, hm, ?_⟩
  unfold SequencePreserver.isReady
  cases hf : CO.find? (fun o => o.docId == m) with
  | none => rfl
  | some order =>
    obtain ⟨hoin, hoid⟩ := find?_docId_eq hf
    simp only [Bool.not_eq_true', List.any_eq_false, decide_eq_true_eq]
    intro otherId hother hdep
    obtain ⟨p, hp, hpid⟩ := hsub otherId hother
    have h1 := hrk order hoin otherId hdep p hp hpid
    have h2 := hmin otherId hother
    rw [hoid] at h1
    omega

theorem topoSortGo_complete {CO : List WorkOrder} {rank : String → Nat}
    (hrk : Ranked CO rank) :
    ∀ (fuel : Nat) (remaining acc : List String),
      remaining.length ≤ fuel →
      (∀ id ∈ remaining, ∃ o ∈ CO, o.docId = id) →
      ∃ tail, SequencePreserver.topoSortGo CO fuel remaining acc =
          acc ++ tail ∧
        (∀ id ∈ remaining, id ∈ tail) ∧ (∀ id ∈ tail, id ∈ remaining) := by
  intro fuel
  induction fuel with
  | zero =>
    intro remaining acc hlen hsub
    have : remaining = [] := List.eq_nil_of_length_eq_zero (by omega)
    subst this
    exact ⟨[], by simp [SequencePreserver.topoSortGo],
      fun id h => absurd h (List.not_mem_nil id),
      fun id h => absurd h (List.not_mem_nil id)⟩
  | succ n ih =>
    intro remaining acc hlen hsub
    by_cases hre : remaining.isEmpty
    · rw [List.isEmpty_iff] at hre
      subst hre
      exact ⟨[], by simp [SequencePreserver.topoSortGo],
        fun id h => absurd h (List.not_mem_nil id),
        fun id h => absurd h (List.not_mem_nil id)⟩
    · have hne : remaining ≠ [] := by
        intro h; subst h; simp at hre
      cases hf : remaining.find? (SequencePreserver.isReady CO remaining) with
      | none =>
        exfalso
        obtain ⟨id, hid, hready⟩ := ready_exists hrk hne hsub
        have := List.find?_eq_none.mp hf id hid
        rw [hready] at this
        exact this rfl
      | some id =>
        have hidm : id ∈ remaining := List.mem_of_find?_eq_some hf
        simp only [SequencePreserver.topoSortGo, hf]
        rw [if_neg hre]
        obtain ⟨tail, heq, hcomp, hback⟩ := ih (remaining.erase id)
          (acc ++ [id])
          (by rw [List.length_erase_of_mem hidm]; omega)
          (fun i hi => hsub i (List.mem_of_mem_erase hi))
        refine ⟨id :: tail, by rw [heq]; simp, ?_, ?_⟩
        · intro i hi
          by_cases hii : i = id
          · subst hii; exact List.mem_cons_self i tail
          · exact List.mem_cons_of_mem id
              (hcomp i ((List.mem_erase_of_ne hii).mpr hi))
        · intro i hi
          rcases List.mem_cons.mp hi with rfl | hi
          · exact hidm
          · exact List.mem_of_mem_erase (hback i hi)

theorem topoSortGo_tail_nodup {CO : List WorkOrder} :
    ∀ (fuel : Nat) (remaining acc : List String), remaining.Nodup →
      ∃ tail, SequencePreserver.topoSortGo CO fuel remaining acc =
          acc ++ tail ∧ tail.Nodup ∧ (∀ id ∈ tail, id ∈ remaining) := by
  intro fuel
  induction fuel with
  | zero =>
    intro remaining acc hnd
    exact ⟨[], by simp [SequencePreserver.topoSortGo],
      List.nodup_nil, fun id h => absurd h (List.not_mem_nil id)⟩
  | succ n ih =>
    intro remaining acc hnd
    by_cases hre : remaining.isEmpty
    · refine ⟨[], ?_, List.nodup_nil,
        fun id h => absurd h (List.not_mem_nil id)⟩
      simp only [SequencePreserver.topoSortGo]
      rw [if_pos hre, List.append_nil]
    · cases hf : remaining.find? (SequencePreserver.isReady CO remaining) with
      | none =>
        refine ⟨[], ?_, List.nodup_nil,
          fun id h => absurd h (List.not_mem_nil id)⟩
        simp only [SequencePreserver.topoSortGo, hf]
        rw [if_neg hre, List.append_nil]
      | some id =>
        have hidm : id ∈ remaining := List.mem_of_find?_eq_some hf
        simp only [SequencePreserver.topoSortGo, hf]
        rw [if_neg hre]
        obtain ⟨tail, heq, htnd, hsub⟩ := ih (remaining.erase id)
          (acc ++ [id]) (hnd.erase id)
        refine ⟨id :: tail, by rw [heq]; simp, ?_, ?_⟩
        · exact List.nodup_cons.mpr
            ⟨fun hin => hnd.not_mem_erase (hsub id hin), htnd⟩
        · intro i hi
          rcases List.mem_cons.mp hi with rfl | hi
          · exact hidm
          · exact List.mem_of_mem_erase (hsub i hi)

theorem topoSortGo_sep {CO : List WorkOrder} {rank : String → Nat}
    (hnd : (CO.map (fun x => x.docId)).Nodup) (hrk : Ranked CO rank)
    {pid cid : String} {corder : WorkOrder} (hcor : corder ∈ CO)
    (hcid : corder.docId = cid)
    (hdep : pid ∈ corder.data.dependsOnWorkOrderIds) :
    ∀ (fuel : Nat) (remaining acc : List String),
      remaining.length ≤ fuel →
      (∀ id ∈ remaining, ∃ o ∈ CO, o.docId = id) →
      pid ∈ remaining → cid ∈ remaining →
      ∃ t1 t2 t3, SequencePreserver.topoSortGo CO fuel remaining acc =
        acc ++ t1 ++ pid :: t2 ++ cid :: t3 := by
  have hpc : pid ≠ cid := by
    intro he
    subst he
    have := hrk corder hcor pid hdep corder hcor hcid
    rw [hcid] at this
    omega
  intro fuel
  induction fuel with
  | zero =>
    intro remaining acc hlen hsub hpm hcm
    have : remaining = [] := List.eq_nil_of_length_eq_zero (by omega)
    subst this
    exact absurd hpm (List.not_mem_nil pid)
  | succ n ih =>
    intro remaining acc hlen hsub hpm hcm
    have hne : remaining ≠ [] := by
      intro h
      rw [h] at hpm
      exact absurd hpm (List.not_mem_nil pid)
    have hre : ¬ remaining.isEmpty = true := by
      rw [List.isEmpty_iff]; exact hne
    cases hf : remaining.find? (SequencePreserver.isReady CO remaining) with
    | none =>
      exfalso
      obtain ⟨id, hid, hready⟩ := ready_exists hrk hne hsub
      have := List.find?_eq_none.mp hf id hid
      rw [hready] at this
      exact this rfl
    | some id =>
      have hidm : id ∈ remaining := List.mem_of_find?_eq_some hf
      have hready := List.find?_some hf
      simp only [SequencePreserver.topoSortGo, hf]
      rw [if_neg hre]
      by_cases hic : id = cid
      · exfalso
        subst hic
        rw [← hcid] at hready
        rw [isReady_false_of_dep hnd hcor hdep hpm] at hready
        exact Bool.noConfusion hready
      · by_cases hip : id = pid
        · subst hip
          obtain ⟨tail, heq, hcomp, hback⟩ :=
            topoSortGo_complete hrk n (remaining.erase id) (acc ++ [id])
              (by rw [List.length_erase_of_mem hidm]; omega)
              (fun i hi => hsub i (List.mem_of_mem_erase hi))
          have hcm' : cid ∈ tail := hcomp cid
            ((List.mem_erase_of_ne (fun h => hic h.symm)).mpr hcm)
          obtain ⟨t2, t3, ht⟩ := List.append_of_mem hcm'
          refine ⟨[], t2, t3, ?_⟩
          rw [heq, ht]
          simp
        · obtain ⟨t1, t2, t3, heq⟩ := ih (remaining.erase id) (acc ++ [id])
            (by rw [List.length_erase_of_mem hidm]; omega)
            (fun i hi => hsub i (List.mem_of_mem_erase hi))
            ((List.mem_erase_of_ne (fun h => hip h.symm)).mpr hpm)
            ((List.mem_erase_of_ne (fun h => hic h.symm)).mpr hcm)
          refine ⟨id :: t1, t2, t3, ?_⟩
          rw [heq]
          simp

theorem crawlPop_none {CO : List WorkOrder} :
    ∀ {visited stackR : List String},
      SequencePreserver.crawlPop CO visited stackR = none →
      ∀ id ∈ stackR, id ∈ visited ∨
        CO.find? (fun o => o.docId == id) = none := by
  intro visited stackR
  induction stackR with
  | nil => intro _ id h; exact absurd h (List.not_mem_nil id)
  | cons i rest ih =>
    intro h id hid
    unfold SequencePreserver.crawlPop at h
    split at h
    · rcases List.mem_cons.mp hid with rfl | hid
      · exact Or.inl (by assumption)
      · exact ih h id hid
    · split at h
      · rcases List.mem_cons.mp hid with rfl | hid
        · exact Or.inr (by assumption)
        · exact ih h id hid
      · exact Option.noConfusion h

theorem crawlPop_some {CO : List WorkOrder} :
    ∀ {visited stackR : List String} {o : WorkOrder} {rest : List String},
      SequencePreserver.crawlPop CO visited stackR = some (o, rest) →
      o ∈ CO ∧ o.docId ∉ visited ∧
      ∀ id ∈ stackR, id = o.docId ∨ id ∈ rest ∨ id ∈ visited ∨
        CO.find? (fun x => x.docId == id) = none := by
  intro visited stackR
  induction stackR with
  | nil => intro o rest h; exact Option.noConfusion h
  | cons i irest ih =>
    intro o rest h
    unfold SequencePreserver.crawlPop at h
    split at h
    · obtain ⟨h1, h2, h3⟩ := ih h
      refine ⟨h1, h2, fun id hid => ?_⟩
      rcases List.mem_cons.mp hid with rfl | hid
      · exact Or.inr (Or.inr (Or.inl (by assumption)))
      · exact h3 id hid
    · rename_i hiv
      split at h
      · rename_i hfind
        obtain ⟨h1, h2, h3⟩ := ih h
        refine ⟨h1, h2, fun id hid => ?_⟩
        rcases List.mem_cons.mp hid with rfl | hid
        · exact Or.inr (Or.inr (Or.inr (by assumption)))
        · exact h3 id hid
      · rename_i o2 hfind
        injection h with h
        injection h with h1 h2
        subst h1
        subst h2
        obtain ⟨hmem, hdoc⟩ := find?_docId_eq hfind
        refine ⟨hmem, hdoc ▸ hiv, fun id hid => ?_⟩
        rcases List.mem_cons.mp hid with rfl | hid
        · exact Or.inl hdoc.symm
        · exact Or.inr (Or.inl hid)

theorem crawlGo_spec {CO : List WorkOrder}
    (hnd : (CO.map (fun x => x.docId)).Nodup) :
    ∀ (fuel : Nat) (visited stackR acc : List String),
      CO.countP (fun o => decide (o.docId ∉ visited)) < fuel →
      ∃ new, SequencePreserver.crawlGo CO fuel visited stackR acc =
          (new.reverse ++ visited, acc ++ new) ∧
        (∀ id ∈ new, id ∉ visited ∧ ∃ o ∈ CO, o.docId = id) ∧
        new.Nodup ∧
        (∀ id ∈ stackR, (∃ o ∈ CO, o.docId = id) → id ∈ new ∨ id ∈ visited) ∧
        (∀ o2 ∈ CO, o2.docId ∈ new →
          ∀ rel ∈ SequencePreserver.relativesOf CO o2,
            rel.docId ∈ new ∨ rel.docId ∈ visited) := by
  intro fuel
  induction fuel with
  | zero => intro visited stackR acc hM; exact absurd hM (Nat.not_lt_zero _)
  | succ n ih =>
    intro visited stackR acc hM
    cases hep : SequencePreserver.crawlPop CO visited stackR with
    | none =>
      refine ⟨[], ?_, fun id h => absurd h (List.not_mem_nil id),
        List.nodup_nil, ?_, fun o2 _ h => absurd h (List.not_mem_nil _)⟩
      · simp [SequencePreserver.crawlGo, hep]
      · intro id hid hex
        rcases crawlPop_none hep id hid with h | h
        · exact Or.inr h
        · exfalso
          obtain ⟨o, ho, hdoc⟩ := hex
          have := List.find?_eq_none.mp h o ho
          simp [hdoc] at this
    | some pr =>
      obtain ⟨o, rest⟩ := pr
      obtain ⟨hoCO, hovis, hcover⟩ := crawlPop_some hep
      have hdec : CO.countP (fun x => decide (x.docId ∉ o.docId :: visited)) <
          CO.countP (fun x => decide (x.docId ∉ visited)) := by
        refine countP_lt_of_mem (fun a _ hd => ?_) hoCO ?_ ?_
        · rw [decide_eq_true_eq] at hd ⊢
          intro hin
          exact hd (List.mem_cons_of_mem _ hin)
        · rw [decide_eq_true_eq]; exact hovis
        · rw [decide_eq_false_iff_not]
          intro hno
          exact hno (List.mem_cons_self _ _)
      obtain ⟨new', heq, hprops, hnodup, hcov', hclo'⟩ := ih
        (o.docId :: visited)
        (((SequencePreserver.relativesOf CO o).map (fun x => x.docId)).reverse
          ++ rest)
        (acc ++ [o.docId]) (by omega)
      refine ⟨o.docId :: new', ?_, ?_, ?_, ?_, ?_⟩
      · simp only [SequencePreserver.crawlGo, hep, heq]
        simp
      · intro id hid
        rcases List.mem_cons.mp hid with rfl | hid
        · exact ⟨hovis, o, hoCO, rfl⟩
        · obtain ⟨hnv, hex⟩ := hprops id hid
          exact ⟨fun hin => hnv (List.mem_cons_of_mem _ hin), hex⟩
      · refine List.nodup_cons.mpr ⟨?_, hnodup⟩
        intro hin
        exact (hprops _ hin).1 (List.mem_cons_self _ _)
      · intro id hid hex
        rcases hcover id hid with rfl | h | h | h
        · exact Or.inl (List.mem_cons_self _ _)
        · rcases hcov' id (List.mem_append_right _ h) hex with h2 | h2
          · exact Or.inl (List.mem_cons_of_mem _ h2)
          · rcases List.mem_cons.mp h2 with rfl | h3
            · exact Or.inl (List.mem_cons_self _ _)
            · exact Or.inr h3
        · exact Or.inr h
        · exfalso
          obtain ⟨x, hx, hdoc⟩ := hex
          have := List.find?_eq_none.mp h x hx
          simp [hdoc] at this
      · intro o2 ho2 hdoc2 rel hrel
        rcases List.mem_cons.mp hdoc2 with heq2 | hin2
        · have ho2o : o2 = o := List.inj_on_of_nodup_map hnd ho2 hoCO heq2
          subst ho2o
          have hrelCO : rel ∈ CO := List.mem_of_mem_filter hrel
          have hrid : rel.docId ∈
              (((SequencePreserver.relativesOf CO o2).map
                (fun x => x.docId)).reverse ++ rest) := by
            refine List.mem_append_left _ ?_
            rw [List.mem_reverse]
            exact List.mem_map_of_mem _ hrel
          rcases hcov' rel.docId hrid ⟨rel, hrelCO, rfl⟩ with h2 | h2
          · exact Or.inl (List.mem_cons_of_mem _ h2)
          · rcases List.mem_cons.mp h2 with heq3 | h3
            · exact Or.inl (heq3 ▸ List.mem_cons_self _ _)
            · exact Or.inr h3
        · rcases hclo' o2 ho2 hin2 rel hrel with h2 | h2
          · exact Or.inl (List.mem_cons_of_mem _ h2)
          · rcases List.mem_cons.mp h2 with heq3 | h3
            · exact Or.inl (heq3 ▸ List.mem_cons_self _ _)
            · exact Or.inr h3

theorem parent_mem_relatives_child {CO : List WorkOrder}
    {parent child : WorkOrder} (hpCO : parent ∈ CO)
    (hedge : parent.docId ∈ child.data.dependsOnWorkOrderIds) :
    parent ∈ SequencePreserver.relativesOf CO child := by
  unfold SequencePreserver.relativesOf
  rw [List.mem_filter]
  exact ⟨hpCO, by simp [hedge]⟩

theorem child_mem_relatives_parent {CO : List WorkOrder}
    {parent child : WorkOrder} (hcCO : child ∈ CO)
    (hedge : parent.docId ∈ child.data.dependsOnWorkOrderIds) :
    child ∈ SequencePreserver.relativesOf CO parent := by
  unfold SequencePreserver.relativesOf
  rw [List.mem_filter]
  exact ⟨hcCO, by simp [hedge]⟩

theorem crawl_spec {CO : List WorkOrder}
    (hnd : (CO.map (fun x => x.docId)).Nodup) (visited : List String)
    (seed : WorkOrder) (hseed : seed ∈ CO) (hsv : seed.docId ∉ visited) :
    ∃ new, SequencePreserver.crawl CO visited [seed.docId] [] =
        (new.reverse ++ visited, new) ∧
      seed.docId ∈ new ∧
      (∀ id ∈ new, id ∉ visited ∧ ∃ o ∈ CO, o.docId = id) ∧
      new.Nodup ∧
      (∀ o2 ∈ CO, o2.docId ∈ new →
        ∀ rel ∈ SequencePreserver.relativesOf CO o2,
          rel.docId ∈ new ∨ rel.docId ∈ visited) := by
  obtain ⟨new, heq, hprops, hnodup, hcov, hclo⟩ :=
    crawlGo_spec hnd (CO.length + 1) visited [seed.docId] []
      (Nat.lt_succ_of_le (List.countP_le_length _))
  refine ⟨new, by simpa [SequencePreserver.crawl] using heq, ?_, hprops,
    hnodup, hclo⟩
  rcases hcov seed.docId (List.mem_singleton.mpr rfl) ⟨seed, hseed, rfl⟩ with
    h | h
  · exact h
  · exact absurd h hsv

theorem findDependencyGroupsGo_walk {CO : List WorkOrder}
    (hnd : (CO.map (fun x => x.docId)).Nodup)
    {parent child : WorkOrder} (hpCO : parent ∈ CO) (hcCO : child ∈ CO)
    (hedge : parent.docId ∈ child.data.dependsOnWorkOrderIds) :
    ∀ (rest : List WorkOrder) (visited : List String)
      (groups : List SequencePreserver.DependencyGroup),
      (∀ o ∈ rest, o ∈ CO) →
      (∀ g ∈ groups, g.orderIds.Nodup ∧
        ∀ id ∈ g.orderIds, ∃ o ∈ CO, o.docId = id) →
      groups.Pairwise (fun g1 g2 => ∀ id ∈ g1.orderIds, id ∉ g2.orderIds) →
      (∀ g ∈ groups, ∀ id ∈ g.orderIds, id ∈ visited) →
      (parent.docId ∈ visited → child.docId ∈ visited) →
      (child.docId ∈ visited → parent.docId ∈ visited) →
      (child.docId ∈ visited →
        (∃ g ∈ groups, child.docId ∈ g.orderIds ∧
          parent.docId ∈ g.orderIds) ∧
        ∀ g ∈ groups,
          (child.docId ∈ g.orderIds → parent.docId ∈ g.orderIds) ∧
          (parent.docId ∈ g.orderIds → child.docId ∈ g.orderIds)) →
      (child.docId ∈ visited ∨ child ∈ rest) →
      (∀ g ∈ SequencePreserver.findDependencyGroupsGo CO rest visited groups,
        g.orderIds.Nodup ∧ ∀ id ∈ g.orderIds, ∃ o ∈ CO, o.docId = id) ∧
      (SequencePreserver.findDependencyGroupsGo CO rest visited
        groups).Pairwise
        (fun g1 g2 => ∀ id ∈ g1.orderIds, id ∉ g2.orderIds) ∧
      (∃ g ∈ SequencePreserver.findDependencyGroupsGo CO rest visited groups,
        child.docId ∈ g.orderIds ∧ parent.docId ∈ g.orderIds) ∧
      ∀ g ∈ SequencePreserver.findDependencyGroupsGo CO rest visited groups,
        (child.docId ∈ g.orderIds → parent.docId ∈ g.orderIds) ∧
        (parent.docId ∈ g.orderIds → child.docId ∈ g.orderIds) := by
  intro rest
  induction rest with
  | nil =>
    intro visited groups hrest ha hb hG hK1 hK2 hJ hside
    have hcv : child.docId ∈ visited := by
      rcases hside with h | h
      · exact h
      · exact absurd h (List.not_mem_nil child)
    obtain ⟨hex, hall⟩ := hJ hcv
    exact ⟨ha, hb, hex, hall⟩
  | cons order rest' ih =>
    intro visited groups hrest ha hb hG hK1 hK2 hJ hside
    by_cases hvis : order.docId ∈ visited
    · have hres : SequencePreserver.findDependencyGroupsGo CO
          (order :: rest') visited groups =
          SequencePreserver.findDependencyGroupsGo CO rest' visited groups := by
        simp [SequencePreserver.findDependencyGroupsGo, hvis]
      rw [hres]
      refine ih visited groups
        (fun o ho => hrest o (List.mem_cons_of_mem _ ho))
        ha hb hG hK1 hK2 hJ ?_
      rcases hside with h | h
      · exact Or.inl h
      · rcases List.mem_cons.mp h with rfl | h2
        · exact Or.inl hvis
        · exact Or.inr h2
    · have hoCO : order ∈ CO := hrest order (List.mem_cons_self _ _)
      obtain ⟨new, hcr, hseedm, hprops, hnodup, hclo⟩ :=
        crawl_spec hnd visited order hoCO hvis
      have hdisj : ∀ id ∈ new, id ∉ visited := fun id h => (hprops id h).1
      have hsubCO : ∀ id ∈ new, ∃ o ∈ CO, o.docId = id :=
        fun id h => (hprops id h).2
      have hK1' : parent.docId ∈ new.reverse ++ visited →
          child.docId ∈ new.reverse ++ visited := by
        intro hp
        rcases List.mem_append.mp hp with hp | hp
        · rw [List.mem_reverse] at hp
          rcases hclo parent hpCO hp child
              (child_mem_relatives_parent hcCO hedge) with h | h
          · exact List.mem_append_left _ (List.mem_reverse.mpr h)
          · exact List.mem_append_right _ h
        · exact List.mem_append_right _ (hK1 hp)
      have hK2' : child.docId ∈ new.reverse ++ visited →
          parent.docId ∈ new.reverse ++ visited := by
        intro hc
        rcases List.mem_append.mp hc with hc | hc
        · rw [List.mem_reverse] at hc
          rcases hclo child hcCO hc parent
              (parent_mem_relatives_child hpCO hedge) with h | h
          · exact List.mem_append_left _ (List.mem_reverse.mpr h)
          · exact List.mem_append_right _ h
        · exact List.mem_append_right _ (hK2 hc)
      have hpairnew : (child.docId ∈ new → parent.docId ∈ new) ∧
          (parent.docId ∈ new → child.docId ∈ new) := by
        constructor
        · intro hc
          rcases hclo child hcCO hc parent
              (parent_mem_relatives_child hpCO hedge) with h | h
          · exact h
          · exact absurd (hK1 h) (hdisj child.docId hc)
        · intro hp
          rcases hclo parent hpCO hp child
              (child_mem_relatives_parent hcCO hedge) with h | h
          · exact h
          · exact absurd (hK2 h) (hdisj parent.docId hp)
      have hside' : child.docId ∈ new.reverse ++ visited ∨ child ∈ rest' := by
        rcases hside with h | h
        · exact Or.inl (List.mem_append_right _ h)
        · rcases List.mem_cons.mp h with rfl | h2
          · exact Or.inl (List.mem_append_left _
              (List.mem_reverse.mpr hseedm))
          · exact Or.inr h2
      have hres : SequencePreserver.findDependencyGroupsGo CO
          (order :: rest') visited groups =
          if (new.any fun id =>
            match CO.find? (fun o => o.docId == id) with
            | some o =>
              decide (o.data.dependsOnWorkOrderIds ≠ []) ||
              CO.any (fun other =>
                decide (id ∈ other.data.dependsOnWorkOrderIds))
            | none => false) = true then
            SequencePreserver.findDependencyGroupsGo CO rest'
              (new.reverse ++ visited)
              (groups ++ [{ orderIds := new, topologicalOrdering := [] }])
          else
            SequencePreserver.findDependencyGroupsGo CO rest'
              (new.reverse ++ visited) groups := by
        simp only [SequencePreserver.findDependencyGroupsGo]
        rw [if_neg hvis]
        rw [hcr]
      rw [hres]
      have hrest' : ∀ o ∈ rest', o ∈ CO :=
        fun o ho => hrest o (List.mem_cons_of_mem _ ho)
      have hG'base : ∀ g ∈ groups, ∀ id ∈ g.orderIds,
          id ∈ new.reverse ++ visited :=
        fun g hg id hid => List.mem_append_right _ (hG g hg id hid)
      split
      · -- the component is kept as a dependency group
        rename_i hkept
        refine ih (new.reverse ++ visited)
          (groups ++ [{ orderIds := new, topologicalOrdering := [] }])
          hrest' ?_ ?_ ?_ hK1' hK2' ?_ hside'
        · intro g hg
          rcases List.mem_append.mp hg with hg | hg
          · exact ha g hg
          · rw [List.mem_singleton.mp hg]
            exact ⟨hnodup, hsubCO⟩
        · rw [List.pairwise_append]
          refine ⟨hb, List.pairwise_singleton _ _, ?_⟩
          intro g1 hg1 g2 hg2
          rw [List.mem_singleton.mp hg2]
          intro id hid
          exact fun hin => hdisj id hin (hG g1 hg1 id hid)
        · intro g hg id hid
          rcases List.mem_append.mp hg with hg | hg
          · exact hG'base g hg id hid
          · rw [List.mem_singleton.mp hg] at hid
            exact List.mem_append_left _ (List.mem_reverse.mpr hid)
        · intro hcv'
          rcases List.mem_append.mp hcv' with hcn | hcv
          · rw [List.mem_reverse] at hcn
            have hpn : parent.docId ∈ new := hpairnew.1 hcn
            constructor
            · exact ⟨{ orderIds := new, topologicalOrdering := [] },
                List.mem_append_right _ (List.mem_singleton.mpr rfl),
                hcn, hpn⟩
            · intro g hg
              rcases List.mem_append.mp hg with hg | hg
              · constructor
                · intro hcg
                  exact absurd (hG g hg _ hcg) (hdisj _ hcn)
                · intro hpg
                  exact absurd (hK1 (hG g hg _ hpg)) (hdisj _ hcn)
              · rw [List.mem_singleton.mp hg]
                exact ⟨fun _ => hpn, fun _ => hcn⟩
          · obtain ⟨⟨g, hg, hcg, hpg⟩, hall⟩ := hJ hcv
            constructor
            · exact ⟨g, List.mem_append_left _ hg, hcg, hpg⟩
            · intro g2 hg2
              rcases List.mem_append.mp hg2 with hg2 | hg2
              · exact hall g2 hg2
              · rw [List.mem_singleton.mp hg2]
                constructor
                · intro hcg2
                  exact absurd hcv (hdisj _ hcg2)
                · intro hpg2
                  exact absurd (hK2 hcv) (hdisj _ hpg2)
      · -- the component is dropped: it cannot contain the child
        rename_i hkept
        refine ih (new.reverse ++ visited) groups hrest' ha hb hG'base
          hK1' hK2' ?_ hside'
        intro hcv'
        rcases List.mem_append.mp hcv' with hcn | hcv
        · rw [List.mem_reverse] at hcn
          exfalso
          apply hkept
          rw [List.any_eq_true]
          refine ⟨child.docId, hcn, ?_⟩
          rw [find?_docId_of_mem hnd hcCO]
          simp only [Bool.or_eq_true, decide_eq_true_eq]
          exact Or.inl (List.ne_nil_of_mem hedge)
        · obtain ⟨⟨g, hg, hcg, hpg⟩, hall⟩ := hJ hcv
          exact ⟨⟨g, hg, hcg, hpg⟩, hall⟩

theorem findDependencyGroups_pair {CO : List WorkOrder}
    (hnd : (CO.map (fun x => x.docId)).Nodup)
    {parent child : WorkOrder} (hpCO : parent ∈ CO) (hcCO : child ∈ CO)
    (hedge : parent.docId ∈ child.data.dependsOnWorkOrderIds) :
    (∀ g ∈ SequencePreserver.findDependencyGroups CO,
      g.orderIds.Nodup ∧ ∀ id ∈ g.orderIds, ∃ o ∈ CO, o.docId = id) ∧
    (SequencePreserver.findDependencyGroups CO).Pairwise
      (fun g1 g2 => ∀ id ∈ g1.orderIds, id ∉ g2.orderIds) ∧
    (∃ g ∈ SequencePreserver.findDependencyGroups CO,
      child.docId ∈ g.orderIds ∧ parent.docId ∈ g.orderIds) ∧
    ∀ g ∈ SequencePreserver.findDependencyGroups CO,
      (child.docId ∈ g.orderIds → parent.docId ∈ g.orderIds) ∧
      (parent.docId ∈ g.orderIds → child.docId ∈ g.orderIds) :=
  findDependencyGroupsGo_walk hnd hpCO hcCO hedge CO [] []
    (fun o ho => ho)
    (fun g hg => absurd hg (List.not_mem_nil g))
    List.Pairwise.nil
    (fun g hg => absurd hg (List.not_mem_nil g))
    (fun h => absurd h (List.not_mem_nil _))
    (fun h => absurd h (List.not_mem_nil _))
    (fun h => absurd h (List.not_mem_nil _))
    (Or.inr hcCO)

theorem mem_enumFrom_of_mem {α : Type} :
    ∀ {l : List α} {x : α} (n : Nat), x ∈ l →
      ∃ i, (i, x) ∈ List.enumFrom n l := by
  intro l
  induction l with
  | nil => intro x n h; exact absurd h (List.not_mem_nil x)
  | cons a l ih =>
    intro x n h
    rcases List.mem_cons.mp h with rfl | h2
    · exact ⟨n, List.mem_cons_self _ _⟩
    · obtain ⟨i, hi⟩ := ih (n + 1) h2
      exact ⟨i, List.mem_cons_of_mem _ hi⟩

theorem mem_findOriginalSequenceOrder_of_mem {orders : List WorkOrder}
    {x : WorkOrder} (h : x ∈ orders) :
    x ∈ SequencePreserver.findOriginalSequenceOrder orders := by
  unfold SequencePreserver.findOriginalSequenceOrder
  obtain ⟨i, hi⟩ := mem_enumFrom_of_mem 0 h
  refine List.mem_map.mpr ⟨(i, x), ?_, rfl⟩
  rw [mem_sortByKey]
  exact hi

theorem interleaveGo_extends {CO : List WorkOrder}
    {gs : List SequencePreserver.DependencyGroup} :
    ∀ (items : List WorkOrder) (processed : List String)
      (acc : List WorkOrder),
      ∃ ext, SequencePreserver.interleaveGo CO gs items processed acc =
        acc ++ ext := by
  intro items
  induction items with
  | nil => intro processed acc; exact ⟨[], by simp [SequencePreserver.interleaveGo]⟩
  | cons s rest ih =>
    intro processed acc
    simp only [SequencePreserver.interleaveGo]
    split
    · exact ih processed acc
    · split
      · rename_i g hg
        obtain ⟨ext, hext⟩ := ih _ _
        rw [hext]
        exact ⟨_ ++ ext, List.append_assoc _ _ _⟩
      · obtain ⟨ext, hext⟩ := ih _ _
        rw [hext]
        exact ⟨_ ++ ext, List.append_assoc _ _ _⟩

theorem interleaveGo_sep {CO : List WorkOrder}
    {gs : List SequencePreserver.DependencyGroup} {parent child : WorkOrder}
    (hnd : (CO.map (fun x => x.docId)).Nodup)
    (hfp : CO.find? (fun o => o.docId == parent.docId) = some parent)
    (hfc : CO.find? (fun o => o.docId == child.docId) = some child)
    (hex : ∃ g ∈ gs, child.docId ∈ g.orderIds ∧ parent.docId ∈ g.orderIds)
    (hsym : ∀ g ∈ gs, parent.docId ∈ g.orderIds → child.docId ∈ g.orderIds)
    (hsep : ∀ g ∈ gs, child.docId ∈ g.orderIds →
      ∃ t1 t2 t3, g.topologicalOrdering =
        t1 ++ parent.docId :: t2 ++ child.docId :: t3)
    (hsub : ∀ g ∈ gs, ∀ id ∈ g.topologicalOrdering, id ∈ g.orderIds) :
    ∀ (items : List WorkOrder) (processed : List String)
      (acc : List WorkOrder),
      (∀ o ∈ items, o ∈ CO) →
      child ∈ items →
      child.docId ∉ processed → parent.docId ∉ processed →
      ∃ w1 w2 w3, SequencePreserver.interleaveGo CO gs items processed acc =
        w1 ++ parent :: w2 ++ child :: w3 := by
  intro items
  induction items with
  | nil =>
    intro processed acc _ hcit _ _
    exact absurd hcit (List.not_mem_nil child)
  | cons s rest ih =>
    intro processed acc hitems hcit hcp hpp
    simp only [SequencePreserver.interleaveGo]
    split
    · rename_i hsp
      have hcs : child ∈ rest := by
        rcases List.mem_cons.mp hcit with rfl | h
        · exact absurd hsp hcp
        · exact h
      exact ih _ _ (fun o ho => hitems o (List.mem_cons_of_mem _ ho)) hcs
        hcp hpp
    · rename_i hsp
      split
      · rename_i g hfg
        have hgmem : g ∈ gs := List.mem_of_find?_eq_some hfg
        have hsing : s.docId ∈ g.orderIds := by
          have := List.find?_some hfg
          exact of_decide_eq_true this
        by_cases hcg : child.docId ∈ g.orderIds
        · obtain ⟨t1, t2, t3, hts⟩ := hsep g hgmem hcg
          obtain ⟨ext, hext⟩ := interleaveGo_extends rest
            (processed ++ g.topologicalOrdering)
            (acc ++ g.topologicalOrdering.filterMap fun id =>
              CO.find? (fun o => o.docId == id))
          rw [hext, hts]
          refine ⟨acc ++ t1.filterMap (fun id =>
              CO.find? (fun o => o.docId == id)),
            t2.filterMap (fun id => CO.find? (fun o => o.docId == id)),
            t3.filterMap (fun id => CO.find? (fun o => o.docId == id)) ++ ext,
            ?_⟩
          simp [hfp, hfc, List.append_assoc]
        · have hpg : parent.docId ∉ g.orderIds := fun h => hcg (hsym g hgmem h)
          have hcs : child ∈ rest := by
            rcases List.mem_cons.mp hcit with rfl | h
            · exact absurd hsing hcg
            · exact h
          refine ih _ _ (fun o ho => hitems o (List.mem_cons_of_mem _ ho))
            hcs ?_ ?_
          · intro h
            rcases List.mem_append.mp h with h | h
            · exact hcp h
            · exact hcg (hsub g hgmem _ h)
          · intro h
            rcases List.mem_append.mp h with h | h
            · exact hpp h
            · exact hpg (hsub g hgmem _ h)
      · rename_i hfg
        have hsCO : s ∈ CO := hitems s (List.mem_cons_self _ _)
        have hsc : s ≠ child := by
          rintro rfl
          obtain ⟨g, hg, hcg, _⟩ := hex
          have := List.find?_eq_none.mp hfg g hg
          simp [hcg] at this
        have hcs : child ∈ rest := by
          rcases List.mem_cons.mp hcit with h | h
          · exact absurd h.symm hsc
          · exact h
        refine ih _ _ (fun o ho => hitems o (List.mem_cons_of_mem _ ho))
          hcs ?_ ?_
        · intro h
          rcases List.mem_append.mp h with h | h
          · exact hcp h
          · rw [List.mem_singleton] at h
            exact hsc (List.inj_on_of_nodup_map hnd hsCO
              (List.mem_of_find?_eq_some hfc) h.symm)
        · intro h
          rcases List.mem_append.mp h with h | h
          · exact hpp h
          · rw [List.mem_singleton] at h
            obtain ⟨g, hg, _, hpg⟩ := hex
            have h2 := List.find?_eq_none.mp hfg g hg
            exact h2 (by rw [← h]; exact decide_eq_true hpg)

theorem filterMap_find_ids {CO : List WorkOrder} :
    ∀ (ids : List String), (∀ id ∈ ids, ∃ o ∈ CO, o.docId = id) →
      ((ids.filterMap fun id => CO.find? (fun o => o.docId == id)).map
        (fun x => x.docId)) = ids := by
  intro ids
  induction ids with
  | nil => intro _; rfl
  | cons id ids ih =>
    intro hres
    rw [List.filterMap_cons]
    cases hf : CO.find? (fun o => o.docId == id) with
    | none =>
      exfalso
      obtain ⟨o, ho, hdoc⟩ := hres id (List.mem_cons_self _ _)
      have := List.find?_eq_none.mp hf o ho
      simp [hdoc] at this
    | some o =>
      rw [List.map_cons, (find?_docId_eq hf).2,
        ih (fun i hi => hres i (List.mem_cons_of_mem _ hi))]

theorem interleaveGo_ids_nodup {CO : List WorkOrder}
    {gs : List SequencePreserver.DependencyGroup}
    (hgnd : ∀ g ∈ gs, g.topologicalOrdering.Nodup)
    (hgsub : ∀ g ∈ gs, ∀ id ∈ g.topologicalOrdering, id ∈ g.orderIds)
    (hgcomp : ∀ g ∈ gs, ∀ id ∈ g.orderIds, id ∈ g.topologicalOrdering)
    (hgres : ∀ g ∈ gs, ∀ id ∈ g.orderIds, ∃ o ∈ CO, o.docId = id)
    (hdisj : gs.Pairwise
      (fun g1 g2 => ∀ id ∈ g1.orderIds, id ∉ g2.orderIds)) :
    ∀ (items : List WorkOrder) (processed : List String)
      (acc : List WorkOrder),
      (acc.map (fun x => x.docId)).Nodup →
      (∀ id ∈ acc.map (fun x => x.docId), id ∈ processed) →
      (∀ g ∈ gs, (∃ id ∈ g.orderIds, id ∈ processed) →
        ∀ id ∈ g.orderIds, id ∈ processed) →
      ((SequencePreserver.interleaveGo CO gs items processed acc).map
        (fun x => x.docId)).Nodup := by
  have hsymm : Symmetric (fun g1 g2 : SequencePreserver.DependencyGroup =>
      ∀ id ∈ g1.orderIds, id ∉ g2.orderIds) := by
    intro g1 g2 h id hid2 hid1
    exact h id hid1 hid2
  intro items
  induction items with
  | nil =>
    intro processed acc hand _ _
    simpa [SequencePreserver.interleaveGo] using hand
  | cons s rest ih =>
    intro processed acc hand hsubp haon
    simp only [SequencePreserver.interleaveGo]
    split
    · exact ih processed acc hand hsubp haon
    · rename_i hsp
      split
      · rename_i g hfg
        have hgmem : g ∈ gs := List.mem_of_find?_eq_some hfg
        have hsing : s.docId ∈ g.orderIds := by
          have := List.find?_some hfg
          exact of_decide_eq_true this
        have hnop : ∀ id ∈ g.orderIds, id ∉ processed := by
          intro id hid hinp
          exact hsp (haon g hgmem ⟨id, hid, hinp⟩ s.docId hsing)
        have hbids : ((g.topologicalOrdering.filterMap fun id =>
            CO.find? (fun o => o.docId == id)).map (fun x => x.docId)) =
            g.topologicalOrdering :=
          filterMap_find_ids _ (fun id hid => hgres g hgmem id
            (hgsub g hgmem id hid))
        refine ih _ _ ?_ ?_ ?_
        · rw [List.map_append, hbids]
          rw [List.nodup_append]
          refine ⟨hand, hgnd g hgmem, ?_⟩
          intro id hid1 hid2
          exact hnop id (hgsub g hgmem id hid2) (hsubp id hid1)
        · intro id hid
          rw [List.map_append, hbids] at hid
          rcases List.mem_append.mp hid with h | h
          · exact List.mem_append_left _ (hsubp id h)
          · exact List.mem_append_right _ h
        · intro g2 hg2 hex2 id hid
          obtain ⟨id0, hid0, hid0p⟩ := hex2
          rcases List.mem_append.mp hid0p with h0 | h0
          · exact List.mem_append_left _
              (haon g2 hg2 ⟨id0, hid0, h0⟩ id hid)
          · have hid0g : id0 ∈ g.orderIds := hgsub g hgmem id0 h0
            by_cases hgg : g2 = g
            · subst hgg
              exact List.mem_append_right _ (hgcomp g2 hg2 id hid)
            · exfalso
              exact hdisj.forall hsymm hg2 hgmem hgg id0 hid0 hid0g
      · rename_i hfg
        refine ih _ _ ?_ ?_ ?_
        · rw [List.map_append]
          simp only [List.map_cons, List.map_nil]
          rw [List.nodup_append]
          refine ⟨hand, List.nodup_singleton _, ?_⟩
          intro id hid1 hid2
          rw [List.mem_singleton] at hid2
          subst hid2
          exact hsp (hsubp _ hid1)
        · intro id hid
          rw [List.map_append] at hid
          rcases List.mem_append.mp hid with h | h
          · exact List.mem_append_left _ (hsubp id h)
          · simp only [List.map_cons, List.map_nil,
              List.mem_singleton] at h
            subst h
            exact List.mem_append_right _ (List.mem_singleton.mpr rfl)
        · intro g2 hg2 hex2 id hid
          obtain ⟨id0, hid0, hid0p⟩ := hex2
          rcases List.mem_append.mp hid0p with h0 | h0
          · exact List.mem_append_left _
              (haon g2 hg2 ⟨id0, hid0, h0⟩ id hid)
          · rw [List.mem_singleton] at h0
            subst h0
            exfalso
            have := List.find?_eq_none.mp hfg g2 hg2
            exact this (decide_eq_true hid0)

theorem mem_dedupFirst {x : String} :
    ∀ {l : List String}, x ∈ l → x ∈ SequencePreserver.dedupFirst l := by
  have hgen : ∀ (l acc : List String), x ∈ acc ∨ x ∈ l →
      x ∈ l.foldl (fun acc y => if y ∈ acc then acc else acc ++ [y]) acc := by
    intro l
    induction l with
    | nil =>
      intro acc h
      rcases h with h | h
      · exact h
      · exact absurd h (List.not_mem_nil x)
    | cons a l ih =>
      intro acc h
      rw [List.foldl_cons]
      refine ih _ ?_
      rcases h with h | h
      · left
        split
        · exact h
        · exact List.mem_append_left _ h
      · rcases List.mem_cons.mp h with rfl | h2
        · left
          split
          · assumption
          · exact List.mem_append_right _ (List.mem_singleton.mpr rfl)
        · exact Or.inr h2
  intro l h
  exact hgen l [] (Or.inr h)

theorem lookup_map_pair {α : Type} (f : String → α) :
    ∀ (l : List String) (x : String), x ∈ l →
      List.lookup x (l.map fun k => (k, f k)) = some (f x) := by
  intro l
  induction l with
  | nil => intro x h; exact absurd h (List.not_mem_nil x)
  | cons k l ih =>
    intro x h
    rw [List.map_cons]
    by_cases hk : x = k
    · subst hk
      simp [List.lookup_cons]
    · have hbeq : (x == k) = false := beq_eq_false_iff_ne.mpr hk
      simp only [List.lookup_cons, hbeq]
      rcases List.mem_cons.mp h with rfl | h2
      · exact absurd rfl hk
      · exact ih x h2

theorem forall₂_map_docId {seq out : List WorkOrder}
    (h : List.Forall₂ (fun c u => stripDates u = stripDates c) seq out) :
    out.map (fun x => x.docId) = seq.map (fun x => x.docId) := by
  induction h with
  | nil => rfl
  | cons hcu hrest ih =>
    simp only [List.map_cons, ih, List.cons.injEq, and_true]
    exact (stripDates_fields hcu).1

theorem mem_of_getLast? {α : Type} :
    ∀ {l : List α} {a : α}, l.getLast? = some a → a ∈ l := by
  intro l
  induction l with
  | nil => intro a h; exact Option.noConfusion h
  | cons x xs ih =>
    intro a h
    cases hxs : xs with
    | nil =>
      subst hxs
      simp only [List.getLast?_singleton] at h
      injection h with h
      exact h ▸ List.mem_cons_self _ _
    | cons y ys =>
      subst hxs
      rw [List.getLast?_cons_cons] at h
      exact List.mem_cons_of_mem _ (ih h)

theorem chain_last :
    ∀ (l : List WorkOrder),
      l.Pairwise (fun a b => a.data.endDate ≤ b.data.startDate) →
      (∀ x ∈ l, x.data.startDate ≤ x.data.endDate) →
      ∀ last, l.getLast? = some last →
        ∀ a ∈ l, a.data.endDate ≤ last.data.endDate := by
  intro l
  induction l with
  | nil => intro _ _ last h; exact Option.noConfusion h
  | cons x xs ih =>
    intro hp hse last hlast a ha
    cases hxs : xs with
    | nil =>
      subst hxs
      simp only [List.getLast?_singleton] at hlast
      injection hlast with hlast
      subst hlast
      rw [List.mem_singleton.mp ha]
    | cons y ys =>
      subst hxs
      rw [List.getLast?_cons_cons] at hlast
      have hlast_mem : last ∈ y :: ys := mem_of_getLast? hlast
      rcases List.mem_cons.mp ha with rfl | ha2
      · have h1 := (List.pairwise_cons.mp hp).1 last hlast_mem
        have h2 := hse last (List.mem_cons_of_mem _ hlast_mem)
        omega
      · exact ih (List.pairwise_cons.mp hp).2
          (fun z hz => hse z (List.mem_cons_of_mem _ hz)) last hlast a ha2

theorem processOrders_chain {fuel : Nat} {center : WorkCenter}
    {allOrders : List WorkOrder} {origV : List Violation}
    (hobs : ∀ p ∈ ReflowService.obstaclesOf center allOrders, p.1 ≤ p.2) :
    ∀ (seq : List WorkOrder) (st st' : ReflowService.CenterState),
      ReflowService.processOrders fuel center allOrders origV seq st =
        some st' →
      (∀ x ∈ seq, x.data.startDate ≤ x.data.endDate) →
      (∀ x ∈ st.scheduled, x.data.startDate ≤ x.data.endDate) →
      st.scheduled.Pairwise (fun a b => a.data.endDate ≤ b.data.startDate) →
      st'.scheduled.Pairwise
        (fun a b => a.data.endDate ≤ b.data.startDate) ∧
      (∀ x ∈ st'.scheduled, x.data.startDate ≤ x.data.endDate) := by
  intro seq
  induction seq with
  | nil =>
    intro st st' h _ hsse hp
    injection h with h
    subst h
    exact ⟨hp, hsse⟩
  | cons c rest ih =>
    intro st st' h hse hsse hp
    simp only [ReflowService.processOrders] at h
    cases hpo : ReflowService.processOrder fuel center allOrders origV st c
        with
    | none => rw [hpo] at h; exact Option.noConfusion h
    | some st1 =>
      rw [hpo] at h
      obtain ⟨u, hsched, hstrip, hok, hprev⟩ := processOrder_spec hobs hpo
      have huse : u.data.startDate ≤ u.data.endDate := by
        rcases hok with rfl | hok
        · exact hse u (List.mem_cons_self _ _)
        · exact hok
      have hsse1 : ∀ x ∈ st1.scheduled, x.data.startDate ≤ x.data.endDate := by
        rw [hsched]
        intro x hx
        rcases List.mem_append.mp hx with hx | hx
        · exact hsse x hx
        · rw [List.mem_singleton.mp hx]
          exact huse
      have hp1 : st1.scheduled.Pairwise
          (fun a b => a.data.endDate ≤ b.data.startDate) := by
        rw [hsched, List.pairwise_append]
        refine ⟨hp, List.pairwise_singleton _ _, ?_⟩
        intro a ha b hb
        rw [List.mem_singleton.mp hb]
        cases hl : st.scheduled.getLast? with
        | none =>
          rw [List.getLast?_eq_none_iff] at hl
          rw [hl] at ha
          exact absurd ha (List.not_mem_nil a)
        | some prev =>
          have h1 := chain_last st.scheduled hp hsse prev hl a ha
          have h2 := hprev prev hl
          omega
      exact ih st1 st' h (fun x hx => hse x (List.mem_cons_of_mem _ hx))
        hsse1 hp1

theorem findIdx?_get {α : Type} {p : α → Bool} :
    ∀ {l : List α} {i : Nat}, l.findIdx? p = some i →
      ∃ x, l.get? i = some x ∧ p x = true := by
  intro l
  induction l with
  | nil => intro i h; rw [List.findIdx?_nil] at h; exact Option.noConfusion h
  | cons a l ih =>
    intro i h
    rw [List.findIdx?_cons] at h
    split at h
    · injection h with h
      subst h
      exact ⟨a, rfl, by assumption⟩
    · rw [List.findIdx?_succ] at h
      cases hi : l.findIdx? p with
      | none => rw [hi] at h; exact Option.noConfusion h
      | some i0 =>
        rw [hi] at h
        injection h with h
        subst h
        obtain ⟨x, hx, hp⟩ := ih hi
        exact ⟨x, hx, hp⟩

theorem findIdx?_none_all {α : Type} {p : α → Bool} :
    ∀ {l : List α}, l.findIdx? p = none → ∀ x ∈ l, p x = false := by
  intro l
  induction l with
  | nil => intro _ x h; exact absurd h (List.not_mem_nil x)
  | cons a l ih =>
    intro h x hx
    rw [List.findIdx?_cons] at h
    split at h
    · exact Option.noConfusion h
    · rw [List.findIdx?_succ] at h
      rcases List.mem_cons.mp hx with rfl | hx2
      · rwa [Bool.not_eq_true] at *
      · refine ih ?_ x hx2
        cases hi : l.findIdx? p with
        | none => rfl
        | some i0 => rw [hi] at h; exact Option.noConfusion h

theorem set_get_self {α : Type} :
    ∀ (l : List α) (i : Nat) (a : α), l.get? i = some a → l.set i a = l := by
  intro l
  induction l with
  | nil => intro i a h; rfl
  | cons x l ih =>
    intro i a h
    cases i with
    | zero =>
      injection h with h
      rw [List.set_cons_zero, h]
    | succ i' =>
      rw [List.set_cons_succ, ih i' a h]

theorem mem_set_cases {α : Type} :
    ∀ {l : List α} {i : Nat} {u x : α}, x ∈ l.set i u →
      x = u ∨ ∃ j, j ≠ i ∧ l.get? j = some x := by
  intro l
  induction l with
  | nil => intro i u x h; exact absurd h (List.not_mem_nil x)
  | cons a l ih =>
    intro i u x h
    cases i with
    | zero =>
      rw [List.set_cons_zero] at h
      rcases List.mem_cons.mp h with rfl | h2
      · exact Or.inl rfl
      · obtain ⟨j0, hj0⟩ := List.mem_iff_get?.mp h2
        exact Or.inr ⟨j0 + 1, Nat.succ_ne_zero j0, hj0⟩
    | succ i' =>
      rw [List.set_cons_succ] at h
      rcases List.mem_cons.mp h with rfl | h2
      · exact Or.inr ⟨0, fun h => Nat.succ_ne_zero i' h.symm, rfl⟩
      · rcases ih h2 with h3 | ⟨j, hj, hg⟩
        · exact Or.inl h3
        · exact Or.inr ⟨j + 1, fun he => hj (Nat.succ_injective he), hg⟩

theorem replaceFirstById_ids {cur : List WorkOrder} {u : WorkOrder} :
    ((ReflowService.replaceFirstById cur u).map (fun x => x.docId)) =
      cur.map (fun x => x.docId) := by
  unfold ReflowService.replaceFirstById
  cases hf : cur.findIdx? (fun o => o.docId == u.docId) with
  | none => rfl
  | some i =>
    obtain ⟨x, hx, hp⟩ := findIdx?_get hf
    rw [beq_iff_eq] at hp
    rw [List.map_set]
    refine set_get_self _ i u.docId ?_
    rw [List.get?_map, hx]
    simp [hp]

theorem replaceFirstById_unique {cur : List WorkOrder} {u : WorkOrder}
    (hnd : (cur.map (fun x => x.docId)).Nodup) :
    ∀ x ∈ ReflowService.replaceFirstById cur u, x.docId = u.docId → x = u := by
  unfold ReflowService.replaceFirstById
  cases hf : cur.findIdx? (fun o => o.docId == u.docId) with
  | none =>
    intro x hx hid
    have := findIdx?_none_all hf x hx
    rw [hid] at this
    simp at this
  | some i =>
    intro x hx hid
    obtain ⟨y, hy, hpy⟩ := findIdx?_get hf
    rw [beq_iff_eq] at hpy
    rcases mem_set_cases hx with h | ⟨j, hj, hg⟩
    · exact h
    · exfalso
      apply hj
      have hilen : i < cur.length := by
        by_contra hge
        rw [List.get?_eq_none.mpr (by omega)] at hy
        exact Option.noConfusion hy
      have hLi : (cur.map (fun z => z.docId)).get? i = some u.docId := by
        rw [List.get?_map, hy]
        simp [hpy]
      have hLj : (cur.map (fun z => z.docId)).get? j = some u.docId := by
        rw [List.get?_map, hg]
        simp [hid]
      have hilen2 : i < (cur.map (fun z => z.docId)).length := by
        rw [List.length_map]
        exact hilen
      exact (List.get?_inj hilen2 hnd (hLi.trans hLj.symm)).symm

theorem foldl_replace_ids {out : List WorkOrder} :
    ∀ (cur : List WorkOrder),
      ((out.foldl ReflowService.replaceFirstById cur).map
        (fun x => x.docId)) = cur.map (fun x => x.docId) := by
  induction out with
  | nil => intro cur; rfl
  | cons u0 rest ih =>
    intro cur
    rw [List.foldl_cons, ih, replaceFirstById_ids]

theorem foldl_replace_final {out : List WorkOrder} :
    ∀ (cur : List WorkOrder), (cur.map (fun x => x.docId)).Nodup →
      (out.map (fun x => x.docId)).Nodup →
      ∀ u ∈ out, ∀ x ∈ out.foldl ReflowService.replaceFirstById cur,
        x.docId = u.docId → x = u := by
  induction out with
  | nil => intro cur _ _ u hu; exact absurd hu (List.not_mem_nil u)
  | cons u0 rest ih =>
    intro cur hnd hond u hu x hx hid
    rw [List.foldl_cons] at hx
    have hnd1 : ((ReflowService.replaceFirstById cur u0).map
        (fun z => z.docId)).Nodup := by
      rw [replaceFirstById_ids]; exact hnd
    rcases List.mem_cons.mp hu with rfl | hu2
    · have hne : ∀ v ∈ rest, v.docId ≠ u.docId := by
        intro v hv he
        have h1 := (List.nodup_cons.mp hond).1
        have h2 : u.docId ∈ rest.map (fun z => z.docId) := by
          rw [← he]
          exact List.mem_map_of_mem _ hv
        exact h1 h2
      exact foldl_replace_inv rest _ hne
        (replaceFirstById_unique hnd) x hx hid
    · exact ih _ hnd1 (List.nodup_cons.mp hond).2 u hu2 x hx hid

theorem replaceFirstById_strip {cur : List WorkOrder} {u : WorkOrder}
    (hx : ∀ x ∈ cur, x.docId = u.docId → stripDates x = stripDates u) :
    (ReflowService.replaceFirstById cur u).map stripDates =
      cur.map stripDates := by
  unfold ReflowService.replaceFirstById
  cases hf : cur.findIdx? (fun o => o.docId == u.docId) with
  | none => rfl
  | some i =>
    obtain ⟨y, hy, hp⟩ := findIdx?_get hf
    rw [beq_iff_eq] at hp
    rw [List.map_set]
    refine set_get_self _ i (stripDates u) ?_
    rw [List.get?_map, hy]
    have hymem : y ∈ cur := List.get?_mem hy
    simp [hx y hymem hp]

theorem foldl_replace_strip {out : List WorkOrder} :
    ∀ (cur : List WorkOrder), (out.map (fun x => x.docId)).Nodup →
      (∀ v ∈ out, ∀ x ∈ cur, x.docId = v.docId →
        stripDates x = stripDates v) →
      (out.foldl ReflowService.replaceFirstById cur).map stripDates =
        cur.map stripDates := by
  induction out with
  | nil => intro cur _ _; rfl
  | cons u0 rest ih =>
    intro cur hond hmatch
    rw [List.foldl_cons]
    rw [ih _ (List.nodup_cons.mp hond).2 ?_, replaceFirstById_strip
      (hmatch u0 (List.mem_cons_self _ _))]
    intro v hv x hx hid
    rcases mem_replaceFirstById hx with hx2 | rfl
    · exact hmatch v (List.mem_cons_of_mem _ hv) x hx2 hid
    · exfalso
      have h1 := (List.nodup_cons.mp hond).1
      have h2 : x.docId ∈ rest.map (fun z => z.docId) := by
        rw [hid]
        exact List.mem_map_of_mem _ hv
      exact h1 h2

theorem docId_map_of_strip_map {l1 l2 : List WorkOrder}
    (h : l1.map stripDates = l2.map stripDates) :
    l1.map (fun x => x.docId) = l2.map (fun x => x.docId) := by
  have hc : ∀ l : List WorkOrder, l.map (fun x => x.docId) =
      (l.map stripDates).map (fun t => t.1) := by
    intro l
    rw [List.map_map]
    rfl
  rw [hc, hc, h]

theorem mem_of_strip_map {l1 l2 : List WorkOrder}
    (h : l1.map stripDates = l2.map stripDates) {x : WorkOrder}
    (hx : x ∈ l1) : ∃ y ∈ l2, stripDates y = stripDates x := by
  have h1 : stripDates x ∈ l1.map stripDates := List.mem_map_of_mem _ hx
  rw [h] at h1
  obtain ⟨y, hy, heq⟩ := List.mem_map.mp h1
  exact ⟨y, hy, heq⟩

theorem prepare_seq_pair {CO : List WorkOrder} {parent child : WorkOrder}
    {rank : String → Nat}
    (hndCO : (CO.map (fun x => x.docId)).Nodup)
    (hrk : Ranked CO rank)
    (hpCO : parent ∈ CO) (hcCO : child ∈ CO)
    (hedge : parent.docId ∈ child.data.dependsOnWorkOrderIds) :
    (∃ w1 w2 w3, SequencePreserver.interleaveGo CO
      ((SequencePreserver.findDependencyGroups CO).map
        (fun g => SequencePreserver.topologicalSort g CO))
      (SequencePreserver.findOriginalSequenceOrder CO) [] [] =
      w1 ++ parent :: w2 ++ child :: w3) ∧
    ((SequencePreserver.interleaveGo CO
      ((SequencePreserver.findDependencyGroups CO).map
        (fun g => SequencePreserver.topologicalSort g CO))
      (SequencePreserver.findOriginalSequenceOrder CO) [] []).map
      (fun x => x.docId)).Nodup := by
  obtain ⟨hga, hgb, hgex, hgall⟩ :=
    findDependencyGroups_pair hndCO hpCO hcCO hedge
  -- facts about the sorted groups
  have hgs_ex : ∃ g' ∈ (SequencePreserver.findDependencyGroups CO).map
      (fun g => SequencePreserver.topologicalSort g CO),
      child.docId ∈ g'.orderIds ∧ parent.docId ∈ g'.orderIds := by
    obtain ⟨g, hg, hc, hp⟩ := hgex
    exact ⟨_, List.mem_map_of_mem _ hg, hc, hp⟩
  have hgs_sym : ∀ g' ∈ (SequencePreserver.findDependencyGroups CO).map
      (fun g => SequencePreserver.topologicalSort g CO),
      parent.docId ∈ g'.orderIds → child.docId ∈ g'.orderIds := by
    intro g' hg' hp
    obtain ⟨g, hg, rfl⟩ := List.mem_map.mp hg'
    exact (hgall g hg).2 hp
  have hgs_sub : ∀ g' ∈ (SequencePreserver.findDependencyGroups CO).map
      (fun g => SequencePreserver.topologicalSort g CO),
      ∀ id ∈ g'.topologicalOrdering, id ∈ g'.orderIds := by
    intro g' hg' id hid
    obtain ⟨g, hg, rfl⟩ := List.mem_map.mp hg'
    obtain ⟨tail, heq, htnd, hsub⟩ := @topoSortGo_tail_nodup CO
      g.orderIds.length g.orderIds [] (hga g hg).1
    rw [List.nil_append] at heq
    unfold SequencePreserver.topologicalSort at hid ⊢
    dsimp only at hid ⊢
    rw [heq] at hid
    exact hsub id hid
  have hgs_nodup : ∀ g' ∈ (SequencePreserver.findDependencyGroups CO).map
      (fun g => SequencePreserver.topologicalSort g CO),
      g'.topologicalOrdering.Nodup := by
    intro g' hg'
    obtain ⟨g, hg, rfl⟩ := List.mem_map.mp hg'
    obtain ⟨tail, heq, htnd, hsub⟩ := @topoSortGo_tail_nodup CO
      g.orderIds.length g.orderIds [] (hga g hg).1
    rw [List.nil_append] at heq
    unfold SequencePreserver.topologicalSort
    dsimp only
    rw [heq]
    exact htnd
  have hgs_comp : ∀ g' ∈ (SequencePreserver.findDependencyGroups CO).map
      (fun g => SequencePreserver.topologicalSort g CO),
      ∀ id ∈ g'.orderIds, id ∈ g'.topologicalOrdering := by
    intro g' hg' id hid
    obtain ⟨g, hg, rfl⟩ := List.mem_map.mp hg'
    obtain ⟨tail, heq, hcomp, hback⟩ := topoSortGo_complete hrk
      g.orderIds.length g.orderIds [] (Nat.le_refl _) (hga g hg).2
    rw [List.nil_append] at heq
    unfold SequencePreserver.topologicalSort at hid ⊢
    dsimp only at hid ⊢
    rw [heq]
    exact hcomp id hid
  have hgs_res : ∀ g' ∈ (SequencePreserver.findDependencyGroups CO).map
      (fun g => SequencePreserver.topologicalSort g CO),
      ∀ id ∈ g'.orderIds, ∃ o ∈ CO, o.docId = id := by
    intro g' hg' id hid
    obtain ⟨g, hg, rfl⟩ := List.mem_map.mp hg'
    exact (hga g hg).2 id hid
  have hgs_sep : ∀ g' ∈ (SequencePreserver.findDependencyGroups CO).map
      (fun g => SequencePreserver.topologicalSort g CO),
      child.docId ∈ g'.orderIds →
      ∃ t1 t2 t3, g'.topologicalOrdering =
        t1 ++ parent.docId :: t2 ++ child.docId :: t3 := by
    intro g' hg' hcid
    obtain ⟨g, hg, rfl⟩ := List.mem_map.mp hg'
    obtain ⟨t1, t2, t3, heq⟩ := topoSortGo_sep hndCO hrk hcCO rfl hedge
      g.orderIds.length g.orderIds [] (Nat.le_refl _) (hga g hg).2
      ((hgall g hg).1 hcid) hcid
    rw [List.nil_append] at heq
    refine ⟨t1, t2, t3, ?_⟩
    unfold SequencePreserver.topologicalSort
    dsimp only
    exact heq
  have hgs_disj : ((SequencePreserver.findDependencyGroups CO).map
      (fun g => SequencePreserver.topologicalSort g CO)).Pairwise
      (fun g1 g2 => ∀ id ∈ g1.orderIds, id ∉ g2.orderIds) := by
    refine List.Pairwise.map _ ?_ hgb
    intro a b hab
    exact hab
  have hfp : CO.find? (fun o => o.docId == parent.docId) = some parent :=
    find?_docId_of_mem hndCO hpCO
  have hfc : CO.find? (fun o => o.docId == child.docId) = some child :=
    find?_docId_of_mem hndCO hcCO
  constructor
  · exact interleaveGo_sep hndCO hfp hfc hgs_ex hgs_sym hgs_sep hgs_sub
      (SequencePreserver.findOriginalSequenceOrder CO) [] []
      (fun o ho => mem_findOriginalSequenceOrder ho)
      (mem_findOriginalSequenceOrder_of_mem hcCO)
      (List.not_mem_nil _) (List.not_mem_nil _)
  · exact interleaveGo_ids_nodup hgs_nodup hgs_sub hgs_comp hgs_res hgs_disj
      (SequencePreserver.findOriginalSequenceOrder CO) [] []
      List.nodup_nil (fun id h => absurd h (List.not_mem_nil id))
      (fun g hg hex => absurd hex.choose_spec.2
        (List.not_mem_nil hex.choose))

theorem rescheduleByCenter_pair {fuel : Nat} {orders0 : List WorkOrder}
    {center : WorkCenter} {allOrders : List WorkOrder}
    {origV : List Violation}
    {r : List WorkOrder × List Change × List Explanation}
    {parent child : WorkOrder} {rank : String → Nat}
    (hnd0 : (orders0.map (fun x => x.docId)).Nodup)
    (hobs : ∀ p ∈ ReflowService.obstaclesOf center allOrders, p.1 ≤ p.2)
    (hrk : Ranked (orders0.filter fun o =>
      o.data.workCenterId == center.docId && !o.data.isMaintenance) rank)
    (hpm : parent ∈ orders0) (hcm : child ∈ orders0)
    (hedge : parent.docId ∈ child.data.dependsOnWorkOrderIds)
    (hpwc : parent.data.workCenterId = center.docId)
    (hcwc : child.data.workCenterId = center.docId)
    (hpnm : parent.data.isMaintenance = false)
    (hcnm : child.data.isMaintenance = false)
    (hse : ∀ o ∈ orders0, o.data.startDate ≤ o.data.endDate)
    (hrun : ReflowService.rescheduleByCenter fuel orders0 center allOrders
      origV = some r) :
    (r.1.map (fun x => x.docId)).Nodup ∧
    ∃ pu cu, pu ∈ r.1 ∧ cu ∈ r.1 ∧ pu.docId = parent.docId ∧
      cu.docId = child.docId ∧ pu.data.endDate ≤ cu.data.startDate := by
  have hpCO : parent ∈ orders0.filter (fun o =>
      o.data.workCenterId == center.docId && !o.data.isMaintenance) :=
    List.mem_filter.mpr ⟨hpm, by simp [hpwc, hpnm]⟩
  have hcCO : child ∈ orders0.filter (fun o =>
      o.data.workCenterId == center.docId && !o.data.isMaintenance) :=
    List.mem_filter.mpr ⟨hcm, by simp [hcwc, hcnm]⟩
  have hndCO : ((orders0.filter (fun o =>
      o.data.workCenterId == center.docId && !o.data.isMaintenance)).map
      (fun x => x.docId)).Nodup :=
    List.Nodup.sublist ((List.filter_sublist orders0).map _) hnd0
  obtain ⟨⟨w1, w2, w3, hpat⟩, hseqnd⟩ :=
    prepare_seq_pair hndCO hrk hpCO hcCO hedge
  have hwc_mem : center.docId ∈ SequencePreserver.dedupFirst
      (orders0.map (fun o => o.data.workCenterId)) :=
    mem_dedupFirst (List.mem_map.mpr ⟨parent, hpm, hpwc⟩)
  have hlk : List.lookup center.docId (SequencePreserver.prepare orders0) =
      some (SequencePreserver.interleaveGo
        (orders0.filter (fun o =>
          o.data.workCenterId == center.docId && !o.data.isMaintenance))
        ((SequencePreserver.findDependencyGroups
          (orders0.filter (fun o =>
            o.data.workCenterId == center.docId &&
              !o.data.isMaintenance))).map
          (fun g => SequencePreserver.topologicalSort g
            (orders0.filter (fun o =>
              o.data.workCenterId == center.docId &&
                !o.data.isMaintenance))))
        (SequencePreserver.findOriginalSequenceOrder
          (orders0.filter (fun o =>
            o.data.workCenterId == center.docId && !o.data.isMaintenance)))
        [] []) := by
    unfold SequencePreserver.prepare
    exact lookup_map_pair _ _ _ hwc_mem
  have hselems := prepare_mem hlk
  unfold ReflowService.rescheduleByCenter at hrun
  simp only [] at hrun
  rw [hlk] at hrun
  simp only [Option.getD] at hrun
  cases hps : ReflowService.processOrders fuel center allOrders origV
      (SequencePreserver.interleaveGo
        (orders0.filter (fun o =>
          o.data.workCenterId == center.docId && !o.data.isMaintenance))
        ((SequencePreserver.findDependencyGroups
          (orders0.filter (fun o =>
            o.data.workCenterId == center.docId &&
              !o.data.isMaintenance))).map
          (fun g => SequencePreserver.topologicalSort g
            (orders0.filter (fun o =>
              o.data.workCenterId == center.docId &&
                !o.data.isMaintenance))))
        (SequencePreserver.findOriginalSequenceOrder
          (orders0.filter (fun o =>
            o.data.workCenterId == center.docId && !o.data.isMaintenance)))
        [] [])
      { scheduled := [], changes := [], explanation := [],
        hasCascade := false } with
  | none => rw [hps] at hrun; exact Option.noConfusion hrun
  | some st =>
    rw [hps] at hrun
    injection hrun with hrun
    subst hrun
    obtain ⟨out, hout, hfa⟩ := processOrders_strip _ _ _ hps
    rw [List.nil_append] at hout
    obtain ⟨hchain, _⟩ := processOrders_chain hobs _ _ _ hps
      (fun x hx => hse x (hselems x hx).1)
      (fun x hx => absurd hx (List.not_mem_nil x))
      List.Pairwise.nil
    rw [hout] at hchain
    have hids : out.map (fun x => x.docId) =
        (SequencePreserver.interleaveGo
          (orders0.filter (fun o =>
            o.data.workCenterId == center.docId && !o.data.isMaintenance))
          ((SequencePreserver.findDependencyGroups
            (orders0.filter (fun o =>
              o.data.workCenterId == center.docId &&
                !o.data.isMaintenance))).map
            (fun g => SequencePreserver.topologicalSort g
              (orders0.filter (fun o =>
                o.data.workCenterId == center.docId &&
                  !o.data.isMaintenance))))
          (SequencePreserver.findOriginalSequenceOrder
            (orders0.filter (fun o =>
              o.data.workCenterId == center.docId &&
                !o.data.isMaintenance)))
          [] []).map (fun x => x.docId) := forall₂_map_docId hfa
    constructor
    · dsimp only
      rw [hout, hids]
      exact hseqnd
    · rw [hpat] at hfa
      obtain ⟨oA, cu, o3, hoA, hRc, hf1, hf4⟩ := forall₂_split hfa
      obtain ⟨o1, pu, o2, ho1, hRp, hf2, hf3⟩ := forall₂_split hf1
      subst ho1
      have hpu_mem : pu ∈ out := by
        rw [hoA]
        exact List.mem_append_left _
          (List.mem_append_right _ (List.mem_cons_self _ _))
      have hcu_mem : cu ∈ out := by
        rw [hoA]
        exact List.mem_append_right _ (List.mem_cons_self _ _)
      have hsl : [pu, cu].Sublist out := by
        rw [hoA, List.append_assoc]
        refine List.Sublist.trans ?_ (List.sublist_append_right o1 _)
        rw [List.cons_append]
        refine List.Sublist.cons₂ _ ?_
        refine List.Sublist.trans ?_ (List.sublist_append_right o2 _)
        exact List.Sublist.cons₂ _ (List.nil_sublist _)
      have hrel : pu.data.endDate ≤ cu.data.startDate := by
        have hpw := hchain.sublist hsl
        exact (List.pairwise_cons.mp hpw).1 cu (List.mem_singleton.mpr rfl)
      refine ⟨pu, cu, ?_, ?_, (stripDates_fields hRp).1,
        (stripDates_fields hRc).1, hrel⟩
      · dsimp only; rw [hout]; exact hpu_mem
      · dsimp only; rw [hout]; exact hcu_mem

theorem obstaclesOf_le {center : WorkCenter} {cur : List WorkOrder}
    (hw : ∀ w ∈ center.data.maintenanceWindows, w.startDate ≤ w.endDate)
    (hse : ∀ x ∈ cur, x.data.startDate ≤ x.data.endDate) :
    ∀ p ∈ ReflowService.obstaclesOf center cur, p.1 ≤ p.2 := by
  intro p hp
  unfold ReflowService.obstaclesOf at hp
  rcases List.mem_append.mp hp with h | h
  · obtain ⟨w, hwm, rfl⟩ := List.mem_map.mp h
    exact hw w hwm
  · obtain ⟨o, hom, rfl⟩ := List.mem_map.mp h
    exact hse o (List.mem_of_mem_filter hom)

theorem mem_foldl_replace {out : List WorkOrder} :
    ∀ {cur : List WorkOrder} {x : WorkOrder},
      x ∈ out.foldl ReflowService.replaceFirstById cur →
      x ∈ cur ∨ x ∈ out := by
  induction out with
  | nil => intro cur x h; exact Or.inl h
  | cons u0 rest ih =>
    intro cur x h
    rw [List.foldl_cons] at h
    rcases ih h with h2 | h2
    · rcases mem_replaceFirstById h2 with h3 | rfl
      · exact Or.inl h3
      · exact Or.inr (List.mem_cons_self _ _)
    · exact Or.inr (List.mem_cons_of_mem _ h2)

theorem foldl_replace_strip2 {out : List WorkOrder} :
    ∀ (cur cur0 : List WorkOrder),
      cur.map stripDates = cur0.map stripDates →
      (cur0.map (fun x => x.docId)).Nodup →
      (∀ v ∈ out, ∃ o ∈ cur0, stripDates v = stripDates o) →
      (out.foldl ReflowService.replaceFirstById cur).map stripDates =
        cur0.map stripDates := by
  induction out with
  | nil => intro cur cur0 h _ _; exact h
  | cons u0 rest ih =>
    intro cur cur0 h hnd0 hv
    rw [List.foldl_cons]
    refine ih _ _ ?_ hnd0 (fun v hvr => hv v (List.mem_cons_of_mem _ hvr))
    rw [replaceFirstById_strip ?_]
    · exact h
    · intro x hx hid
      obtain ⟨o, ho, hso⟩ := hv u0 (List.mem_cons_self _ _)
      obtain ⟨y, hy, hsy⟩ := mem_of_strip_map h hx
      have hyo : y = o := by
        refine List.inj_on_of_nodup_map hnd0 hy ho ?_
        have h1 : y.docId = x.docId := (stripDates_fields hsy).1
        have h2 : u0.docId = o.docId := (stripDates_fields hso).1
        rw [h1, hid, h2]
      rw [← hsy, hyo, ← hso]

theorem findLast?_nomatch {α : Type} {p : α → Bool} :
    ∀ {l : List α} (acc : Option α), (∀ x ∈ l, p x = false) →
      l.foldl (fun acc x => if p x then some x else acc) acc = acc := by
  intro l
  induction l with
  | nil => intro acc _; rfl
  | cons a l ih =>
    intro acc hno
    rw [List.foldl_cons]
    rw [if_neg (by rw [hno a (List.mem_cons_self _ _)]; exact fun h =>
      Bool.noConfusion h)]
    exact ih acc (fun x hx => hno x (List.mem_cons_of_mem _ hx))

theorem findLast?_unique {α : Type} [DecidableEq α] {p : α → Bool}
    {target : α} :
    ∀ {l : List α}, l.Nodup → (∀ x ∈ l, p x = true → x = target) →
      target ∈ l → p target = true →
      findLast? p l = some target := by
  have hgen : ∀ (l : List α) (acc : Option α), l.Nodup →
      (∀ x ∈ l, p x = true → x = target) → target ∈ l → p target = true →
      l.foldl (fun acc x => if p x then some x else acc) acc = some target := by
    intro l
    induction l with
    | nil => intro acc _ _ ht _; exact absurd ht (List.not_mem_nil target)
    | cons a l ih =>
      intro acc hnd huni ht hp
      rw [List.foldl_cons]
      by_cases hat : a = target
      · subst hat
        rw [if_pos hp]
        have hnotin : a ∉ l := (List.nodup_cons.mp hnd).1
        refine findLast?_nomatch _ ?_
        intro x hx
        by_contra hpx
        rw [Bool.not_eq_false] at hpx
        exact hnotin (huni x (List.mem_cons_of_mem _ hx) hpx ▸ hx)
      · have hpa : p a = false := by
          by_contra hpa
          rw [Bool.not_eq_false] at hpa
          exact hat (huni a (List.mem_cons_self _ _) hpa)
        rw [if_neg (by rw [hpa]; exact fun h => Bool.noConfusion h)]
        refine ih acc (List.nodup_cons.mp hnd).2
          (fun x hx hpx => huni x (List.mem_cons_of_mem _ hx) hpx) ?_ hp
        rcases List.mem_cons.mp ht with rfl | h2
        · exact absurd rfl hat
        · exact h2
  intro l hnd huni ht hp
  exact hgen l none hnd huni ht hp

theorem rescheduleByCenter_se {fuel : Nat} {centerOrders : List WorkOrder}
    {center : WorkCenter} {allOrders : List WorkOrder}
    {origV : List Violation}
    {r : List WorkOrder × List Change × List Explanation}
    (hobs : ∀ p ∈ ReflowService.obstaclesOf center allOrders, p.1 ≤ p.2)
    (hsece : ∀ o ∈ centerOrders, o.data.startDate ≤ o.data.endDate)
    (hrun : ReflowService.rescheduleByCenter fuel centerOrders center
      allOrders origV = some r) :
    ∀ u ∈ r.1, u.data.startDate ≤ u.data.endDate := by
  unfold ReflowService.rescheduleByCenter at hrun
  simp only [] at hrun
  cases hl : List.lookup center.docId
      (SequencePreserver.prepare centerOrders) with
  | none =>
    rw [hl] at hrun
    simp only [Option.getD] at hrun
    injection hrun with hrun
    subst hrun
    intro u hu
    exact absurd hu (List.not_mem_nil u)
  | some seq =>
    rw [hl] at hrun
    simp only [Option.getD] at hrun
    cases hp : ReflowService.processOrders fuel center allOrders origV seq
        { scheduled := [], changes := [], explanation := [],
          hasCascade := false } with
    | none => rw [hp] at hrun; exact Option.noConfusion hrun
    | some st =>
      rw [hp] at hrun
      injection hrun with hrun
      subst hrun
      have hseq := prepare_mem hl
      obtain ⟨_, hse'⟩ := processOrders_chain hobs _ _ _ hp
        (fun x hx => hsece x (hseq x hx).1)
        (fun x hx => absurd hx (List.not_mem_nil x))
        List.Pairwise.nil
      intro u hu
      exact hse' u hu

theorem Ranked_of_strip {orders cur : List WorkOrder} {rank : String → Nat}
    (h : cur.map stripDates = orders.map stripDates)
    (hrank : Ranked orders rank) (l : List WorkOrder)
    (hsub : ∀ x ∈ l, x ∈ cur) : Ranked l rank := by
  intro o ho pd hpd p hp hpid
  obtain ⟨o0, ho0, hso⟩ := mem_of_strip_map h (hsub o ho)
  obtain ⟨p0, hp0, hsp⟩ := mem_of_strip_map h (hsub p hp)
  have hdep0 : pd ∈ o0.data.dependsOnWorkOrderIds := by
    rw [(stripDates_fields hso).2.2.2.2.2]
    exact hpd
  have hpid0 : p0.docId = pd := by
    rw [(stripDates_fields hsp).1, hpid]
  have := hrank o0 ho0 pd hdep0 p0 hp0 hpid0
  rwa [(stripDates_fields hso).1] at this

theorem checkDependencies_complete {orders : List WorkOrder}
    {parent child : WorkOrder}
    (hnd : (orders.map (fun o => o.docId)).Nodup)
    (hpm : parent ∈ orders) (hcm : child ∈ orders)
    (hedge : parent.docId ∈ child.data.dependsOnWorkOrderIds)
    (hlt : child.data.startDate < parent.data.endDate) :
    ({ orderId := child.docId, type := .DEPENDENCY_ERROR,
       message := .depBeforeParent parent.docId, isFatal := false } :
      Violation) ∈ ConstraintChecker.checkDependencies orders := by
  unfold ConstraintChecker.checkDependencies
  rw [List.mem_flatMap]
  refine ⟨child, hcm, ?_⟩
  rw [List.mem_filterMap]
  refine ⟨parent.docId, hedge, ?_⟩
  have hfl : findLast? (fun o => o.docId == parent.docId) orders =
      some parent := by
    refine findLast?_unique (List.Nodup.of_map _ hnd) ?_ hpm (by simp)
    intro x hx hpx
    rw [beq_iff_eq] at hpx
    exact List.inj_on_of_nodup_map hnd hx hpm hpx
  rw [hfl]
  dsimp only
  rw [if_pos hlt]

theorem rescheduleGo_pair_inv {fuel : Nat} {origV : List Violation}
    {orders : List WorkOrder} {parent child : WorkOrder}
    {rank : String → Nat}
    (hnd : (orders.map (fun o => o.docId)).Nodup)
    (hrank : Ranked orders rank)
    (hpm : parent ∈ orders) (hcm : child ∈ orders)
    (hedge : parent.docId ∈ child.data.dependsOnWorkOrderIds)
    (hsamewc : parent.data.workCenterId = child.data.workCenterId)
    (hpnm : parent.data.isMaintenance = false)
    (hcnm : child.data.isMaintenance = false) :
    ∀ (centers : List WorkCenter)
      (st res : List WorkOrder × List Change × List Explanation),
      ReflowService.rescheduleGo fuel origV centers st = some res →
      (∀ c ∈ centers, ∀ w ∈ c.data.maintenanceWindows,
        w.startDate ≤ w.endDate) →
      st.1.map stripDates = orders.map stripDates →
      (∀ x ∈ st.1, x.data.startDate ≤ x.data.endDate) →
      ((∀ pc ∈ st.1, pc.docId = parent.docId → ∀ cc ∈ st.1,
          cc.docId = child.docId → pc.data.endDate ≤ cc.data.startDate) ∨
        ∃ c ∈ centers, c.docId = child.data.workCenterId) →
      ∀ pc ∈ res.1, pc.docId = parent.docId → ∀ cc ∈ res.1,
        cc.docId = child.docId → pc.data.endDate ≤ cc.data.startDate := by
  intro centers
  induction centers with
  | nil =>
    intro st res h hwin hQ1 hQ2 hP
    injection h with h
    subst h
    rcases hP with hP | ⟨c, hc, _⟩
    · exact hP
    · exact absurd hc (List.not_mem_nil c)
  | cons c0 rest ih =>
    rintro ⟨cur, chs, exps⟩ res h hwin hQ1 hQ2 hP
    simp only [ReflowService.rescheduleGo] at h
    cases hrc : ReflowService.rescheduleByCenter fuel
        (cur.filter fun o => o.data.workCenterId == c0.docId) c0 cur
        origV with
    | none => rw [hrc] at h; exact Option.noConfusion h
    | some upd =>
      obtain ⟨updOrders, ch, ex⟩ := upd
      rw [hrc] at h
      dsimp only at hQ1 hQ2
      have hndcur : (cur.map (fun o => o.docId)).Nodup := by
        rw [docId_map_of_strip_map hQ1]
        exact hnd
      have hobs := obstaclesOf_le (hwin c0 (List.mem_cons_self _ _)) hQ2
      have hprov := rescheduleByCenter_provenance hrc
      have hwin' : ∀ c ∈ rest, ∀ w ∈ c.data.maintenanceWindows,
          w.startDate ≤ w.endDate :=
        fun c hc => hwin c (List.mem_cons_of_mem _ hc)
      have hprov2 : ∀ v ∈ updOrders, ∃ o ∈ orders,
          stripDates v = stripDates o := by
        intro v hv
        obtain ⟨o, ho, _, hs⟩ := hprov v hv
        obtain ⟨y, hy, hsy⟩ := mem_of_strip_map hQ1
          (List.mem_of_mem_filter ho)
        exact ⟨y, hy, hs.trans hsy.symm⟩
      have hQ1' : (updOrders.foldl ReflowService.replaceFirstById cur).map
          stripDates = orders.map stripDates :=
        foldl_replace_strip2 cur orders hQ1 hnd hprov2
      have hse' : ∀ x ∈ updOrders.foldl ReflowService.replaceFirstById cur,
          x.data.startDate ≤ x.data.endDate := by
        intro x hx
        rcases mem_foldl_replace hx with h2 | h2
        · exact hQ2 x h2
        · exact rescheduleByCenter_se hobs
            (fun o ho => hQ2 o (List.mem_of_mem_filter ho)) hrc x h2
      obtain ⟨pc0, hpc0, hspc⟩ := mem_of_strip_map hQ1.symm hpm
      obtain ⟨cc0, hcc0, hscc⟩ := mem_of_strip_map hQ1.symm hcm
      have hpc0id : pc0.docId = parent.docId := (stripDates_fields hspc).1
      have hcc0id : cc0.docId = child.docId := (stripDates_fields hscc).1
      have hpc0wc : pc0.data.workCenterId = parent.data.workCenterId :=
        (stripDates_fields hspc).2.2.1
      have hcc0wc : cc0.data.workCenterId = child.data.workCenterId :=
        (stripDates_fields hscc).2.2.1
      by_cases hcz : c0.docId = child.data.workCenterId
      · -- this pass repairs the pair
        have hpcf : pc0 ∈ cur.filter
            (fun o => o.data.workCenterId == c0.docId) := by
          refine List.mem_filter.mpr ⟨hpc0, ?_⟩
          rw [beq_iff_eq, hpc0wc, hsamewc, hcz]
        have hccf : cc0 ∈ cur.filter
            (fun o => o.data.workCenterId == c0.docId) := by
          refine List.mem_filter.mpr ⟨hcc0, ?_⟩
          rw [beq_iff_eq, hcc0wc, hcz]
        have hndf : ((cur.filter
            (fun o => o.data.workCenterId == c0.docId)).map
            (fun o => o.docId)).Nodup :=
          List.Nodup.sublist ((List.filter_sublist cur).map _) hndcur
        have hrkf : Ranked ((cur.filter
            (fun o => o.data.workCenterId == c0.docId)).filter
            (fun o => o.data.workCenterId == c0.docId &&
              !o.data.isMaintenance)) rank :=
          Ranked_of_strip hQ1 hrank _
            (fun x hx => List.mem_of_mem_filter (List.mem_of_mem_filter hx))
        have hedgef : pc0.docId ∈ cc0.data.dependsOnWorkOrderIds := by
          rw [hpc0id, (stripDates_fields hscc).2.2.2.2.2]
          exact hedge
        obtain ⟨houtnd, pu, cu, hpum, hcum, hpud, hcud, hrel⟩ :=
          rescheduleByCenter_pair hndf hobs hrkf hpcf hccf hedgef
            (by rw [hpc0wc, hsamewc, hcz]) (by rw [hcc0wc, hcz])
            (by rw [(stripDates_fields hspc).2.2.2.2.1]; exact hpnm)
            (by rw [(stripDates_fields hscc).2.2.2.2.1]; exact hcnm)
            (fun o ho => hQ2 o (List.mem_of_mem_filter ho)) hrc
        dsimp only at houtnd hpum hcum
        refine ih _ res h hwin' hQ1' hse' (Or.inl ?_)
        intro x hx hxid y hy hyid
        have hx2 : x = pu := foldl_replace_final cur hndcur houtnd pu hpum
          x hx (by rw [hxid, ← hpc0id, ← hpud])
        have hy2 : y = cu := foldl_replace_final cur hndcur houtnd cu hcum
          y hy (by rw [hyid, ← hcc0id, ← hcud])
        rw [hx2, hy2]
        exact hrel
      · -- a pass for another center leaves the pair untouched
        have hnotouch : ∀ u ∈ updOrders,
            u.docId ≠ parent.docId ∧ u.docId ≠ child.docId := by
          intro u hu
          obtain ⟨o, ho, _, hs⟩ := hprov u hu
          have howc : o.data.workCenterId = c0.docId := by
            have h2 := (List.mem_filter.mp ho).2
            rwa [beq_iff_eq] at h2
          have huid : u.docId = o.docId := (stripDates_fields hs).1
          constructor
          · intro he
            have : o = pc0 := List.inj_on_of_nodup_map hndcur
              (List.mem_of_mem_filter ho) hpc0 (by rw [← huid, he, hpc0id])
            rw [this, hpc0wc, hsamewc] at howc
            exact hcz howc.symm
          · intro he
            have : o = cc0 := List.inj_on_of_nodup_map hndcur
              (List.mem_of_mem_filter ho) hcc0 (by rw [← huid, he, hcc0id])
            rw [this, hcc0wc] at howc
            exact hcz howc.symm
        refine ih _ res h hwin' hQ1' hse' ?_
        rcases hP with hPcur | ⟨c, hcmem, hcd⟩
        · left
          intro x hx hxid y hy hyid
          rcases mem_foldl_replace hx with h2 | h2
          · rcases mem_foldl_replace hy with h3 | h3
            · exact hPcur x h2 hxid y h3 hyid
            · exact absurd hyid ((hnotouch y h3).2)
          · exact absurd hxid ((hnotouch x h2).1)
        · right
          rcases List.mem_cons.mp hcmem with rfl | h3
          · exact absurd hcd hcz
          · exact ⟨c, h3, hcd⟩

/-! Claim theorems. -/

/-- C1: closure fails.  The input has exactly one violation, non-fatal (an
OVERLAP between a valid production order and the maintenance order that
follows it, charged to the maintenance order); `reflow` succeeds yet returns
the orders unchanged with an empty change log, and verifying the returned
schedule still reports the violation instead of the empty list the claim
promises. -/
theorem c1_closure_fails_on_flagged_maintenance_overlap :
    (∀ v ∈ ConstraintChecker.verify [overlapProd, overlapMaint] [plainCenter] none,
        v.isFatal = false) ∧
    ConstraintChecker.verify [overlapProd, overlapMaint] [plainCenter] none ≠ [] ∧
    ReflowService.reflow 10000 [overlapProd, overlapMaint] [plainCenter] =
      .ok { updatedWorkOrders := [overlapProd, overlapMaint], changes := [],
            explanation := [] } ∧
    ConstraintChecker.verify [overlapProd, overlapMaint] [plainCenter] none =
      [{ orderId := "M", type := .OVERLAP,
         message := .centerBusy "wc-1" "P" 720, isFatal := false }] :=
  ⟨by decide, by decide, by rfl, by decide⟩

/-- C2: on input that verifies clean, `reflow` returns the orders unchanged
with empty change and explanation logs, for every fuel budget. -/
theorem c2_reflow_idempotent_on_valid_input (orders : List WorkOrder)
    (centers : List WorkCenter)
    (h : ConstraintChecker.verify orders centers none = []) (fuel : Nat) :
    ReflowService.reflow fuel orders centers =
      .ok { updatedWorkOrders := orders, changes := [], explanation := [] } := by
  unfold ReflowService.reflow
  simp [h]

/-- C2 witness: a single already-valid order passes through unchanged. -/
theorem c2_reflow_idempotent_witness :
    ReflowService.reflow 10000 [validOrder] [plainCenter] =
      .ok { updatedWorkOrders := [validOrder], changes := [],
            explanation := [] } :=
  c2_reflow_idempotent_on_valid_input [validOrder] [plainCenter] (by decide) 10000

/-- C3: whenever the initial verification reports any fatal violation,
`reflow` fails with the single NOT FIXABLE error — before any rescheduling,
for every fuel budget, leaving the (immutable) input untouched. -/
theorem c3_fatal_refusal (orders : List WorkOrder) (centers : List WorkCenter)
    (fuel : Nat) (v : Violation)
    (hv : v ∈ ConstraintChecker.verify orders centers none)
    (hfatal : v.isFatal = true) :
    ReflowService.reflow fuel orders centers = Except.error "NOT FIXABLE" := by
  unfold ReflowService.reflow
  have hne : ConstraintChecker.verify orders centers none ≠ [] := by
    intro h
    rw [h] at hv
    exact absurd hv (List.not_mem_nil v)
  have hisEmpty : (ConstraintChecker.verify orders centers none).isEmpty = false := by
    simpa [List.isEmpty_iff] using hne
  have hany : (ConstraintChecker.verify orders centers none).any (·.isFatal) = true :=
    List.any_eq_true.mpr ⟨v, hv, hfatal⟩
  simp [hisEmpty, hany]

/-- C3 witness: the two-order dependency cycle is refused. -/
theorem c3_fatal_refusal_witness :
    ReflowService.reflow 100 [circularA, circularB] [plainCenter] =
      Except.error "NOT FIXABLE" :=
  c3_fatal_refusal [circularA, circularB] [plainCenter] 100
    { orderId := "A", type := .DEPENDENCY_ERROR,
      message := .circularPath ["A", "B", "A"], isFatal := true }
    (by decide) (by decide)

/-- C8 counterexample: on a work center with no shifts both cursor loops of
the source spin forever jumping to the next midnight — the fueled embeddings
return `none` for every fuel, refuting the claimed unconditional
termination. -/
theorem c8_cursors_diverge_on_shiftless_center :
    (∀ fuel, ReflowService.findNextAvailableStart fuel 480 shiftlessCenter [] =
      none) ∧
    (∀ fuel, ReflowService.findEndDate fuel 480 60 shiftlessCenter [] = none) := by
  have hgo : ∀ (maint : List WorkOrder) (f t : Nat),
      ReflowService.findNextAvailableStartGo shiftlessCenter maint f t = none := by
    intro maint f
    induction f with
    | zero => intro t; rfl
    | succ n ih =>
      intro t
      -- the empty shift table never matches, so each round jumps to midnight
      exact ih (nextMidnight t)
  have hgo2 : ∀ (f t : Nat),
      ReflowService.findEndDateGo shiftlessCenter [] f 60 t = none := by
    intro f
    induction f with
    | zero => intro t; rfl
    | succ n ih =>
      intro t
      exact ih (ReflowService.nextDayStart shiftlessCenter t)
  exact ⟨fun fuel => hgo _ fuel 480, fun fuel => hgo2 fuel 480⟩

/-- C5: log parity.  First conjunct: the repair loop preserves
|changes| = |explanation| across any run of iterations from any state — each
shift appends exactly one entry to both logs, a fitting order appends to
neither.  Second conjunct: every successful reflow returns changes and
explanation lists of equal length. -/
theorem c5_log_parity_invariant :
    (∀ (fuel : Nat) (center : WorkCenter) (allOrders : List WorkOrder)
        (origV : List Violation) (seq : List WorkOrder)
        (st st' : ReflowService.CenterState),
      ReflowService.processOrders fuel center allOrders origV seq st = some st' →
      st.changes.length = st.explanation.length →
      st'.changes.length = st'.explanation.length) ∧
    (∀ (fuel : Nat) (orders : List WorkOrder) (centers : List WorkCenter)
        (r : ReflowedSchedule),
      ReflowService.reflow fuel orders centers = Except.ok r →
      r.changes.length = r.explanation.length) := by
  refine ⟨fun fuel center allOrders origV seq st st' h hl =>
    processOrders_parity seq st st' h hl, ?_⟩
  intro fuel orders centers r h
  unfold ReflowService.reflow at h
  simp only [] at h
  split at h
  · injection h with h
    subst h
    rfl
  · split at h
    · exact Except.noConfusion h
    · cases hr : ReflowService.reschedule fuel orders centers
          (ConstraintChecker.verify orders centers none) with
      | none => rw [hr] at h; exact Except.noConfusion h
      | some r2 =>
        rw [hr] at h
        injection h with h
        subst h
        exact reschedule_log_parity hr

/-- C5 witness: parity of the final logs on the sandwich run. -/
theorem c5_log_parity_invariant_witness :
    ReflowService.reflow 10000 [sandwichMaint, sandwichProd] [sandwichCenter] =
      Except.ok { updatedWorkOrders := [sandwichMaint, sandwichProdMoved],
                  changes := [{ workOrderNumber := "THE-JUMPER",
                                newStartDate := 600 }],
                  explanation := [.originalViolation .MAINTENANCE_COLLISION] } ∧
    ({ updatedWorkOrders := [sandwichMaint, sandwichProdMoved],
       changes := [{ workOrderNumber := "THE-JUMPER", newStartDate := 600 }],
       explanation := [.originalViolation .MAINTENANCE_COLLISION] } :
      ReflowedSchedule).changes.length =
    ({ updatedWorkOrders := [sandwichMaint, sandwichProdMoved],
       changes := [{ workOrderNumber := "THE-JUMPER", newStartDate := 600 }],
       explanation := [.originalViolation .MAINTENANCE_COLLISION] } :
      ReflowedSchedule).explanation.length :=
  ⟨rfl, c5_log_parity_invariant.2 10000 [sandwichMaint, sandwichProd]
    [sandwichCenter]
    { updatedWorkOrders := [sandwichMaint, sandwichProdMoved],
      changes := [{ workOrderNumber := "THE-JUMPER", newStartDate := 600 }],
      explanation := [.originalViolation .MAINTENANCE_COLLISION] } rfl⟩

/-- C4: maintenance orders are immutable — for every input with unique
docIds, whenever `reflow` succeeds, every output order carrying a maintenance
order's docId has the same start and end dates as that input order (the
prepare step filters maintenance orders out of the processing sequence, so
the write-back never touches them). -/
theorem c4_maintenance_orders_immutable (fuel : Nat) (orders : List WorkOrder)
    (centers : List WorkCenter) (r : ReflowedSchedule)
    (hnd : (orders.map (·.docId)).Nodup)
    (hok : ReflowService.reflow fuel orders centers = Except.ok r)
    (wo : WorkOrder) (hwo : wo ∈ orders) (hm : wo.data.isMaintenance = true) :
    ∀ wo' ∈ r.updatedWorkOrders, wo'.docId = wo.docId →
      wo'.data.startDate = wo.data.startDate ∧
      wo'.data.endDate = wo.data.endDate := by
  have hinj : ∀ x ∈ orders, x.docId = wo.docId → x = wo := by
    intro x hx hxy
    exact List.inj_on_of_nodup_map hnd hx hwo hxy
  unfold ReflowService.reflow at hok
  simp only [] at hok
  split at hok
  · injection hok with hok
    subst hok
    intro wo' hwo' hid
    rw [hinj wo' hwo' hid]
    exact ⟨rfl, rfl⟩
  · split at hok
    · exact Except.noConfusion hok
    · cases hr : ReflowService.reschedule fuel orders centers
          (ConstraintChecker.verify orders centers none) with
      | none => rw [hr] at hok; exact Except.noConfusion hok
      | some r2 =>
        rw [hr] at hok
        injection hok with hok
        subst hok
        unfold ReflowService.reschedule at hr
        cases hg : ReflowService.rescheduleGo fuel
            (ConstraintChecker.verify orders centers none) centers
            (orders, [], []) with
        | none => rw [hg] at hr; exact Option.noConfusion hr
        | some res =>
          rw [hg] at hr
          injection hr with hr
          subst hr
          intro wo' hwo' hid
          have := rescheduleGo_maint_inv hm centers (orders, [], []) res hg
            hinj wo' hwo' hid
          rw [this]
          exact ⟨rfl, rfl⟩

/-- C4 witness: the sandwich run — the maintenance order M keeps its
09:00–10:00 slot in the reflowed schedule. -/
theorem c4_maintenance_orders_immutable_witness :
    (([sandwichMaint, sandwichProd].map (fun o => o.docId)).Nodup) ∧
    sandwichMaint ∈ [sandwichMaint, sandwichProd] ∧
    sandwichMaint.data.isMaintenance = true ∧
    (∀ wo' ∈ ({ updatedWorkOrders := [sandwichMaint, sandwichProdMoved],
                changes := [{ workOrderNumber := "THE-JUMPER",
                              newStartDate := 600 }],
                explanation := [.originalViolation .MAINTENANCE_COLLISION] } :
        ReflowedSchedule).updatedWorkOrders,
      wo'.docId = sandwichMaint.docId →
        wo'.data.startDate = sandwichMaint.data.startDate ∧
        wo'.data.endDate = sandwichMaint.data.endDate) :=
  ⟨by decide, by decide, rfl,
   c4_maintenance_orders_immutable 10000 [sandwichMaint, sandwichProd]
     [sandwichCenter]
     { updatedWorkOrders := [sandwichMaint, sandwichProdMoved],
       changes := [{ workOrderNumber := "THE-JUMPER", newStartDate := 600 }],
       explanation := [.originalViolation .MAINTENANCE_COLLISION] }
     (by decide) rfl sandwichMaint (by decide) rfl⟩

/-- C6 counterexample: on the cross-center input the engine leaves the child
starting at 08:00 although its parent (on the other center) ends at 12:00 —
the output still violates `child.start ≥ parent.end`, refuting the claim's
"including when parent and child live on different work centers". -/
theorem c6_cross_center_dependency_unrepaired :
    ReflowService.reflow 10000 [crossChild, crossParent]
        [plainCenter, plainCenterTwo] =
      .ok { updatedWorkOrders := [crossChild, crossParent],
            changes := [{ workOrderNumber := "WO-A", newStartDate := 480 }],
            explanation := [.originalViolation .DEPENDENCY_ERROR] } ∧
    crossParent.docId ∈ crossChild.data.dependsOnWorkOrderIds ∧
    crossChild.data.startDate < crossParent.data.endDate :=
  ⟨by rfl, by decide, by decide⟩

/-- C7 counterexample: a production order ending 08:30 on the 08–17 Monday
shift.  `isTimeInShift(end, asEnd)` holds (08:00 < 08:30 ≤ 17:00), yet the
checker — comparing whole hours only — emits the "Invalid End" violation,
refuting the claimed equivalence. -/
theorem c7_invalid_end_is_hour_granular :
    DateUtils.isTimeInShift 510 plainCenter.data.shifts true = true ∧
    ({ orderId := "E", type := .OUTSIDE_SHIFT,
       message := .invalidEndAt 510, isFatal := false } : Violation) ∈
      ConstraintChecker.verify [halfHourEndOrder] [plainCenter] none := by
  decide

/-- C7: corrected shift-pass equivalence — for every non-maintenance order on
a resolvable work center in an order list with unique docIds, verify emits
"Invalid Start" exactly when `isTimeInShift(start, shifts, asStart)` is
false; the "Invalid End" emission, which compares whole hours only, agrees
with `¬ isTimeInShift(end, shifts, asEnd)` whenever the end lies on a whole
hour (and can disagree otherwise). -/
theorem c7_shift_pass_equivalence_corrected
    (orders : List WorkOrder) (centers : List WorkCenter)
    (order : WorkOrder) (center : WorkCenter)
    (hnd : (orders.map (fun o => o.docId)).Nodup)
    (hmem : order ∈ orders)
    (hm : order.data.isMaintenance = false)
    (hc : centers.find? (fun c => c.docId == order.data.workCenterId) =
      some center) :
    (({ orderId := order.docId, type := .OUTSIDE_SHIFT,
        message := .invalidStartAt order.data.startDate, isFatal := false } :
        Violation) ∈ ConstraintChecker.verify orders centers none ↔
      DateUtils.isTimeInShift order.data.startDate center.data.shifts false =
        false) ∧
    (order.data.endDate % 60 = 0 →
      (({ orderId := order.docId, type := .OUTSIDE_SHIFT,
          message := .invalidEndAt order.data.endDate, isFatal := false } :
          Violation) ∈ ConstraintChecker.verify orders centers none ↔
        DateUtils.isTimeInShift order.data.endDate center.data.shifts true =
          false)) := by
  constructor
  · rw [@mem_verify_shift_boundary orders centers
      { orderId := order.docId, type := .OUTSIDE_SHIFT,
        message := .invalidStartAt order.data.startDate, isFatal := false }
      rfl]
    unfold ConstraintChecker.checkShifts
    constructor
    · intro h
      rw [List.mem_flatMap] at h
      obtain ⟨o, ho, hv⟩ := h
      have hdoc : o.docId = order.docId := (checkShiftsOrder_orderId _ hv).symm
      have ho2 : o = order := List.inj_on_of_nodup_map hnd ho hmem hdoc
      subst ho2
      exact (mem_checkShiftsOrder_start hm hc).mp hv
    · intro h
      rw [List.mem_flatMap]
      exact ⟨order, hmem, (mem_checkShiftsOrder_start hm hc).mpr h⟩
  · intro h60
    rw [@mem_verify_shift_boundary orders centers
      { orderId := order.docId, type := .OUTSIDE_SHIFT,
        message := .invalidEndAt order.data.endDate, isFatal := false }
      rfl, ← end_pred_eq_isTimeInShift _ h60]
    unfold ConstraintChecker.checkShifts
    constructor
    · intro h
      rw [List.mem_flatMap] at h
      obtain ⟨o, ho, hv⟩ := h
      have hdoc : o.docId = order.docId := (checkShiftsOrder_orderId _ hv).symm
      have ho2 : o = order := List.inj_on_of_nodup_map hnd ho hmem hdoc
      subst ho2
      exact (mem_checkShiftsOrder_end hm hc).mp hv
    · intro h
      rw [List.mem_flatMap]
      exact ⟨order, hmem, (mem_checkShiftsOrder_end hm hc).mpr h⟩

/-- C7 witness: the valid order 08:00–09:00 on the default Monday shift —
neither boundary violation is emitted and both memberships line up with
`isTimeInShift`. -/
theorem c7_shift_pass_equivalence_corrected_witness :
    (({ orderId := "V", type := .OUTSIDE_SHIFT,
        message := .invalidStartAt 480, isFatal := false } :
        Violation) ∈ ConstraintChecker.verify [validOrder] [plainCenter]
          none ↔
      DateUtils.isTimeInShift 480 plainCenter.data.shifts false = false) ∧
    (({ orderId := "V", type := .OUTSIDE_SHIFT,
        message := .invalidEndAt 540, isFatal := false } :
        Violation) ∈ ConstraintChecker.verify [validOrder] [plainCenter]
          none ↔
      DateUtils.isTimeInShift 540 plainCenter.data.shifts true = false) :=
  ⟨(c7_shift_pass_equivalence_corrected [validOrder] [plainCenter] validOrder
      plainCenter (by decide) (by decide) rfl rfl).1,
   (c7_shift_pass_equivalence_corrected [validOrder] [plainCenter] validOrder
      plainCenter (by decide) (by decide) rfl rfl).2 (by decide)⟩

/-- C8: corrected monotone terminating cursors — on a work center whose shift
table resolves some real weekday (< 7) to a shift with startHour < endHour,
with shift start hours inside the day and nondegenerate obstacles
(maintenance windows and maintenance orders with start < end), both
`findNextAvailableStart` and `findEndDate` terminate for some fuel budget and
return times no earlier than their inputs.  Without such a shift both loops
diverge for every fuel (see the counterexample). -/
theorem c8_monotone_terminating_cursors_corrected
    (center : WorkCenter) (allOrders : List WorkOrder) (t : Nat)
    (duration : Int) (good : Nat) (hs : Shift)
    (hg7 : good < 7)
    (hgood : center.data.shifts.find? (fun s => s.dayOfWeek == good) = some hs)
    (hlt : hs.startHour < hs.endHour)
    (hsane : ∀ s ∈ center.data.shifts, s.startHour < 24)
    (hobs : ∀ b ∈ ReflowService.obstaclesOf center allOrders, b.1 < b.2) :
    (∃ fuel r, ReflowService.findNextAvailableStart fuel t center allOrders =
        some r ∧ t ≤ r) ∧
    (∃ fuel e, ReflowService.findEndDate fuel t duration center allOrders =
        some e ∧ t ≤ e) := by
  constructor
  · obtain ⟨r, hr⟩ := findNextAvailableStartGo_terminates hg7 hgood hlt
      (fnasMeasure
        (allOrders.filter fun o =>
          o.data.isMaintenance && o.data.workCenterId == center.docId)
        center.data.maintenanceWindows good hs.endHour t + 1) t
      (Nat.lt_succ_self _)
    exact ⟨_, r, hr, findNextAvailableStart_mono hr⟩
  · obtain ⟨fuel, e, he⟩ := findEndDateGo_terminates hg7 hgood hlt hsane hobs
      duration.toNat
      (9 * (ReflowService.obstaclesOf center allOrders).length + 7) duration t
      (Nat.le_refl _)
      (by
        have h1 := cloO_le (ReflowService.obstaclesOf center allOrders) t
        have h2 := goodD_le good hs.endHour t
        omega)
    exact ⟨fuel, e, he, findEndDate_mono
      (fun p hp => Nat.le_of_lt (hobs p hp)) he⟩

/-- C8 witness: the default Monday/Tuesday 08–17 table with no obstacles,
cursor 08:00 Monday, duration 60. -/
theorem c8_monotone_terminating_cursors_corrected_witness :
    (∃ fuel r, ReflowService.findNextAvailableStart fuel 480 plainCenter [] =
        some r ∧ 480 ≤ r) ∧
    (∃ fuel e, ReflowService.findEndDate fuel 480 60 plainCenter [] =
        some e ∧ 480 ≤ e) :=
  c8_monotone_terminating_cursors_corrected plainCenter [] 480 60 1 ⟨1, 8, 17⟩
    (by decide) (by decide) (by decide) (by decide) (by decide)

/-- C6: corrected dependency postcondition — for a successful reflow on a
data-model-conforming input (unique docIds, start ≤ end everywhere, an
acyclic dependency graph witnessed by a rank function, nondegenerate
maintenance windows), every dependency pair living on one work center that
appears in the centers list, with both orders non-maintenance, satisfies
`child.start ≥ parent.end` in the output.  The cross-center half of the
original claim is refuted by the counterexample. -/
theorem c6_same_center_dependency_corrected
    (fuel : Nat) (orders : List WorkOrder) (centers : List WorkCenter)
    (r : ReflowedSchedule) (rank : String → Nat)
    (parent child : WorkOrder)
    (hnd : (orders.map (fun o => o.docId)).Nodup)
    (hse : ∀ o ∈ orders, o.data.startDate ≤ o.data.endDate)
    (hrank : ∀ o ∈ orders, ∀ pd ∈ o.data.dependsOnWorkOrderIds,
      ∀ p ∈ orders, p.docId = pd → rank pd < rank o.docId)
    (hwin : ∀ c ∈ centers, ∀ w ∈ c.data.maintenanceWindows,
      w.startDate ≤ w.endDate)
    (hpm : parent ∈ orders) (hcm : child ∈ orders)
    (hedge : parent.docId ∈ child.data.dependsOnWorkOrderIds)
    (hsamewc : parent.data.workCenterId = child.data.workCenterId)
    (hpnm : parent.data.isMaintenance = false)
    (hcnm : child.data.isMaintenance = false)
    (hcen : ∃ c ∈ centers, c.docId = child.data.workCenterId)
    (hok : ReflowService.reflow fuel orders centers = Except.ok r) :
    ∀ pc ∈ r.updatedWorkOrders, pc.docId = parent.docId →
      ∀ cc ∈ r.updatedWorkOrders, cc.docId = child.docId →
        pc.data.endDate ≤ cc.data.startDate := by
  unfold ReflowService.reflow at hok
  simp only [] at hok
  split at hok
  · -- the input is already valid: the dependency pass saw no violation
    rename_i hempty
    injection hok with hok
    subst hok
    intro pc hpc hpcid cc hcc hccid
    dsimp only at hpc hcc ⊢
    have hpc2 : pc = parent := List.inj_on_of_nodup_map hnd hpc hpm hpcid
    have hcc2 : cc = child := List.inj_on_of_nodup_map hnd hcc hcm hccid
    subst hpc2
    subst hcc2
    by_contra hcon
    rw [Nat.not_le] at hcon
    have hviol := checkDependencies_complete hnd hpm hcm hedge hcon
    have hmem : ({ orderId := cc.docId,
                   type := .DEPENDENCY_ERROR,
                   message := .depBeforeParent pc.docId,
                   isFatal := false } :
        Violation) ∈ ConstraintChecker.verify orders centers none := by
      unfold ConstraintChecker.verify
      dsimp only
      simp only [List.mem_append]
      tauto
    rw [List.isEmpty_iff] at hempty
    rw [hempty] at hmem
    exact absurd hmem (List.not_mem_nil _)
  · split at hok
    · exact Except.noConfusion hok
    · cases hr : ReflowService.reschedule fuel orders centers
          (ConstraintChecker.verify orders centers none) with
      | none => rw [hr] at hok; exact Except.noConfusion hok
      | some r2 =>
        rw [hr] at hok
        injection hok with hok
        subst hok
        unfold ReflowService.reschedule at hr
        cases hg : ReflowService.rescheduleGo fuel
            (ConstraintChecker.verify orders centers none) centers
            (orders, [], []) with
        | none => rw [hg] at hr; exact Option.noConfusion hr
        | some res =>
          rw [hg] at hr
          injection hr with hr
          subst hr
          exact rescheduleGo_pair_inv hnd hrank hpm hcm hedge hsamewc
            hpnm hcnm centers (orders, [], []) res hg hwin rfl hse
            (Or.inr hcen)

/-- C6 witness: the same-center chain A ← B — the child is pushed to its
parent's end (A: 08:00–10:00, B: 10:00–12:00). -/
theorem c6_same_center_dependency_corrected_witness :
    chainParent.data.endDate ≤ chainChildMoved.data.startDate :=
  c6_same_center_dependency_corrected 10000 [chainParent, chainChild]
    [plainCenter] chainReflowed (fun id => if id = "B" then 1 else 0)
    chainParent chainChild (by decide) (by decide) (by decide) (by decide)
    (by decide) (by decide) (by decide) (by decide) (by decide) (by decide)
    ⟨plainCenter, by decide, by decide⟩ (by rfl)
    chainParent (by decide) rfl chainChildMoved (by decide) (by decide)

/-- C9: the maintenance-sandwich scenario — window 08:00–09:00, fixed
maintenance order 09:00–10:00, 60-minute production order requested at
08:00 — reflows the production order to 10:00–11:00 with exactly one change
whose paired explanation names the original MAINTENANCE_COLLISION. -/
theorem c9_maintenance_sandwich :
    ReflowService.reflow 10000 [sandwichMaint, sandwichProd] [sandwichCenter] =
      .ok { updatedWorkOrders := [sandwichMaint, sandwichProdMoved],
            changes := [{ workOrderNumber := "THE-JUMPER", newStartDate := 600 }],
            explanation := [.originalViolation .MAINTENANCE_COLLISION] } := by
  rfl

/-- C10: `findEndDate` with a non-positive duration returns its start time
unchanged for every fuel budget, start, center and order list: the consuming
loop is never entered. -/
theorem c10_findEndDate_nonpositive_duration (fuel : Nat) (start : Nat)
    (duration : Int) (center : WorkCenter) (allOrders : List WorkOrder)
    (h : duration ≤ 0) :
    ReflowService.findEndDate fuel start duration center allOrders =
      some start := by
  unfold ReflowService.findEndDate
  cases fuel <;> simp [ReflowService.findEndDateGo, h]

/-- C10 witness: duration −3 (and the loop untouched even with zero fuel). -/
theorem c10_findEndDate_nonpositive_duration_witness :
    ((-3 : Int) ≤ 0) ∧
    ReflowService.findEndDate 0 480 (-3) plainCenter [] = some 480 :=
  ⟨by decide,
   c10_findEndDate_nonpositive_duration 0 480 (-3) plainCenter [] (by decide)⟩

end Scheduler
